import Mathlib

/-!
Verification of the edit-script algebra and diff engines of a
text-differencing library.

Texts are modelled as `List Nat` (one `Nat` per byte; the newline byte is
`10`).  Go's machine integers (`int`) are modelled as unbounded `Int`;
byte offsets produced by the library are non-negative, but the `Edit`
record itself, exactly like the source's `Edit` struct, allows arbitrary
integers, which validation must reject.  Fallible operations return
`Except String`; a Go `panic` is modelled by a dedicated constructor.
-/

namespace GoDiff

/-- `Edit` mirrors the source's `Edit` struct: the byte region
`[Start, End)` of the source text is replaced by `New`. -/
structure Edit where
  Start : Int
  End : Int
  New : List Nat
deriving Repr, DecidableEq

/-- The byte slice `l[i:j]` for natural indices (Go slicing of in-bounds
indices; out-of-range arguments truncate, callers guard bounds). -/
def extractN (l : List Nat) (i j : Nat) : List Nat :=
  (l.drop i).take (j - i)

/-- The byte slice `l[i:j]` for integer indices. -/
def extractI (l : List Nat) (i j : Int) : List Nat :=
  extractN l i.toNat j.toNat

/-- `editLE e1 e2` is the negation of the source's `editsSort.Less(e2, e1)`:
the reflexive total preorder ordering edits by `(Start, End)`. -/
def editLE (e1 e2 : Edit) : Bool :=
  decide (e1.Start < e2.Start) ||
    (decide (e1.Start = e2.Start) && decide (e1.End ≤ e2.End))

/-- `sort.IsSorted(editsSort{edits})`: every adjacent pair is ordered. -/
def isSorted : List Edit → Bool
  | e1 :: e2 :: rest => editLE e1 e2 && isSorted (e2 :: rest)
  | _ => true

/-- `SortEdits` orders a slice of edits by `(start, end)` offset using a
stable sort (the source calls `sort.Stable`). -/
def SortEdits (edits : List Edit) : List Edit :=
  edits.mergeSort editLE

/-- The per-edit loop of `Validate`: checks bounds and overlap against the
running `lastEnd`, accumulating the final size. -/
def validateSize (srcLen : Nat) : List Edit → Int → Int → Except String Int
  | [], size, _ => .ok size
  | e :: rest, size, lastEnd =>
    if ¬(0 ≤ e.Start ∧ e.Start ≤ e.End ∧ e.End ≤ (srcLen : Int)) then
      .error "diff has out-of-bounds edits"
    else if e.Start < lastEnd then
      .error "diff has overlapping edits"
    else
      validateSize srcLen rest (size + e.New.length + e.Start - e.End) e.End

/-- `Validate` checks that edits are consistent with a source of length
`srcLen` and returns the (sorted) edits and the size of the patched
output.  When the input is not already sorted it sorts a copy. -/
def Validate (srcLen : Nat) (edits : List Edit) :
    Except String (List Edit × Int) :=
  let edits := if isSorted edits then edits else SortEdits edits
  match validateSize srcLen edits (srcLen : Int) 0 with
  | .ok size => .ok (edits, size)
  | .error msg => .error msg

/-- Go slicing `src[i:j]`, which panics (`none`) unless `0 ≤ i ≤ j ≤ len`. -/
def goSlice (src : List Nat) (i j : Int) : Option (List Nat) :=
  if 0 ≤ i ∧ i ≤ j ∧ j ≤ (src.length : Int) then some (extractI src i j)
  else none

/-- The edit-application loop of `Apply`; `none` models a slicing panic. -/
def applyLoop (src : List Nat) : List Edit → List Nat → Int → Option (List Nat)
  | [], out, lastEnd =>
    match goSlice src lastEnd (src.length : Int) with
    | some tail => some (out ++ tail)
    | none => none
  | e :: rest, out, lastEnd =>
    if lastEnd < e.Start then
      match goSlice src lastEnd e.Start with
      | some chunk => applyLoop src rest (out ++ chunk ++ e.New) e.End
      | none => none
    else
      applyLoop src rest (out ++ e.New) e.End

/-- Result of `Apply`: a patched buffer, the Go `(empty, err)` return, or a
runtime panic. -/
inductive ApplyResult where
  | ok (out : List Nat) : ApplyResult
  | error (out : List Nat) (msg : String) : ApplyResult
  | panicked (msg : String) : ApplyResult
deriving Repr, DecidableEq

/-- `Apply` applies a sequence of edits to `src` and returns the result,
or the validation error together with the empty text. The `panicked`
outcomes model the slicing panics and the `panic("wrong size")`. -/
def Apply (src : List Nat) (edits : List Edit) : ApplyResult :=
  match Validate src.length edits with
  | .error msg => .error [] msg
  | .ok (edits, size) =>
    match applyLoop src edits [] 0 with
    | none => .panicked "slice bounds out of range"
    | some out => if (out.length : Int) = size then .ok out else .panicked "wrong size"

/-- Specification helper: the text produced by replaying a valid edit
chain from source position `lastEnd` onwards. -/
def applySem (src : List Nat) : List Edit → Int → List Nat
  | [], lastEnd => src.drop lastEnd.toNat
  | e :: rest, lastEnd => extractI src lastEnd e.Start ++ e.New ++ applySem src rest e.End

/-- `text.IndexByte`: index of the first occurrence of `c`, or `-1`. -/
def indexByte (l : List Nat) (c : Nat) : Int :=
  match l with
  | [] => -1
  | x :: xs =>
    if x = c then 0
    else
      let r := indexByte xs c
      if r < 0 then -1 else r + 1

/-- `text.LastIndexByte`: index of the last occurrence of `c`, or `-1`. -/
def lastIndexByte (l : List Nat) (c : Nat) : Int :=
  match l with
  | [] => -1
  | x :: xs =>
    let r := lastIndexByte xs c
    if 0 ≤ r then r + 1 else if x = c then 0 else -1

/-- `expandEdit` returns `edit` expanded to complete whole lines of `src`. -/
def expandEdit (edit : Edit) (src : List Nat) : Edit :=
  let start := edit.Start
  let delta := start - 1 - lastIndexByte (src.take start.toNat) 10
  let e1 : Edit :=
    if 0 < delta then
      { edit with Start := start - delta, New := extractI src (start - delta) start ++ edit.New }
    else edit
  let endv := edit.End
  let nl := indexByte (src.drop endv.toNat) 10
  let newEnd : Int := if nl < 0 then (src.length : Int) else endv + nl + 1
  { e1 with End := newEnd, New := e1.New ++ extractI src endv newEnd }

/-- One edit fails the fast-path alignment test of `lineEdits`: it starts
at or past EOF, or its start or end does not sit at a line start. -/
def notLineAligned (src : List Nat) (e : Edit) : Bool :=
  decide ((src.length : Int) ≤ e.Start) ||
    (decide (0 < e.Start) && decide (src.getD (e.Start - 1).toNat 0 ≠ 10)) ||
    (decide (0 < e.End) && decide (src.getD (e.End - 1).toNat 0 ≠ 10))

/-- The expand-and-merge loop of `lineEdits`, carried out with the running
edit `prev`: edits on the same line group are merged, and each flushed
group is expanded to whole lines by `expandEdit`. -/
def lineEditsLoop (src : List Nat) (prev : Edit) : List Edit → List Edit
  | [] => [expandEdit prev src]
  | e :: rest =>
    let between := extractI src prev.End e.Start
    if between.contains 10 then
      expandEdit prev src :: lineEditsLoop src e rest
    else
      lineEditsLoop src { Start := prev.Start, End := e.End, New := prev.New ++ between ++ e.New } rest

/-- `lineEdits` expands and merges a sequence of edits so that each
resulting edit replaces one or more complete lines. -/
def lineEdits (src : List Nat) (edits : List Edit) : Except String (List Edit) :=
  match Validate src.length edits with
  | .error msg => .error msg
  | .ok (edits, _) =>
    if edits.all fun e => !notLineAligned src e then .ok edits
    else
      match edits with
      | [] => .ok []
      | e :: rest => .ok (lineEditsLoop src e rest)

/-- `io.CopyN` over an in-memory reader positioned at `rp` in `src`:
a non-positive count is a no-op; otherwise exactly `n` bytes must be
available (`none` models the EOF error). -/
def copyN (src : List Nat) (rp : Nat) (n : Int) : Option (Nat × List Nat) :=
  if n ≤ 0 then some (rp, [])
  else if (rp : Int) + n ≤ (src.length : Int) then
    some (rp + n.toNat, extractN src rp (rp + n.toNat))
  else none

/-- The streaming loop of `ApplyTo`: `rp` is the reader position,
`cursor` and `lastEnd` are the source's tracking variables, and `out`
accumulates everything written to the destination. -/
def applyToLoop (src : List Nat) :
    List Edit → Nat → Int → Int → List Nat → Option (List Nat)
  | [], rp, cursor, lastEnd, out =>
    match copyN src rp (lastEnd - cursor) with
    | none => none
    | some (rp1, _) => some (out ++ src.drop rp1)
  | e :: rest, rp, cursor, lastEnd, out =>
    if lastEnd < e.Start then
      match copyN src rp (lastEnd - cursor) with
      | none => none
      | some (rp1, _) =>
        match copyN src rp1 (e.Start - lastEnd) with
        | none => none
        | some (rp2, chunk) =>
          applyToLoop src rest rp2 e.Start e.End (out ++ chunk ++ e.New)
    else
      applyToLoop src rest rp cursor e.End (out ++ e.New)

/-- `ApplyTo` applies a sequence of edits to a reader over `src` and
returns the byte stream written to the destination (the written byte
count of the source is its length). -/
def ApplyTo (src : List Nat) (edits : List Edit) : Except String (List Nat) :=
  match Validate src.length edits with
  | .error msg => .error msg
  | .ok (edits, _) =>
    match applyToLoop src edits 0 0 0 [] with
    | none => .error "EOF"
    | some out => .ok out

/-! ### The LCS engine

Only the sequence abstraction of the LCS package is part of the sources;
the divide-and-conquer driver itself is modelled from the spec below. -/

/-- `commonPrefixLen`: length of the longest common prefix (the source's
loop `for i < n && a[i] == b[i] { i++ }`). -/
def commonPrefixLen : List Nat → List Nat → Nat
  | a :: as', b :: bs => if a = b then commonPrefixLen as' bs + 1 else 0
  | _, _ => 0

/-- `commonSuffixLen`: length of the longest common suffix (the source's
loop `for i < n && a[len(a)-1-i] == b[len(b)-1-i] { i++ }`). -/
def commonSuffixLen (a b : List Nat) : Nat :=
  commonPrefixLen a.reverse b.reverse

/-- An LCS diff: positions `[Start, End)` of A are replaced by positions
`[ReplStart, ReplEnd)` of B. -/
structure Diff where
  Start : Nat
  End : Nat
  ReplStart : Nat
  ReplEnd : Nat
deriving Repr, DecidableEq

/-- Modelled from the spec: the quality of a split point `(x, y)` of the
central window — the surrounding prefix/suffix commonalities. -/
def anchorScore (a b : List Nat) (c : Nat × Nat) : Nat :=
  commonSuffixLen (a.take c.1) (b.take c.2) +
    commonPrefixLen (a.drop c.1) (b.drop c.2)

/-- Modelled from the spec: all split points of an `m × n` window other
than its two corners. -/
def anchorCandidates (m n : Nat) : List (Nat × Nat) :=
  ((List.range (m + 1)).flatMap fun x => (List.range (n + 1)).map fun y => (x, y)).filter
    fun c => !(c.1 == 0 && c.2 == 0) && !(c.1 == m && c.2 == n)

/-- Modelled from the spec: the anchor is a non-corner pair `(x, y)` of
maximal `anchorScore`, ties broken toward smaller `x`, then smaller `y`. -/
def chooseAnchor (a b : List Nat) : Nat × Nat :=
  (anchorCandidates a.length b.length).foldl
    (fun best c => if anchorScore a b best < anchorScore a b c then c else best)
    (0, b.length)

/-- Shift a diff's A-offsets by `da` and B-offsets by `db`. -/
def shiftDiff (da db : Nat) (d : Diff) : Diff :=
  ⟨da + d.Start, da + d.End, db + d.ReplStart, db + d.ReplEnd⟩

/-- Modelled from the spec (the LCS divide-and-conquer engine, absent
from the sources): trim the common prefix and suffix; if either side of
the surviving window is empty emit at most one diff; otherwise split at
the anchor and recurse.  The final guard is a defensive restatement of
the anchor's contract needed for termination; `chooseAnchor` always
satisfies it when both sides are non-empty. -/
def lcsCore (a b : List Nat) : List Diff :=
  let p := commonPrefixLen a b
  let a1 := a.drop p
  let b1 := b.drop p
  let s := commonSuffixLen a1 b1
  let a2 := a1.take (a1.length - s)
  let b2 := b1.take (b1.length - s)
  if a2.length = 0 ∧ b2.length = 0 then []
  else if a2.length = 0 ∨ b2.length = 0 then
    [⟨p, p + a2.length, p, p + b2.length⟩]
  else
    let xy := chooseAnchor a2 b2
    if h : xy.1 ≤ a2.length ∧ xy.2 ≤ b2.length ∧ ¬(xy.1 = 0 ∧ xy.2 = 0) ∧
        ¬(xy.1 = a2.length ∧ xy.2 = b2.length) then
      (lcsCore (a2.take xy.1) (b2.take xy.2)).map (shiftDiff p p) ++
        (lcsCore (a2.drop xy.1) (b2.drop xy.2)).map (shiftDiff (p + xy.1) (p + xy.2))
    else [⟨p, p + a2.length, p, p + b2.length⟩]
termination_by a.length + b.length
decreasing_by
  · obtain ⟨h1, h2, h3, h4⟩ := h
    unfold_let xy a2 b2 s a1 b1 p at h1 h2 h3 h4
    simp only [List.length_take, List.length_drop] at *
    omega
  · obtain ⟨h1, h2, h3, h4⟩ := h
    unfold_let xy a2 b2 s a1 b1 p at h1 h2 h3 h4
    simp only [List.length_take, List.length_drop] at *
    omega

/-- Modelled from the spec: merge adjacent diffs that touch in both
sequences into one. -/
def mergeDiffs : List Diff → List Diff
  | [] => []
  | [d] => [d]
  | d1 :: d2 :: rest =>
    if d1.End = d2.Start ∧ d1.ReplEnd = d2.ReplStart then
      mergeDiffs (⟨d1.Start, d2.End, d1.ReplStart, d2.ReplEnd⟩ :: rest)
    else d1 :: mergeDiffs (d2 :: rest)
termination_by l => l.length

/-- Modelled from the spec: `lcs.DiffText` — the list of non-matching
regions of two byte sequences. -/
def DiffText (a b : List Nat) : List Diff :=
  mergeDiffs (lcsCore a b)

/-- Convert one LCS diff into an edit on `before`, replacing with bytes
of `after` (`Edit{d.Start, d.End, after[d.ReplStart:d.ReplEnd]}`). -/
def toEdit (after : List Nat) (d : Diff) : Edit :=
  ⟨(d.Start : Int), (d.End : Int), extractN after d.ReplStart d.ReplEnd⟩

/-- `diffASCII`: run the byte-level LCS and convert its diffs to edits. -/
def diffASCII (before after : List Nat) : List Edit :=
  (DiffText before after).map (toEdit after)

/-- `Binary` computes the byte-level differences between two texts:
`diffText(before, after, binary := true)`, which returns no edits for
equal inputs and otherwise always takes the ASCII/byte path. -/
def Binary (before after : List Nat) : List Edit :=
  if before = after then [] else diffASCII before after

/-! ### The Myers engine

A faithful translation of the `myers` package: the O(ND) shortest edit
sequence over line arrays, snake backtracking, and conversion of the
operations to byte-offset edits.  `none` models the panics that would
follow from an (unreachable) failed search. -/


inductive OpKind where
  | Delete : OpKind
  | Insert : OpKind
deriving Repr, DecidableEq

structure Operation where
  Kind : OpKind
  Start : Int
  End : Int
  ReplStart : Int
  ReplEnd : Int
deriving Repr, DecidableEq

/-- text.SplitAfter(t, "\n") -/
def splitAfterNl : List Nat → List (List Nat)
  | [] => [[]]
  | c :: rest =>
    if c = 10 then [c] :: splitAfterNl rest
    else
      match splitAfterNl rest with
      | [] => [[c]]
      | l :: ls => (c :: l) :: ls

def splitLines (t : List Nat) : List (List Nat) :=
  let lines := splitAfterNl t
  if (lines.getLast?.getD [0]).length = 0 then lines.dropLast else lines

/-- the diagonal slide of shortestEditSequence -/
def sesSlide (a b : List (List Nat)) (M N : Nat) (x y : Int) : Int × Int :=
  if x < (M : Int) ∧ y < (N : Int) ∧ a.getD x.toNat [] = b.getD y.toNat [] then
    sesSlide a b M N (x + 1) (y + 1)
  else (x, y)
termination_by ((M : Int) - x).toNat
decreasing_by omega

/-- inner k-loop; returns updated V and whether (M,N) was reached -/
def sesInner (a b : List (List Nat)) (M N offset : Nat) (d : Nat) :
    List Int → List Int → (List Int × Bool)
  | [], V => (V, false)
  | k :: ks, V =>
    let x0 : Int :=
      if k = -(d : Int) ∨ (k ≠ (d : Int) ∧ V.getD (k - 1 + offset).toNat 0 < V.getD (k + 1 + offset).toNat 0)
      then V.getD (k + 1 + offset).toNat 0
      else V.getD (k - 1 + offset).toNat 0 + 1
    let xy := sesSlide a b M N x0 (x0 - k)
    let V' := V.set (k + offset).toNat xy.1
    if xy.1 = (M : Int) ∧ xy.2 = (N : Int) then (V', true)
    else sesInner a b M N offset d ks V'

def sesKs (d : Nat) : List Int :=
  (List.range (d + 1)).map fun i => -(d : Int) + 2 * i

def sesOuter (a b : List (List Nat)) (M N offset : Nat) :
    Nat → List Int → List (List Int) → Option (List (List Int))
  | d, V, trace =>
    if d ≤ N + M then
      match sesInner a b M N offset d (sesKs d) V with
      | (V', true) => some (trace.set d V')
      | (V', false) => sesOuter a b M N offset (d + 1) V' (trace.set d V')
    else none
termination_by d => N + M + 1 - d

def shortestEditSequence (a b : List (List Nat)) : Option (List (List Int)) × Nat :=
  let M := a.length
  let N := b.length
  match sesOuter a b M N (N + M) 0 (List.replicate (2 * (N + M) + 1) 0)
      (List.replicate (N + M + 1) []) with
  | some trace => (some trace, N + M)
  | none => (none, 0)

def backtrackGo (trace : List (List Int)) (offset : Nat) :
    Int → Int → Int → List (List Int) → List (List Int)
  | d, x, y, snakes =>
    if 0 < x ∧ 0 < y ∧ 0 < d then
      let V := trace.getD d.toNat []
      if V.length = 0 then backtrackGo trace offset (d - 1) x y snakes
      else
        let snakes' := snakes.set d.toNat [x, y]
        let k := x - y
        let kPrev :=
          if k = -d ∨ (k ≠ d ∧ V.getD (k - 1 + offset).toNat 0 < V.getD (k + 1 + offset).toNat 0)
          then k + 1 else k - 1
        let x' := V.getD (kPrev + offset).toNat 0
        backtrackGo trace offset (d - 1) x' (x' - kPrev) snakes'
    else
      if x < 0 ∨ y < 0 then snakes
      else snakes.set d.toNat [x, y]
termination_by d => d.toNat
decreasing_by all_goals omega

def backtrack (trace : List (List Int)) (x y : Int) (offset : Nat) : List (List Int) :=
  backtrackGo trace offset ((trace.length : Int) - 1) x y (List.replicate trace.length [])

def opsDeleteAdvance (M kS y : Int) (x : Int) : Int :=
  if kS > x - y then
    if x + 1 = M then x + 1 else opsDeleteAdvance M kS y (x + 1)
  else x
termination_by (kS - (x - y)).toNat
decreasing_by omega

def opsInsertAdvance (kS x : Int) (y : Int) : Int :=
  if kS < x - y then opsInsertAdvance kS x (y + 1) else y
termination_by (x - y - kS).toNat
decreasing_by omega

def opsEqualAdvance (s0 : Int) (x : Int) : Int :=
  if x < s0 then opsEqualAdvance s0 (x + 1) else x
termination_by (s0 - x).toNat
decreasing_by omega

def opsLoop (M N : Int) : List (List Int) → Int → Int → List Operation → List Operation
  | [], _, _, acc => acc
  | snake :: rest, x, y, acc =>
    if snake.length < 2 then opsLoop M N rest x y acc
    else
      let s0 := snake.getD 0 0
      let s1 := snake.getD 1 0
      let kS := s0 - s1
      let del : List Operation × Int :=
        if kS > x - y then
          let xf := opsDeleteAdvance M kS y x
          ([⟨.Delete, x, xf, y, 0⟩], xf)
        else ([], x)
      let x1 := del.2
      let ins : List Operation × Int :=
        if kS < x1 - y then
          let yf := opsInsertAdvance kS x1 y
          ([⟨.Insert, x1, x1, y, yf⟩], yf)
        else ([], y)
      let y1 := ins.2
      let xe := opsEqualAdvance s0 x1
      let ye := y1 + (xe - x1)
      let acc' := acc ++ del.1 ++ ins.1
      if (M : Int) ≤ xe ∧ (N : Int) ≤ ye then acc'
      else opsLoop M N rest xe ye acc'

def Operations (a b : List (List Nat)) : Option (List Operation) :=
  if a.length = 0 ∧ b.length = 0 then some []
  else
    match shortestEditSequence a b with
    | (none, _) => none
    | (some trace, offset) =>
      let snakes := backtrack trace (a.length : Int) (b.length : Int) offset
      some (opsLoop (a.length : Int) (b.length : Int) snakes 0 0 [])

def lineOffsets (lines : List (List Nat)) : List Nat :=
  (List.range (lines.length + 1)).map fun i => ((lines.take i).map List.length).sum

def joinLines (lines : List (List Nat)) : List Nat := lines.flatten

def ComputeEdits (before after : List Nat) : Option (List Edit) :=
  let beforeLines := splitLines before
  let afterLines := splitLines after
  match Operations beforeLines afterLines with
  | none => none
  | some ops =>
    let offs := lineOffsets beforeLines
    some (ops.flatMap fun op =>
      let start := (offs.getD op.Start.toNat 0 : Int)
      let stop := (offs.getD op.End.toNat 0 : Int)
      match op.Kind with
      | .Delete => [⟨start, stop, []⟩]
      | .Insert =>
        let content := joinLines ((afterLines.take op.ReplEnd.toNat).drop op.ReplStart.toNat)
        if content.length ≠ 0 then [⟨start, stop, content⟩] else [])


/-- Equality of `Except` values is decidable (not provided by the core
library for this toolchain). -/
instance exceptDecEq {e a : Type} [DecidableEq e] [DecidableEq a] : DecidableEq (Except e a) :=
  fun x y =>
    match x, y with
    | .ok u, .ok v =>
      if h : u = v then .isTrue (by rw [h]) else .isFalse fun hc => h (Except.ok.inj hc)
    | .error u, .error v =>
      if h : u = v then .isTrue (by rw [h]) else .isFalse fun hc => h (Except.error.inj hc)
    | .ok _, .error _ => .isFalse fun hc => Except.noConfusion hc
    | .error _, .ok _ => .isFalse fun hc => Except.noConfusion hc


/-- Specification predicate: the edit references a byte range contained
in `[0, L]` (the bounds check of validation). -/
def inBoundsB (L : Nat) (e : Edit) : Bool :=
  decide (0 ≤ e.Start) && decide (e.Start ≤ e.End) && decide (e.End ≤ (L : Int))

/-- Specification predicate: walking the list from the position `le`,
every edit starts at or after the previous edit's end (no overlap). -/
def chainOKB : Int → List Edit → Bool
  | _, [] => true
  | lastEnd, e :: rest => decide (lastEnd ≤ e.Start) && chainOKB e.End rest

/-- The end position of the last edit of the list (or `le` if empty). -/
def lastEndOf (le : Int) : List Edit → Int
  | [] => le
  | e :: rest => lastEndOf e.End rest


/-- Specification predicate: the diff list rewrites window `[la, ea)` of
`a` onto window `[lb, eb)` of `b`: diffs are ordered and in-window, and
the gaps between them (and up to the window edges) are equal segments. -/
def patchesW (a b : List Nat) : Nat → Nat → Nat → Nat → List Diff → Prop
  | la, lb, ea, eb, [] =>
    la ≤ ea ∧ ea ≤ a.length ∧ lb ≤ eb ∧ eb ≤ b.length ∧ extractN a la ea = extractN b lb eb
  | la, lb, ea, eb, d :: ds =>
    la ≤ d.Start ∧ d.Start ≤ d.End ∧ d.End ≤ ea ∧
    lb ≤ d.ReplStart ∧ d.ReplStart ≤ d.ReplEnd ∧ d.ReplEnd ≤ eb ∧
    extractN a la d.Start = extractN b lb d.ReplStart ∧
    patchesW a b d.End d.ReplEnd ea eb ds


/-- Specification predicate: from position `lastEnd`, the edits are
ordered, non-overlapping and within a source of length `L`. -/
def editsValid (L : Nat) : Int → List Edit → Prop
  | _, [] => True
  | lastEnd, e :: rest =>
    lastEnd ≤ e.Start ∧ e.Start ≤ e.End ∧ e.End ≤ (L : Int) ∧ editsValid L e.End rest

/-! ## Myers diff search: specification predicates -/

/-- Extended-lattice reachability for the O(ND) search over the line
arrays `a` and `b`: the point `(x, y)` is reachable from `(0, 0)` with
exactly `d` unit moves (one step right or one step down, unbounded,
mirroring the search's unclamped `V` values) and any number of diagonal
moves, a diagonal move being allowed at `(x, y)` only when both
coordinates are inside the grid and lines `a[x]` and `b[y]` are equal. -/
inductive sesReach (a b : List (List Nat)) : Nat → Int → Int → Prop where
  | base : sesReach a b 0 0 0
  | diag {d : Nat} {x y : Int} : sesReach a b d x y → x < (a.length : Int) →
      y < (b.length : Int) → a.getD x.toNat [] = b.getD y.toNat [] →
      sesReach a b d (x + 1) (y + 1)
  | step_r {d : Nat} {x y : Int} : sesReach a b d x y → sesReach a b (d + 1) (x + 1) y
  | step_d {d : Nat} {x y : Int} : sesReach a b d x y → sesReach a b (d + 1) x (y + 1)

/-- The mathematical value of the search's `V` array: `myersX0 a b d k`
is the step value the round-`d` update computes for diagonal `k` from
the previous round's values (with out-of-range reads clamped to the
array's untouched zeros), and `myersF a b d k` is the stored value, the
end of the slide from the step value along diagonal `k`. -/
def myersF (a b : List (List Nat)) : Nat → Int → Int
  | 0, k => (sesSlide a b a.length b.length 0 (0 - k)).1
  | d + 1, k =>
    let f : Int → Int := fun j =>
      if j < -(d : Int) ∨ (d : Int) < j then 0 else myersF a b d j
    let x0 : Int :=
      if k = -((d : Int) + 1) ∨ (k ≠ (d : Int) + 1 ∧ f (k - 1) < f (k + 1)) then f (k + 1)
      else f (k - 1) + 1
    (sesSlide a b a.length b.length x0 (x0 - k)).1

def myersX0 (a b : List (List Nat)) : Nat → Int → Int
  | 0, _ => 0
  | d + 1, k =>
    let f : Int → Int := fun j =>
      if j < -(d : Int) ∨ (d : Int) < j then 0 else myersF a b d j
    if k = -((d : Int) + 1) ∨ (k ≠ (d : Int) + 1 ∧ f (k - 1) < f (k + 1)) then f (k + 1)
    else f (k - 1) + 1

/-- The array slot of diagonal `j` for the given offset. -/
def vIdx (off : Nat) (j : Int) : Nat := (j + (off : Int)).toNat

/-- The state of the search's `V` array after a completed round `d`:
diagonals of the round's parity inside `[-d, d]` hold the round-`d`
values, diagonals of the opposite parity inside `[-(d-1), d-1]` still
hold the previous round's values, all other slots are untouched
zeros. -/
def ArrState (a b : List (List Nat)) (d : Nat) (V : List Int) : Prop :=
  V.length = 2 * (b.length + a.length) + 1 ∧
  ∀ j : Int, -((b.length + a.length : Nat) : Int) ≤ j →
    j ≤ ((b.length + a.length : Nat) : Int) →
    ((j + d) % 2 = 0 ∧ -(d : Int) ≤ j ∧ j ≤ (d : Int) →
      V.getD (vIdx (b.length + a.length) j) 0 = myersF a b d j) ∧
    ((j + d) % 2 = 0 ∧ ¬(-(d : Int) ≤ j ∧ j ≤ (d : Int)) →
      V.getD (vIdx (b.length + a.length) j) 0 = 0) ∧
    ((j + d) % 2 = 1 ∧ -(d : Int) + 1 ≤ j ∧ j ≤ (d : Int) - 1 →
      V.getD (vIdx (b.length + a.length) j) 0 = myersF a b (d - 1) j) ∧
    ((j + d) % 2 = 1 ∧ ¬(-(d : Int) + 1 ≤ j ∧ j ≤ (d : Int) - 1) →
      V.getD (vIdx (b.length + a.length) j) 0 = 0)

/-- The state of the `V` array in the middle of round `d`, after the
first `i` diagonals of the round (`-d, -d+2, …, -d+2(i-1)`) have been
written. -/
def PartState (a b : List (List Nat)) (d i : Nat) (V : List Int) : Prop :=
  V.length = 2 * (b.length + a.length) + 1 ∧
  ∀ j : Int, -((b.length + a.length : Nat) : Int) ≤ j →
    j ≤ ((b.length + a.length : Nat) : Int) →
    ((j + d) % 2 = 0 ∧ -(d : Int) ≤ j ∧ j < -(d : Int) + 2 * i ∧ j ≤ (d : Int) →
      V.getD (vIdx (b.length + a.length) j) 0 = myersF a b d j) ∧
    ((j + d) % 2 = 0 ∧ ¬(-(d : Int) ≤ j ∧ j ≤ (d : Int)) →
      V.getD (vIdx (b.length + a.length) j) 0 = 0) ∧
    ((j + d) % 2 = 1 ∧ -(d : Int) + 1 ≤ j ∧ j ≤ (d : Int) - 1 →
      V.getD (vIdx (b.length + a.length) j) 0 = myersF a b (d - 1) j) ∧
    ((j + d) % 2 = 1 ∧ ¬(-(d : Int) + 1 ≤ j ∧ j ≤ (d : Int) - 1) →
      V.getD (vIdx (b.length + a.length) j) 0 = 0)

/-- What backtracking needs of the (possibly partial) final row: the
previous round's diagonals are intact, and the corner diagonal holds its
round value. -/
def FinalRow (a b : List (List Nat)) (d : Nat) (V : List Int) : Prop :=
  V.length = 2 * (b.length + a.length) + 1 ∧
  V.getD (vIdx (b.length + a.length) ((a.length : Int) - (b.length : Int))) 0 =
    myersF a b d ((a.length : Int) - (b.length : Int)) ∧
  ∀ j : Int, -((b.length + a.length : Nat) : Int) ≤ j →
    j ≤ ((b.length + a.length : Nat) : Int) →
    ((j + d) % 2 = 1 ∧ -(d : Int) + 1 ≤ j ∧ j ≤ (d : Int) - 1 →
      V.getD (vIdx (b.length + a.length) j) 0 = myersF a b (d - 1) j) ∧
    ((j + d) % 2 = 1 ∧ ¬(-(d : Int) + 1 ≤ j ∧ j ≤ (d : Int) - 1) →
      V.getD (vIdx (b.length + a.length) j) 0 = 0)

/-- The trace rows accumulated before round `d`: completed rounds hold
their completed array states, rows from `d` on are still the initial
empty lists. -/
def TraceState (a b : List (List Nat)) (d : Nat) (T : List (List Int)) : Prop :=
  T.length = b.length + a.length + 1 ∧
  (∀ r : Nat, d ≤ r → T.getD r [] = []) ∧
  (∀ r : Nat, r < d → ArrState a b r (T.getD r []))

/-- The trace returned by a successful search: full rows below the
firing round, the (possibly partial) firing row, empty rows above. -/
def FinalTrace (a b : List (List Nat)) (dfin : Nat) (T : List (List Int)) : Prop :=
  T.length = b.length + a.length + 1 ∧
  dfin < T.length ∧
  (∀ r : Nat, dfin < r → T.getD r [] = []) ∧
  (∀ r : Nat, r < dfin → ArrState a b r (T.getD r [])) ∧
  FinalRow a b dfin (T.getD dfin [])

/-- One snake segment of the backtracked solution, from `(x, y)` to
`(x2, y2)`: coordinates advance inside the grid, and on the target
diagonal every position from the point where the segment reaches that
diagonal up to `x2` carries equal lines (one unit step across diagonals
is allowed below that point, and the del/ins prefix of the segment lies
outside the equal range). -/
def SEG (a b : List (List Nat)) (x y x2 y2 : Int) : Prop :=
  x ≤ x2 ∧ y ≤ y2 ∧ 0 ≤ x ∧ 0 ≤ y ∧ x2 ≤ (a.length : Int) ∧ y2 ≤ (b.length : Int) ∧
  ∀ i : Int, x ≤ i → (x2 - y2) + y ≤ i → i < x2 →
    a.getD i.toNat [] = b.getD (i - (x2 - y2)).toNat []

/-- The shape of the snakes list the operation builder consumes, read
from position `(x, y)`: blanks are skipped, each two-element entry is
the endpoint of a valid segment from the current position, no entry
before the last reaches the corner, and the last consumed entry is the
corner itself (entries after it are never read). -/
inductive SnakeSpec (a b : List (List Nat)) : Int → Int → List (List Int) → Prop where
  | corner {x y : Int} {l : List (List Int)} :
      SEG a b x y (a.length : Int) (b.length : Int) →
      SnakeSpec a b x y ([(a.length : Int), (b.length : Int)] :: l)
  | skip {x y : Int} {l : List (List Int)} :
      SnakeSpec a b x y l → SnakeSpec a b x y ([] :: l)
  | seg {x y x2 y2 : Int} {l : List (List Int)} :
      SEG a b x y x2 y2 → ¬((a.length : Int) ≤ x2 ∧ (b.length : Int) ≤ y2) →
      SnakeSpec a b x2 y2 l → SnakeSpec a b x y ([x2, y2] :: l)

/-- What backtracking reads of a trace row for round `d`: the previous
round's diagonals, clamped to zero outside their range. -/
def RowReads (a b : List (List Nat)) (d : Nat) (V : List Int) : Prop :=
  V.length = 2 * (b.length + a.length) + 1 ∧
  ∀ j : Int, -((b.length + a.length : Nat) : Int) ≤ j →
    j ≤ ((b.length + a.length : Nat) : Int) →
    ((j + d) % 2 = 1 ∧ -(d : Int) + 1 ≤ j ∧ j ≤ (d : Int) - 1 →
      V.getD (vIdx (b.length + a.length) j) 0 = myersF a b (d - 1) j) ∧
    ((j + d) % 2 = 1 ∧ ¬(-(d : Int) + 1 ≤ j ∧ j ≤ (d : Int) - 1) →
      V.getD (vIdx (b.length + a.length) j) 0 = 0)

/-- The operations produced by the builder, read from line position
`(x, y)`: deletions and insertions carry the positions the builder
recorded, and between and after them the two line arrays agree
diagonally. -/
inductive OpsChain (a b : List (List Nat)) : Int → Int → List Operation → Prop where
  | done {x y : Int} :
      0 ≤ x → 0 ≤ y → x ≤ (a.length : Int) → y ≤ (b.length : Int) →
      a.drop x.toNat = b.drop y.toNat →
      OpsChain a b x y []
  | del {x y e : Int} {rest : List Operation} :
      0 ≤ x → 0 ≤ y → x < e → e ≤ (a.length : Int) →
      OpsChain a b e y rest →
      OpsChain a b x y (⟨.Delete, x, e, y, 0⟩ :: rest)
  | ins {x y f : Int} {rest : List Operation} :
      0 ≤ x → 0 ≤ y → y < f → f ≤ (b.length : Int) → x ≤ (a.length : Int) →
      OpsChain a b x f rest →
      OpsChain a b x y (⟨.Insert, x, x, y, f⟩ :: rest)
  | gap {x y : Int} {rest : List Operation} (g : Int) :
      0 < g → 0 ≤ x → 0 ≤ y →
      x + g ≤ (a.length : Int) → y + g ≤ (b.length : Int) →
      (∀ i : Int, 0 ≤ i → i < g →
        a.getD (x + i).toNat [] = b.getD (y + i).toNat []) →
      OpsChain a b (x + g) (y + g) rest →
      OpsChain a b x y rest

/-- The byte offset of line `i`: total length of the lines before it. -/
def lineTot (aL : List (List Nat)) (i : Nat) : Nat :=
  ((aL.take i).map List.length).sum

/-- The edit list `ComputeEdits` builds from an operation list (the
per-operation conversion of its final loop). -/
def opEdits (aL bL : List (List Nat)) (ops : List Operation) : List Edit :=
  let offs := lineOffsets aL
  ops.flatMap fun op =>
    let start := (offs.getD op.Start.toNat 0 : Int)
    let stop := (offs.getD op.End.toNat 0 : Int)
    match op.Kind with
    | .Delete => [⟨start, stop, []⟩]
    | .Insert =>
      let content := joinLines ((bL.take op.ReplEnd.toNat).drop op.ReplStart.toNat)
      if content.length ≠ 0 then [⟨start, stop, content⟩] else []

/-! ## Basic slice lemmas -/

theorem extractN_length (l : List Nat) (i j : Nat) (hi : i ≤ j) (hj : j ≤ l.length) :
    (extractN l i j).length = j - i := by
  simp [extractN, List.length_take, List.length_drop]
  omega

theorem extractN_full (l : List Nat) (i : Nat) : extractN l i l.length = l.drop i := by
  simp only [extractN]
  exact List.take_of_length_le (by simp [List.length_drop])

theorem extractN_self (l : List Nat) (i : Nat) : extractN l i i = [] := by
  simp [extractN]

theorem extractN_append_part (l : List Nat) (i j k : Nat) (hij : i ≤ j) (hjk : j ≤ k) :
    extractN l i j ++ extractN l j k = extractN l i k := by
  simp only [extractN]
  have hd : l.drop j = (l.drop i).drop (j - i) := by
    rw [List.drop_drop]
    congr 1
    omega
  rw [hd]
  rw [show k - i = (j - i) + (k - j) by omega, List.take_add]

theorem extractN_zero (l : List Nat) (j : Nat) : extractN l 0 j = l.take j := by
  simp [extractN]

theorem extractI_of_nonneg (l : List Nat) (i j : Int) (hi : 0 ≤ i) (hj : 0 ≤ j) :
    extractI l i j = extractN l i.toNat j.toNat := rfl

/-! ## Validation and application -/

theorem validateSize_ok_applyLoop (src : List Nat) :
    ∀ (edits : List Edit) (size0 lastEnd size : Int) (out : List Nat),
    validateSize src.length edits size0 lastEnd = .ok size →
    0 ≤ lastEnd → lastEnd ≤ (src.length : Int) →
    applyLoop src edits out lastEnd = some (out ++ applySem src edits lastEnd)
  | [], size0, lastEnd, size, out, hv, h0, hl => by
    simp only [applyLoop, goSlice, applySem]
    rw [if_pos ⟨h0, hl, le_refl _⟩]
    simp [extractI, extractN_full]
  | e :: rest, size0, lastEnd, size, out, hv, h0, hl => by
    simp only [validateSize] at hv
    split at hv
    · exact absurd hv (by simp)
    · split at hv
      · exact absurd hv (by simp)
      · rename_i hb hov
        push_neg at hb
        obtain ⟨hb0, hbse, hbe⟩ := hb
        push_neg at hov
        simp only [applyLoop, applySem]
        by_cases hlt : lastEnd < e.Start
        · rw [if_pos hlt]
          simp only [goSlice]
          rw [if_pos ⟨h0, le_of_lt hlt, le_trans hbse hbe⟩]
          dsimp only
          rw [validateSize_ok_applyLoop src rest _ e.End size (out ++ extractI src lastEnd e.Start ++ e.New)
            hv (le_trans hb0 hbse) hbe]
          simp
        · rw [if_neg hlt]
          have heq : lastEnd = e.Start := le_antisymm hov (not_lt.mp hlt)
          rw [validateSize_ok_applyLoop src rest _ e.End size (out ++ e.New) hv
            (le_trans hb0 hbse) hbe]
          subst heq
          simp [extractI, extractN_self]

theorem validateSize_ok_length (src : List Nat) :
    ∀ (edits : List Edit) (size0 lastEnd size : Int),
    validateSize src.length edits size0 lastEnd = .ok size →
    0 ≤ lastEnd → lastEnd ≤ (src.length : Int) →
    ((applySem src edits lastEnd).length : Int) = size - size0 + ((src.length : Int) - lastEnd)
  | [], size0, lastEnd, size, hv, h0, hl => by
    simp only [validateSize, Except.ok.injEq] at hv
    subst hv
    simp only [applySem, List.length_drop]
    omega
  | e :: rest, size0, lastEnd, size, hv, h0, hl => by
    simp only [validateSize] at hv
    split at hv
    · exact absurd hv (by simp)
    · split at hv
      · exact absurd hv (by simp)
      · rename_i hb hov
        push_neg at hb
        obtain ⟨hb0, hbse, hbe⟩ := hb
        push_neg at hov
        have ih := validateSize_ok_length src rest (size0 + e.New.length + e.Start - e.End) e.End size hv
          (le_trans hb0 hbse) hbe
        simp only [applySem, List.length_append]
        have hseg : ((extractI src lastEnd e.Start).length : Int) = e.Start - lastEnd := by
          rw [extractI_of_nonneg src _ _ h0 hb0,
            extractN_length src _ _ (by omega) (by omega)]
          omega
        push_cast
        push_cast at hseg ih
        omega

theorem Validate_ok_Apply (src : List Nat) (edits edits' : List Edit) (size : Int)
    (h : Validate src.length edits = .ok (edits', size)) :
    Apply src edits = .ok (applySem src edits' 0) ∧
      ((applySem src edits' 0).length : Int) = size := by
  simp only [Validate] at h
  set l := if isSorted edits then edits else SortEdits edits with hl
  cases hv : validateSize src.length l (src.length : Int) 0 with
  | error m => rw [hv] at h; exact absurd h (by simp)
  | ok sz =>
    rw [hv] at h
    simp only [Except.ok.injEq, Prod.mk.injEq] at h
    obtain ⟨he, hs⟩ := h
    subst hs
    subst he
    have hlen := validateSize_ok_length src l (src.length : Int) 0 sz hv le_rfl (by positivity)
    have hloop := fun out => validateSize_ok_applyLoop src l (src.length : Int) 0 sz out hv le_rfl (by positivity)
    constructor
    · simp only [Apply, Validate]
      rw [← hl, hv]
      dsimp only
      rw [hloop []]
      simp only [List.nil_append]
      rw [if_pos (by omega)]
    · omega

/-- C2: for every source text and edit list, if validation against
`len(src)` succeeds then `Apply` raises no panic: it returns a patched
buffer (never the `panicked` outcome that models the slicing panics and
the "wrong size" panic), and that buffer's length equals the size
computed by validation. -/
theorem C2_apply_total_on_validated (src : List Nat) (E E' : List Edit) (size : Int)
    (h : Validate src.length E = .ok (E', size)) :
    ∃ out, Apply src E = ApplyResult.ok out ∧ (out.length : Int) = size := by
  obtain ⟨ha, hl⟩ := Validate_ok_Apply src E E' size h
  exact ⟨applySem src E' 0, ha, hl⟩

theorem C2_apply_total_on_validated_witness :
    Validate (List.length [7, 8, 9]) [⟨1, 2, [5, 6]⟩] = .ok ([⟨1, 2, [5, 6]⟩], 4) ∧
      ∃ out, Apply [7, 8, 9] [⟨1, 2, [5, 6]⟩] = ApplyResult.ok out ∧ (out.length : Int) = 4 :=
  ⟨by decide, C2_apply_total_on_validated [7, 8, 9] [⟨1, 2, [5, 6]⟩] [⟨1, 2, [5, 6]⟩] 4 (by decide)⟩

/-- C9: `Apply` is all-or-nothing: it either returns a fully patched
buffer with no error, or it returns the empty text together with the
validation error; no partially applied result is ever produced. -/
theorem C9_apply_all_or_nothing (src : List Nat) (E : List Edit) :
    (∃ out, Apply src E = ApplyResult.ok out) ∨
      ∃ msg, Validate src.length E = .error msg ∧ Apply src E = ApplyResult.error [] msg := by
  cases hv : Validate src.length E with
  | error msg =>
    right
    refine ⟨msg, rfl, ?_⟩
    unfold Apply
    rw [hv]
  | ok r =>
    left
    obtain ⟨ha, -⟩ := Validate_ok_Apply src E r.1 r.2 (by rw [hv])
    exact ⟨_, ha⟩

/-! ## Sorting -/

theorem editLE_trans (a b c : Edit) (h1 : editLE a b = true) (h2 : editLE b c = true) :
    editLE a c = true := by
  simp only [editLE, Bool.or_eq_true, Bool.and_eq_true, decide_eq_true_eq] at *
  omega

theorem editLE_total (a b : Edit) : (editLE a b || editLE b a) = true := by
  simp only [editLE, Bool.or_eq_true, Bool.and_eq_true, decide_eq_true_eq]
  omega

theorem isSorted_iff_pairwise (l : List Edit) :
    isSorted l = true ↔ l.Pairwise fun a b => editLE a b = true := by
  induction l with
  | nil => simp [isSorted]
  | cons x xs ih =>
    cases xs with
    | nil => simp [isSorted]
    | cons y ys =>
      simp only [isSorted, Bool.and_eq_true, ih, List.pairwise_cons]
      constructor
      · rintro ⟨hxy, hy, hys⟩
        refine ⟨?_, hy, hys⟩
        intro z hz
        rcases List.mem_cons.mp hz with rfl | hz'
        · exact hxy
        · exact editLE_trans x y z hxy (hy z hz')
      · rintro ⟨hx, hy, hys⟩
        exact ⟨hx y (by simp), hy, hys⟩

theorem sortEdits_of_sorted (E : List Edit) (h : isSorted E = true) : SortEdits E = E :=
  List.mergeSort_of_sorted ((isSorted_iff_pairwise E).mp h)

theorem sortEdits_sorted (E : List Edit) : isSorted (SortEdits E) = true :=
  (isSorted_iff_pairwise _).mpr (List.sorted_mergeSort editLE_trans editLE_total E)

theorem validate_branch_eq (E : List Edit) :
    (if isSorted E then E else SortEdits E) = SortEdits E := by
  by_cases h : isSorted E
  · rw [if_pos h, sortEdits_of_sorted E h]
  · rw [if_neg h]

theorem Validate_eq_sorted (L : Nat) (E : List Edit) :
    Validate L E =
      match validateSize L (SortEdits E) (L : Int) 0 with
      | .ok size => .ok (SortEdits E, size)
      | .error msg => .error msg := by
  unfold Validate
  rw [validate_branch_eq]

/-- C8: `SortEdits` is a stable sort by `(start, end)`: sorting twice
equals sorting once; at equal start an edit with `end > start` (a
deletion) is never followed by one with smaller end, so pure insertions
precede deletions; and any two insertions at the same offset keep their
original relative order (as a preserved sublist). -/
theorem C8_sortEdits_stable_spec (E : List Edit) :
    SortEdits (SortEdits E) = SortEdits E ∧
      (∀ i j (hi : i < (SortEdits E).length) (hj : j < (SortEdits E).length),
        i < j →
        ((SortEdits E).get ⟨i, hi⟩).Start = ((SortEdits E).get ⟨j, hj⟩).Start →
        ((SortEdits E).get ⟨i, hi⟩).Start < ((SortEdits E).get ⟨i, hi⟩).End →
        ((SortEdits E).get ⟨j, hj⟩).Start < ((SortEdits E).get ⟨j, hj⟩).End) ∧
      ∀ a b : Edit, a.Start = a.End → b.Start = b.End → a.Start = b.Start →
        [a, b].Sublist E → [a, b].Sublist (SortEdits E) := by
  refine ⟨sortEdits_of_sorted _ (sortEdits_sorted E), ?_, ?_⟩
  · intro i j hi hj hij hstart hdel
    have hle : editLE ((SortEdits E).get ⟨i, hi⟩) ((SortEdits E).get ⟨j, hj⟩) = true :=
      (List.pairwise_iff_get.mp (List.sorted_mergeSort editLE_trans editLE_total E))
        ⟨i, hi⟩ ⟨j, hj⟩ hij
    simp only [editLE, Bool.or_eq_true, Bool.and_eq_true, decide_eq_true_eq] at hle
    have : ((SortEdits E).get ⟨i, hi⟩).End ≤ ((SortEdits E).get ⟨j, hj⟩).End := by
      rcases hle with h | ⟨-, h⟩
      · omega
      · exact h
    omega
  · intro a b ha hb hab hs
    exact List.pair_sublist_mergeSort editLE_trans editLE_total
      (by simp only [editLE, Bool.or_eq_true, Bool.and_eq_true, decide_eq_true_eq]; omega) hs

theorem C8_sortEdits_stable_spec_witness :
    SortEdits (SortEdits [⟨1, 2, []⟩, ⟨1, 1, [5]⟩, ⟨1, 1, [6]⟩]) =
        SortEdits [⟨1, 2, []⟩, ⟨1, 1, [5]⟩, ⟨1, 1, [6]⟩] ∧
      [⟨1, 1, [5]⟩, ⟨1, 1, [6]⟩].Sublist (SortEdits [⟨1, 2, []⟩, ⟨1, 1, [5]⟩, ⟨1, 1, [6]⟩]) :=
  ⟨(C8_sortEdits_stable_spec [⟨1, 2, []⟩, ⟨1, 1, [5]⟩, ⟨1, 1, [6]⟩]).1,
    (C8_sortEdits_stable_spec [⟨1, 2, []⟩, ⟨1, 1, [5]⟩, ⟨1, 1, [6]⟩]).2.2
      ⟨1, 1, [5]⟩ ⟨1, 1, [6]⟩ rfl rfl rfl (by decide)⟩

/-- C10: validation never changes the caller's edit list: when the input
is already sorted the very same list is returned unchanged, and when it
is not, the returned list is a freshly sorted copy `SortEdits E` while
the input value is untouched (the embedding is pure, so Go's absence of
in-place mutation is expressed by `Validate` being a function of the
list value returning either the same list or `SortEdits E`). -/
theorem C10_validate_returns_same_or_sorted_copy (L : Nat) (E E' : List Edit) (size : Int)
    (h : Validate L E = .ok (E', size)) :
    (isSorted E = true → E' = E) ∧ (isSorted E = false → E' = SortEdits E) := by
  simp only [Validate] at h
  by_cases hs : isSorted E
  · rw [if_pos hs] at h
    refine ⟨fun _ => ?_, fun hc => absurd hs (by simp [hc])⟩
    cases hv : validateSize L E (L : Int) 0 with
    | error m => rw [hv] at h; exact absurd h (by simp)
    | ok sz =>
      rw [hv] at h
      simp only [Except.ok.injEq, Prod.mk.injEq] at h
      exact h.1.symm
  · rw [if_neg hs] at h
    refine ⟨fun hc => absurd hc hs, fun _ => ?_⟩
    cases hv : validateSize L (SortEdits E) (L : Int) 0 with
    | error m => rw [hv] at h; exact absurd h (by simp)
    | ok sz =>
      rw [hv] at h
      simp only [Except.ok.injEq, Prod.mk.injEq] at h
      exact h.1.symm

theorem C10_validate_returns_same_or_sorted_copy_witness :
    Validate 3 [⟨0, 1, []⟩, ⟨2, 3, [7]⟩] = .ok ([⟨0, 1, []⟩, ⟨2, 3, [7]⟩], 2) ∧
      (isSorted [⟨0, 1, []⟩, ⟨2, 3, [7]⟩] = true → ([⟨0, 1, []⟩, ⟨2, 3, [7]⟩] : List Edit) =
        [⟨0, 1, []⟩, ⟨2, 3, [7]⟩]) :=
  ⟨by decide,
    (C10_validate_returns_same_or_sorted_copy 3 [⟨0, 1, []⟩, ⟨2, 3, [7]⟩]
      [⟨0, 1, []⟩, ⟨2, 3, [7]⟩] 2 (by decide)).1⟩

/-! ## Characterization of validation outcomes -/

theorem validateSize_ok_iff (L : Nat) :
    ∀ (l : List Edit) (size0 le : Int),
    (∃ size, validateSize L l size0 le = .ok size) ↔
      (l.all (inBoundsB L) = true ∧ chainOKB le l = true)
  | [], size0, le => by simp [validateSize, chainOKB]
  | x :: xs, size0, le => by
    have ih := validateSize_ok_iff L xs (size0 + x.New.length + x.Start - x.End) x.End
    simp only [validateSize, List.all_cons, Bool.and_eq_true, chainOKB, inBoundsB,
      decide_eq_true_eq]
    split
    · rename_i hb
      constructor
      · rintro ⟨s, hs⟩
        exact absurd hs (by simp)
      · rintro ⟨⟨hbx, -⟩, -, -⟩
        exact absurd (by omega) hb
    · rename_i hb
      split
      · rename_i hov
        constructor
        · rintro ⟨s, hs⟩
          exact absurd hs (by simp)
        · rintro ⟨-, hle, -⟩
          omega
      · rename_i hov
        rw [ih]
        constructor
        · rintro ⟨hall, hch⟩
          exact ⟨⟨by omega, hall⟩, by omega, hch⟩
        · rintro ⟨⟨-, hall⟩, -, hch⟩
          exact ⟨hall, hch⟩

theorem validateSize_ok_sum (L : Nat) :
    ∀ (l : List Edit) (size0 le size : Int),
    validateSize L l size0 le = .ok size →
    size = size0 + (l.map fun e => (e.New.length : Int) + e.Start - e.End).sum
  | [], size0, le, size, h => by
    simp only [validateSize, Except.ok.injEq] at h
    simp [← h]
  | x :: xs, size0, le, size, h => by
    simp only [validateSize] at h
    split at h
    · exact absurd h (by simp)
    · split at h
      · exact absurd h (by simp)
      · have ih := validateSize_ok_sum L xs _ x.End size h
        simp only [List.map_cons, List.sum_cons]
        omega

theorem validateSize_error_oob_iff (L : Nat) :
    ∀ (l : List Edit) (size0 le : Int),
    validateSize L l size0 le = .error "diff has out-of-bounds edits" ↔
      ∃ pre e rest, l = pre ++ e :: rest ∧ inBoundsB L e = false ∧
        pre.all (inBoundsB L) = true ∧ chainOKB le pre = true
  | [], size0, le => by
    constructor
    · intro h
      exact absurd h (by simp [validateSize])
    · rintro ⟨pre, e, rest, h, -, -, -⟩
      exact absurd h (by cases pre <;> simp)
  | x :: xs, size0, le => by
    have ih := validateSize_error_oob_iff L xs (size0 + x.New.length + x.Start - x.End) x.End
    simp only [validateSize]
    split
    · rename_i hb
      constructor
      · intro _
        refine ⟨[], x, xs, rfl, ?_, rfl, rfl⟩
        cases hq : inBoundsB L x
        · rfl
        · simp only [inBoundsB, Bool.and_eq_true, decide_eq_true_eq] at hq
          exact absurd (show (0 : Int) ≤ x.Start ∧ x.Start ≤ x.End ∧ x.End ≤ (L : Int) from
            ⟨by omega, by omega, by omega⟩) hb
      · intro _
        rfl
    · rename_i hb
      push_neg at hb
      split
      · rename_i hov
        constructor
        · intro h
          exact absurd h (by simp)
        · rintro ⟨pre, e, rest, heq, hfe, hall, hch⟩
          cases pre with
          | nil =>
            simp only [List.nil_append, List.cons.injEq] at heq
            rw [← heq.1] at hfe
            simp only [inBoundsB, Bool.and_eq_true, decide_eq_true_eq, Bool.not_eq_true,
              Bool.and_eq_false_iff, decide_eq_false_iff_not] at hfe
            omega
          | cons p pre' =>
            simp only [List.cons_append, List.cons.injEq] at heq
            obtain ⟨rfl, -⟩ := heq
            simp only [chainOKB, Bool.and_eq_true, decide_eq_true_eq] at hch
            omega
      · rename_i hov
        rw [ih]
        constructor
        · rintro ⟨pre, e, rest, heq, hfe, hall, hch⟩
          refine ⟨x :: pre, e, rest, by rw [heq, List.cons_append], hfe, ?_, ?_⟩
          · simp only [List.all_cons, Bool.and_eq_true, hall, and_true, inBoundsB,
              decide_eq_true_eq]
            omega
          · simp only [chainOKB, Bool.and_eq_true, decide_eq_true_eq, hch, and_true]
            omega
        · rintro ⟨pre, e, rest, heq, hfe, hall, hch⟩
          cases pre with
          | nil =>
            simp only [List.nil_append, List.cons.injEq] at heq
            rw [← heq.1] at hfe
            simp only [inBoundsB, Bool.and_eq_true, decide_eq_true_eq, Bool.not_eq_true,
              Bool.and_eq_false_iff, decide_eq_false_iff_not] at hfe
            omega
          | cons p pre' =>
            simp only [List.cons_append, List.cons.injEq] at heq
            obtain ⟨rfl, hxs⟩ := heq
            simp only [List.all_cons, Bool.and_eq_true] at hall
            simp only [chainOKB, Bool.and_eq_true, decide_eq_true_eq] at hch
            exact ⟨pre', e, rest, hxs, hfe, hall.2, hch.2⟩

theorem validateSize_error_overlap_iff (L : Nat) :
    ∀ (l : List Edit) (size0 le : Int),
    validateSize L l size0 le = .error "diff has overlapping edits" ↔
      ∃ pre e rest, l = pre ++ e :: rest ∧ inBoundsB L e = true ∧
        e.Start < lastEndOf le pre ∧
        pre.all (inBoundsB L) = true ∧ chainOKB le pre = true
  | [], size0, le => by
    constructor
    · intro h
      exact absurd h (by simp [validateSize])
    · rintro ⟨pre, e, rest, h, -, -, -⟩
      exact absurd h (by cases pre <;> simp)
  | x :: xs, size0, le => by
    have ih := validateSize_error_overlap_iff L xs (size0 + x.New.length + x.Start - x.End) x.End
    simp only [validateSize]
    split
    · rename_i hb
      constructor
      · intro h
        exact absurd h (by simp)
      · rintro ⟨pre, e, rest, heq, hte, hov, hall, hch⟩
        cases pre with
        | nil =>
          simp only [List.nil_append, List.cons.injEq] at heq
          rw [← heq.1] at hte
          simp only [inBoundsB, Bool.and_eq_true, decide_eq_true_eq] at hte
          exact absurd (show (0 : Int) ≤ x.Start ∧ x.Start ≤ x.End ∧ x.End ≤ (L : Int) from
            ⟨by omega, by omega, by omega⟩) hb
        | cons p pre' =>
          simp only [List.cons_append, List.cons.injEq] at heq
          obtain ⟨rfl, -⟩ := heq
          simp only [List.all_cons, Bool.and_eq_true, inBoundsB, decide_eq_true_eq] at hall
          obtain ⟨⟨h1, h2⟩, -⟩ := hall
          exact absurd (show (0 : Int) ≤ x.Start ∧ x.Start ≤ x.End ∧ x.End ≤ (L : Int) from
            ⟨by omega, by omega, by omega⟩) hb
    · rename_i hb
      push_neg at hb
      split
      · rename_i hov
        constructor
        · intro _
          refine ⟨[], x, xs, rfl, ?_, hov, rfl, rfl⟩
          simp only [inBoundsB, Bool.and_eq_true, decide_eq_true_eq]
          exact ⟨⟨by omega, by omega⟩, by omega⟩
        · intro _
          rfl
      · rename_i hov
        rw [ih]
        constructor
        · rintro ⟨pre, e, rest, heq, hte, hovr, hall, hch⟩
          refine ⟨x :: pre, e, rest, by rw [heq, List.cons_append], hte, hovr, ?_, ?_⟩
          · simp only [List.all_cons, Bool.and_eq_true, hall, and_true, inBoundsB,
              decide_eq_true_eq]
            omega
          · simp only [chainOKB, Bool.and_eq_true, decide_eq_true_eq, hch, and_true]
            omega
        · rintro ⟨pre, e, rest, heq, hte, hovr, hall, hch⟩
          cases pre with
          | nil =>
            simp only [List.nil_append, List.cons.injEq] at heq
            rw [← heq.1] at hte hovr
            simp only [lastEndOf] at hovr
            omega
          | cons p pre' =>
            simp only [List.cons_append, List.cons.injEq] at heq
            obtain ⟨rfl, hxs⟩ := heq
            simp only [List.all_cons, Bool.and_eq_true] at hall
            simp only [chainOKB, Bool.and_eq_true, decide_eq_true_eq] at hch
            exact ⟨pre', e, rest, hxs, hte, hovr, hall.2, hch.2⟩

theorem Validate_error_iff (L : Nat) (E : List Edit) (msg : String) :
    Validate L E = .error msg ↔
      validateSize L (SortEdits E) (L : Int) 0 = .error msg := by
  rw [Validate_eq_sorted]
  cases hv : validateSize L (SortEdits E) (L : Int) 0 <;> simp

/-- C3 claim counterexample: with `L = 2` and the (already sorted) edits
`[{0,2}, {1,2}, {2,3}]`, validation fails with the overlapping error even
though an edit (`{2,3}`) violates `0 ≤ start ≤ end ≤ L`; so "fails with
the out-of-bounds error exactly when some edit violates the bounds" is
false as stated. -/
theorem C3_counterexample :
    Validate 2 [⟨0, 2, []⟩, ⟨1, 2, []⟩, ⟨2, 3, []⟩] = .error "diff has overlapping edits" ∧
      ∃ e ∈ ([⟨0, 2, []⟩, ⟨1, 2, []⟩, ⟨2, 3, []⟩] : List Edit),
        ¬(0 ≤ e.Start ∧ e.Start ≤ e.End ∧ e.End ≤ (2 : Int)) := by
  constructor
  · decide
  · exact ⟨⟨2, 3, []⟩, by simp, by decide⟩

/-- C3 (amended): validation succeeds exactly when every edit satisfies
`0 ≤ start ≤ end ≤ L` and, after the stable sort by `(start, end)`, no
edit starts before the previous edit's end; on success the returned size
is `L + Σ (len(new) + start − end)` over all edits.  When it fails, the
error kind is decided by the first offending edit of the sorted list
(bounds are checked before overlap): it is the out-of-bounds error
exactly when that first offender is out of bounds, and the overlapping
error exactly when the first offender is in bounds but starts before its
predecessor's end. -/
theorem C3_validate_characterization (L : Nat) (E : List Edit) :
    ((∃ r, Validate L E = .ok r) ↔
      ((SortEdits E).all (inBoundsB L) = true ∧ chainOKB 0 (SortEdits E) = true)) ∧
    (∀ E' size, Validate L E = .ok (E', size) →
      size = (L : Int) + (E.map fun e => (e.New.length : Int) + e.Start - e.End).sum) ∧
    (Validate L E = .error "diff has out-of-bounds edits" ↔
      ∃ pre e rest, SortEdits E = pre ++ e :: rest ∧ inBoundsB L e = false ∧
        pre.all (inBoundsB L) = true ∧ chainOKB 0 pre = true) ∧
    (Validate L E = .error "diff has overlapping edits" ↔
      ∃ pre e rest, SortEdits E = pre ++ e :: rest ∧ inBoundsB L e = true ∧
        e.Start < lastEndOf 0 pre ∧
        pre.all (inBoundsB L) = true ∧ chainOKB 0 pre = true) := by
  refine ⟨?_, ?_, ?_, ?_⟩
  · rw [← validateSize_ok_iff L (SortEdits E) (L : Int) 0]
    rw [Validate_eq_sorted]
    cases hv : validateSize L (SortEdits E) (L : Int) 0 <;> simp [hv]
  · intro E' size h
    rw [Validate_eq_sorted] at h
    cases hv : validateSize L (SortEdits E) (L : Int) 0 with
    | error m => rw [hv] at h; exact absurd h (by simp)
    | ok sz =>
      rw [hv] at h
      simp only [Except.ok.injEq, Prod.mk.injEq] at h
      have hsum := validateSize_ok_sum L (SortEdits E) (L : Int) 0 sz hv
      have hperm : ((SortEdits E).map fun e => (e.New.length : Int) + e.Start - e.End).sum =
          (E.map fun e => (e.New.length : Int) + e.Start - e.End).sum :=
        ((List.mergeSort_perm E editLE).map _).sum_eq
      rw [← h.2, hsum, hperm]
  · rw [Validate_error_iff]
    exact validateSize_error_oob_iff L (SortEdits E) (L : Int) 0
  · rw [Validate_error_iff]
    exact validateSize_error_overlap_iff L (SortEdits E) (L : Int) 0

theorem copyN_spec (src : List Nat) (a b : Int) (h0 : 0 ≤ a) (hab : a ≤ b)
    (hb : b ≤ (src.length : Int)) :
    copyN src a.toNat (b - a) = some (b.toNat, extractI src a b) := by
  unfold copyN
  by_cases hz : b - a ≤ 0
  · rw [if_pos hz]
    have hba : b = a := by omega
    subst hba
    simp [extractI, extractN_self]
  · rw [if_neg hz, if_pos (by omega)]
    have h1 : a.toNat + (b - a).toNat = b.toNat := by omega
    rw [h1]
    rfl

theorem applyToLoop_sem (src : List Nat) :
    ∀ (edits : List Edit) (size0 cursor lastEnd size : Int) (out : List Nat),
    validateSize src.length edits size0 lastEnd = .ok size →
    0 ≤ cursor → cursor ≤ lastEnd → lastEnd ≤ (src.length : Int) →
    applyToLoop src edits cursor.toNat cursor lastEnd out =
      some (out ++ applySem src edits lastEnd)
  | [], size0, cursor, lastEnd, size, out, hv, hc0, hcl, hl => by
    simp only [applyToLoop]
    rw [copyN_spec src cursor lastEnd hc0 hcl hl]
    simp [applySem]
  | e :: rest, size0, cursor, lastEnd, size, out, hv, hc0, hcl, hl => by
    simp only [validateSize] at hv
    split at hv
    · exact absurd hv (by simp)
    · split at hv
      · exact absurd hv (by simp)
      · rename_i hb hov
        push_neg at hb
        obtain ⟨hb0, hbse, hbe⟩ := hb
        push_neg at hov
        simp only [applyToLoop, applySem]
        by_cases hlt : lastEnd < e.Start
        · rw [if_pos hlt]
          rw [copyN_spec src cursor lastEnd hc0 hcl hl]
          dsimp only
          rw [copyN_spec src lastEnd e.Start (by omega) (by omega) (by omega)]
          dsimp only
          rw [applyToLoop_sem src rest _ e.Start e.End size
            (out ++ extractI src lastEnd e.Start ++ e.New) hv (by omega) hbse hbe]
          simp
        · rw [if_neg hlt]
          have heq : lastEnd = e.Start := by omega
          rw [applyToLoop_sem src rest _ cursor e.End size (out ++ e.New) hv hc0 (by omega) hbe]
          subst heq
          simp [extractI, extractN_self]

/-- C6: streaming parity: for every source and edit list, `ApplyTo` over
an in-memory reader and writer writes exactly the bytes of the buffer
returned by the in-memory `Apply`, and it succeeds exactly when `Apply`
succeeds (both failing with the same validation error otherwise). -/
theorem C6_applyTo_streaming_parity (src : List Nat) (E : List Edit) :
    (∃ out, Apply src E = ApplyResult.ok out ∧ ApplyTo src E = .ok out) ∨
      ∃ msg, Apply src E = ApplyResult.error [] msg ∧ ApplyTo src E = .error msg := by
  cases hv : validateSize src.length (SortEdits E) (src.length : Int) 0 with
  | error m =>
    right
    refine ⟨m, ?_, ?_⟩
    · unfold Apply
      rw [Validate_eq_sorted, hv]
    · unfold ApplyTo
      rw [Validate_eq_sorted, hv]
  | ok sz =>
    left
    have hval : Validate src.length E = .ok (SortEdits E, sz) := by
      rw [Validate_eq_sorted, hv]
    obtain ⟨ha, -⟩ := Validate_ok_Apply src E (SortEdits E) sz hval
    refine ⟨applySem src (SortEdits E) 0, ha, ?_⟩
    unfold ApplyTo
    rw [Validate_eq_sorted, hv]
    dsimp only
    have := applyToLoop_sem src (SortEdits E) (src.length : Int) 0 0 sz [] hv le_rfl le_rfl
      (by positivity)
    rw [show ((0 : Int)).toNat = 0 from rfl] at this
    rw [this]
    simp

theorem C3_validate_characterization_witness :
    Validate 2 [⟨0, 1, [9]⟩] = .ok ([⟨0, 1, [9]⟩], 2) ∧
      (2 : Int) = (2 : Int) +
        (([⟨0, 1, [9]⟩] : List Edit).map fun e => (e.New.length : Int) + e.Start - e.End).sum :=
  ⟨by decide,
    (C3_validate_characterization 2 [⟨0, 1, [9]⟩]).2.1 [⟨0, 1, [9]⟩] 2 (by decide)⟩

/-! ## The LCS round trip -/

theorem commonPrefixLen_le_left : ∀ a b : List Nat, commonPrefixLen a b ≤ a.length
  | [], _ => by simp [commonPrefixLen]
  | _ :: _, [] => by simp [commonPrefixLen]
  | x :: xs, y :: ys => by
    simp only [commonPrefixLen]
    split
    · have := commonPrefixLen_le_left xs ys
      simpa using this
    · simp

theorem commonPrefixLen_le_right : ∀ a b : List Nat, commonPrefixLen a b ≤ b.length
  | [], _ => by simp [commonPrefixLen]
  | _ :: _, [] => by simp [commonPrefixLen]
  | x :: xs, y :: ys => by
    simp only [commonPrefixLen]
    split
    · have := commonPrefixLen_le_right xs ys
      simpa using this
    · simp

theorem commonPrefixLen_take : ∀ a b : List Nat,
    a.take (commonPrefixLen a b) = b.take (commonPrefixLen a b)
  | [], c => by simp [commonPrefixLen]
  | _ :: _, [] => by simp [commonPrefixLen]
  | x :: xs, y :: ys => by
    simp only [commonPrefixLen]
    split
    · rename_i hxy
      subst hxy
      simp only [List.take_succ_cons, List.cons.injEq, true_and]
      exact commonPrefixLen_take xs ys
    · simp

theorem commonSuffixLen_le_left (a b : List Nat) : commonSuffixLen a b ≤ a.length := by
  have := commonPrefixLen_le_left a.reverse b.reverse
  simpa [commonSuffixLen] using this

theorem commonSuffixLen_le_right (a b : List Nat) : commonSuffixLen a b ≤ b.length := by
  have := commonPrefixLen_le_right a.reverse b.reverse
  simpa [commonSuffixLen] using this

theorem commonSuffixLen_drop (a b : List Nat) :
    a.drop (a.length - commonSuffixLen a b) = b.drop (b.length - commonSuffixLen a b) := by
  have h := commonPrefixLen_take a.reverse b.reverse
  have ha : a.drop (a.length - commonSuffixLen a b) =
      (a.reverse.take (commonSuffixLen a b)).reverse := by
    rw [List.reverse_take, List.reverse_reverse, List.length_reverse]
  have hb : b.drop (b.length - commonSuffixLen a b) =
      (b.reverse.take (commonSuffixLen a b)).reverse := by
    rw [List.reverse_take, List.reverse_reverse, List.length_reverse]
  rw [ha, hb]
  unfold commonSuffixLen at h ⊢
  rw [h]

theorem extractN_embed (c a1 d : List Nat) (u v : Nat) (huv : u ≤ v) (hv : v ≤ a1.length) :
    extractN (c ++ a1 ++ d) (c.length + u) (c.length + v) = extractN a1 u v := by
  simp only [extractN, List.append_assoc]
  rw [List.drop_append]
  rw [List.drop_append_of_le_length (by omega)]
  have hlen : v - u ≤ (a1.drop u).length := by simp [List.length_drop]; omega
  rw [show c.length + v - (c.length + u) = v - u by omega]
  rw [List.take_append_of_le_length hlen]

theorem patchesW_gap_prepend (a b : List Nat) (la lb m m' ea eb : Nat) (ds : List Diff)
    (h : patchesW a b m m' ea eb ds) (hla : la ≤ m) (hlb : lb ≤ m')
    (hg : extractN a la m = extractN b lb m') :
    patchesW a b la lb ea eb ds := by
  cases ds with
  | nil =>
    obtain ⟨h1, h2, h3, h4, h5⟩ := h
    exact ⟨by omega, h2, by omega, h4,
      by rw [← extractN_append_part a la m ea hla h1, ← extractN_append_part b lb m' eb hlb h3,
        hg, h5]⟩
  | cons x ds =>
    obtain ⟨h1, h2, h3, h4, h5, h6, h7, h8⟩ := h
    exact ⟨by omega, h2, h3, by omega, h5, h6,
      by rw [← extractN_append_part a la m x.Start hla h1,
        ← extractN_append_part b lb m' x.ReplStart hlb h4, hg, h7], h8⟩

theorem patchesW_gap_extend (a b : List Nat) :
    ∀ (ds : List Diff) (la lb m m' ea eb : Nat),
    patchesW a b la lb m m' ds → m ≤ ea → ea ≤ a.length → m' ≤ eb → eb ≤ b.length →
    extractN a m ea = extractN b m' eb →
    patchesW a b la lb ea eb ds
  | [], la, lb, m, m', ea, eb, h, h1, h2, h3, h4, hg => by
    obtain ⟨g1, g2, g3, g4, g5⟩ := h
    exact ⟨by omega, h2, by omega, h4,
      by rw [← extractN_append_part a la m ea g1 h1, ← extractN_append_part b lb m' eb g3 h3,
        g5, hg]⟩
  | x :: ds, la, lb, m, m', ea, eb, h, h1, h2, h3, h4, hg => by
    obtain ⟨g1, g2, g3, g4, g5, g6, g7, g8⟩ := h
    exact ⟨g1, g2, by omega, g4, g5, by omega, g7,
      patchesW_gap_extend a b ds x.End x.ReplEnd m m' ea eb g8 h1 h2 h3 h4 hg⟩

theorem patchesW_le (a b : List Nat) :
    ∀ (ds : List Diff) (la lb ea eb : Nat),
    patchesW a b la lb ea eb ds →
    la ≤ ea ∧ lb ≤ eb ∧ ea ≤ a.length ∧ eb ≤ b.length
  | [], la, lb, ea, eb, h => ⟨h.1, h.2.2.1, h.2.1, h.2.2.2.1⟩
  | x :: ds, la, lb, ea, eb, h => by
    obtain ⟨g1, g2, g3, g4, g5, g6, g7, g8⟩ := h
    have ih := patchesW_le a b ds x.End x.ReplEnd ea eb g8
    exact ⟨by omega, by omega, ih.2.2.1, ih.2.2.2⟩

theorem patchesW_append (a b : List Nat) :
    ∀ (ds1 ds2 : List Diff) (la lb m m' ea eb : Nat),
    patchesW a b la lb m m' ds1 → patchesW a b m m' ea eb ds2 →
    patchesW a b la lb ea eb (ds1 ++ ds2)
  | [], ds2, la, lb, m, m', ea, eb, h1, h2 => by
    obtain ⟨g1, g2, g3, g4, g5⟩ := h1
    simpa using patchesW_gap_prepend a b la lb m m' ea eb ds2 h2 g1 g3 g5
  | x :: ds1, ds2, la, lb, m, m', ea, eb, h1, h2 => by
    obtain ⟨g1, g2, g3, g4, g5, g6, g7, g8⟩ := h1
    have hb := patchesW_le a b ds2 m m' ea eb h2
    exact ⟨g1, g2, by omega, g4, g5, by omega, g7,
      patchesW_append a b ds1 ds2 x.End x.ReplEnd m m' ea eb g8 h2⟩

theorem patchesW_embed (c a1 d c' b1 d' : List Nat) :
    ∀ (ds : List Diff) (la lb ea eb : Nat),
    patchesW a1 b1 la lb ea eb ds →
    patchesW (c ++ a1 ++ d) (c' ++ b1 ++ d') (c.length + la) (c'.length + lb)
      (c.length + ea) (c'.length + eb) (ds.map (shiftDiff c.length c'.length))
  | [], la, lb, ea, eb, h => by
    obtain ⟨g1, g2, g3, g4, g5⟩ := h
    refine ⟨by omega, ?_, by omega, ?_, ?_⟩
    · simp only [List.length_append]
      omega
    · simp only [List.length_append]
      omega
    · rw [extractN_embed c a1 d la ea g1 g2, extractN_embed c' b1 d' lb eb g3 g4]
      exact g5
  | x :: ds, la, lb, ea, eb, h => by
    obtain ⟨g1, g2, g3, g4, g5, g6, g7, g8⟩ := h
    have hb := patchesW_le a1 b1 ds x.End x.ReplEnd ea eb g8
    refine ⟨by simp [shiftDiff]; omega, by simp [shiftDiff]; omega, by simp [shiftDiff]; omega,
      by simp [shiftDiff]; omega, by simp [shiftDiff]; omega, by simp [shiftDiff]; omega, ?_, ?_⟩
    · show extractN (c ++ a1 ++ d) (c.length + la) (c.length + x.Start) =
        extractN (c' ++ b1 ++ d') (c'.length + lb) (c'.length + x.ReplStart)
      rw [extractN_embed c a1 d la x.Start g1 (by omega),
        extractN_embed c' b1 d' lb x.ReplStart g4 (by omega)]
      exact g7
    · show patchesW (c ++ a1 ++ d) (c' ++ b1 ++ d') (c.length + x.End) (c'.length + x.ReplEnd)
        (c.length + ea) (c'.length + eb) (ds.map (shiftDiff c.length c'.length))
      exact patchesW_embed c a1 d c' b1 d' ds x.End x.ReplEnd ea eb g8

theorem mergeDiffs_patchesW (a b : List Nat) :
    ∀ (ds : List Diff) (la lb ea eb : Nat),
    patchesW a b la lb ea eb ds → patchesW a b la lb ea eb (mergeDiffs ds)
  | [], _, _, _, _, h => by rw [mergeDiffs]; exact h
  | [d], _, _, _, _, h => by rw [mergeDiffs]; exact h
  | d1 :: d2 :: rest, la, lb, ea, eb, h => by
    obtain ⟨g1, g2, g3, g4, g5, g6, g7, h2⟩ := h
    obtain ⟨k1, k2, k3, k4, k5, k6, k7, h3⟩ := h2
    rw [mergeDiffs]
    split
    · rename_i hm
      obtain ⟨hm1, hm2⟩ := hm
      refine mergeDiffs_patchesW a b (⟨d1.Start, d2.End, d1.ReplStart, d2.ReplEnd⟩ :: rest)
        la lb ea eb ⟨g1, by simp; omega, by simpa using k3, g4, by simp; omega,
          by simpa using k6, g7, ?_⟩
      show patchesW a b d2.End d2.ReplEnd ea eb rest
      exact h3
    · exact ⟨g1, g2, by
        have := patchesW_le a b rest d2.End d2.ReplEnd ea eb h3
        omega, g4, g5, by
        have := patchesW_le a b rest d2.End d2.ReplEnd ea eb h3
        omega, g7,
        mergeDiffs_patchesW a b (d2 :: rest) d1.End d1.ReplEnd ea eb
          ⟨k1, k2, k3, k4, k5, k6, k7, h3⟩⟩
termination_by ds => ds.length

theorem patchesW_single_parts (P A2 B2 S : List Nat) :
    patchesW (P ++ A2 ++ S) (P ++ B2 ++ S) 0 0 (P ++ A2 ++ S).length (P ++ B2 ++ S).length
      [⟨P.length, P.length + A2.length, P.length, P.length + B2.length⟩] := by
  refine ⟨Nat.zero_le _, by simp, ?_, Nat.zero_le _, by simp, ?_, ?_, ?_⟩
  · simp only [List.length_append]
    omega
  · simp only [List.length_append]
    omega
  · show extractN (P ++ A2 ++ S) 0 P.length = extractN (P ++ B2 ++ S) 0 P.length
    rw [extractN_zero, extractN_zero, List.append_assoc, List.append_assoc,
      List.take_left, List.take_left]
  · show patchesW (P ++ A2 ++ S) (P ++ B2 ++ S) (P.length + A2.length) (P.length + B2.length)
      (P ++ A2 ++ S).length (P ++ B2 ++ S).length []
    refine ⟨by simp only [List.length_append]; omega, le_rfl,
      by simp only [List.length_append]; omega, le_rfl, ?_⟩
    rw [extractN_full, extractN_full]
    rw [show P.length + A2.length = (P ++ A2).length by simp, List.drop_left,
      show P.length + B2.length = (P ++ B2).length by simp, List.drop_left]

theorem lcsCore_patchesW : ∀ (n : Nat) (a b : List Nat), a.length + b.length = n →
    patchesW a b 0 0 a.length b.length (lcsCore a b) := by
  intro n
  induction n using Nat.strong_induction_on with
  | _ n IH =>
    intro a b hn
    rw [lcsCore.eq_def]
    dsimp only
    set p := commonPrefixLen a b with hp
    set a1 := a.drop p with ha1
    set b1 := b.drop p with hb1
    set s := commonSuffixLen a1 b1 with hs
    set a2 := a1.take (a1.length - s) with ha2
    set b2 := b1.take (b1.length - s) with hb2
    set xy := chooseAnchor a2 b2 with hxy
    have hpa : p ≤ a.length := by rw [hp]; exact commonPrefixLen_le_left a b
    have hpb : p ≤ b.length := by rw [hp]; exact commonPrefixLen_le_right a b
    have hsa : s ≤ a1.length := by rw [hs]; exact commonSuffixLen_le_left a1 b1
    have hsb : s ≤ b1.length := by rw [hs]; exact commonSuffixLen_le_right a1 b1
    have hla1 : a1.length = a.length - p := by rw [ha1, List.length_drop]
    have hlb1 : b1.length = b.length - p := by rw [hb1, List.length_drop]
    have hla2 : a2.length = a1.length - s := by rw [ha2, List.length_take]; omega
    have hlb2 : b2.length = b1.length - s := by rw [hb2, List.length_take]; omega
    have hPlen : (a.take p).length = p := by rw [List.length_take]; omega
    have hpre : a.take p = b.take p := by rw [hp]; exact commonPrefixLen_take a b
    have hsuf : a1.drop (a1.length - s) = b1.drop (b1.length - s) := by
      rw [hs]; exact commonSuffixLen_drop a1 b1
    have hA : a = a.take p ++ a2 ++ a1.drop (a1.length - s) := by
      rw [ha2, List.append_assoc, List.take_append_drop, ha1, List.take_append_drop]
    have hB : b = a.take p ++ b2 ++ b1.drop (b1.length - s) := by
      rw [hpre, hb2, List.append_assoc, List.take_append_drop, hb1, List.take_append_drop]
    have hB' : b = a.take p ++ b2 ++ a1.drop (a1.length - s) := by rw [hB, hsuf]
    have hsingle : patchesW a b 0 0 a.length b.length
        [⟨p, p + a2.length, p, p + b2.length⟩] := by
      have h1 := patchesW_single_parts (a.take p) a2 b2 (a1.drop (a1.length - s))
      rw [← hA, ← hB'] at h1
      rw [hPlen] at h1
      exact h1
    split
    · rename_i h12
      have ha2e : a2 = [] := List.length_eq_zero.mp h12.1
      have hb2e : b2 = [] := List.length_eq_zero.mp h12.2
      have hab : a = b := by
        rw [hA, hB', ha2e, hb2e]
      exact ⟨Nat.zero_le _, le_rfl, Nat.zero_le _, le_rfl, by
        rw [extractN_zero, extractN_zero, List.take_length, List.take_length, hab]⟩
    split
    · exact hsingle
    split
    · rename_i hdite
      obtain ⟨hx2, hy2, hne0, hnefull⟩ := hdite
      have hxlen : (a2.take xy.1).length = xy.1 := by rw [List.length_take]; omega
      have hylen : (b2.take xy.2).length = xy.2 := by rw [List.length_take]; omega
      have hxRlen : (a2.drop xy.1).length = a2.length - xy.1 := by rw [List.length_drop]
      have hyRlen : (b2.drop xy.2).length = b2.length - xy.2 := by rw [List.length_drop]
      have hm1 : (a2.take xy.1).length + (b2.take xy.2).length < n := by omega
      have hm2 : (a2.drop xy.1).length + (b2.drop xy.2).length < n := by omega
      have IH1 := IH _ hm1 (a2.take xy.1) (b2.take xy.2) rfl
      have IH2 := IH _ hm2 (a2.drop xy.1) (b2.drop xy.2) rfl
      have hA2 : a = a.take p ++ a2.take xy.1 ++ (a2.drop xy.1 ++ a1.drop (a1.length - s)) := by
        calc a = a.take p ++ a2 ++ a1.drop (a1.length - s) := hA
          _ = a.take p ++ (a2.take xy.1 ++ a2.drop xy.1) ++ a1.drop (a1.length - s) := by
            rw [List.take_append_drop]
          _ = a.take p ++ a2.take xy.1 ++ (a2.drop xy.1 ++ a1.drop (a1.length - s)) := by
            simp only [List.append_assoc]
      have hB2 : b = a.take p ++ b2.take xy.2 ++ (b2.drop xy.2 ++ a1.drop (a1.length - s)) := by
        calc b = a.take p ++ b2 ++ a1.drop (a1.length - s) := hB'
          _ = a.take p ++ (b2.take xy.2 ++ b2.drop xy.2) ++ a1.drop (a1.length - s) := by
            rw [List.take_append_drop]
          _ = a.take p ++ b2.take xy.2 ++ (b2.drop xy.2 ++ a1.drop (a1.length - s)) := by
            simp only [List.append_assoc]
      have hA3 : a = (a.take p ++ a2.take xy.1) ++ a2.drop xy.1 ++ a1.drop (a1.length - s) := by
        conv_lhs => rw [hA2]
        simp only [List.append_assoc]
      have hB3 : b = (a.take p ++ b2.take xy.2) ++ b2.drop xy.2 ++ a1.drop (a1.length - s) := by
        conv_lhs => rw [hB2]
        simp only [List.append_assoc]
      have embedL := patchesW_embed (a.take p) (a2.take xy.1)
        (a2.drop xy.1 ++ a1.drop (a1.length - s)) (a.take p) (b2.take xy.2)
        (b2.drop xy.2 ++ a1.drop (a1.length - s)) (lcsCore (a2.take xy.1) (b2.take xy.2))
        0 0 (a2.take xy.1).length (b2.take xy.2).length IH1
      rw [← hA2, ← hB2, hPlen, hxlen, hylen, Nat.add_zero] at embedL
      have embedR := patchesW_embed (a.take p ++ a2.take xy.1) (a2.drop xy.1)
        (a1.drop (a1.length - s)) (a.take p ++ b2.take xy.2) (b2.drop xy.2)
        (a1.drop (a1.length - s)) (lcsCore (a2.drop xy.1) (b2.drop xy.2))
        0 0 (a2.drop xy.1).length (b2.drop xy.2).length IH2
      rw [← hA3, ← hB3] at embedR
      rw [show (a.take p ++ a2.take xy.1).length = p + xy.1 by
        rw [List.length_append, hPlen, hxlen]] at embedR
      rw [show (a.take p ++ b2.take xy.2).length = p + xy.2 by
        rw [List.length_append, hPlen, hylen]] at embedR
      rw [hxRlen, hyRlen, Nat.add_zero] at embedR
      rw [show p + xy.1 + (a2.length - xy.1) = p + a2.length by omega] at embedR
      rw [show p + xy.2 + (b2.length - xy.2) = p + b2.length by omega] at embedR
      have hcomb := patchesW_append a b _ _ p p (p + xy.1) (p + xy.2)
        (p + a2.length) (p + b2.length) embedL embedR
      have hpre0 := patchesW_gap_prepend a b 0 0 p p (p + a2.length) (p + b2.length) _
        hcomb (Nat.zero_le _) (Nat.zero_le _)
        (by rw [extractN_zero, extractN_zero, show a.take p = b.take p from hpre])
      refine patchesW_gap_extend a b _ 0 0 (p + a2.length) (p + b2.length)
        a.length b.length hpre0 (by omega) le_rfl (by omega) le_rfl ?_
      rw [extractN_full, extractN_full]
      have hda : a.drop (p + a2.length) = a1.drop (a1.length - s) := by
        conv_lhs => rw [hA]
        rw [show p + a2.length = (a.take p ++ a2).length by
          rw [List.length_append, hPlen], List.drop_left]
      have hdb : b.drop (p + b2.length) = a1.drop (a1.length - s) := by
        conv_lhs => rw [hB']
        rw [show p + b2.length = (a.take p ++ b2).length by
          rw [List.length_append, hPlen], List.drop_left]
      rw [hda, hdb]
    · exact hsingle

theorem DiffText_patchesW (a b : List Nat) :
    patchesW a b 0 0 a.length b.length (DiffText a b) :=
  mergeDiffs_patchesW a b (lcsCore a b) 0 0 a.length b.length
    (lcsCore_patchesW (a.length + b.length) a b rfl)

theorem patches_isSorted (a b : List Nat) :
    ∀ (ds : List Diff) (la lb ea eb : Nat),
    patchesW a b la lb ea eb ds → isSorted (ds.map (toEdit b)) = true
  | [], _, _, _, _, _ => rfl
  | [d], _, _, _, _, _ => rfl
  | d1 :: d2 :: rest, la, lb, ea, eb, h => by
    obtain ⟨g1, g2, g3, g4, g5, g6, g7, h2⟩ := h
    have k1 := h2.1
    have k2 := h2.2.1
    simp only [List.map_cons, isSorted, Bool.and_eq_true]
    refine ⟨?_, ?_⟩
    · simp only [editLE, toEdit, Bool.or_eq_true, Bool.and_eq_true, decide_eq_true_eq]
      omega
    · exact patches_isSorted a b (d2 :: rest) d1.End d1.ReplEnd ea eb h2

theorem patches_validateSize (a b : List Nat) :
    ∀ (ds : List Diff) (la lb ea eb : Nat) (size0 : Int),
    patchesW a b la lb ea eb ds → ea ≤ a.length →
    ∃ size, validateSize a.length (ds.map (toEdit b)) size0 (la : Int) = .ok size
  | [], la, lb, ea, eb, size0, h, hea => ⟨size0, rfl⟩
  | d :: rest, la, lb, ea, eb, size0, h, hea => by
    obtain ⟨g1, g2, g3, g4, g5, g6, g7, h2⟩ := h
    simp only [List.map_cons, validateSize, toEdit]
    rw [if_neg (by push_neg; omega)]
    rw [if_neg (by omega)]
    exact patches_validateSize a b rest d.End d.ReplEnd ea eb _ h2 hea

theorem patches_applySem (a b : List Nat) :
    ∀ (ds : List Diff) (la lb : Nat),
    patchesW a b la lb a.length b.length ds →
    applySem a (ds.map (toEdit b)) (la : Int) = b.drop lb
  | [], la, lb, h => by
    obtain ⟨g1, g2, g3, g4, g5⟩ := h
    rw [extractN_full, extractN_full] at g5
    simp only [List.map_nil, applySem, Int.toNat_natCast]
    exact g5
  | d :: rest, la, lb, h => by
    obtain ⟨g1, g2, g3, g4, g5, g6, g7, h2⟩ := h
    simp only [List.map_cons, applySem, toEdit]
    rw [show extractI a (la : Int) (d.Start : Int) = extractN a la d.Start from rfl]
    rw [patches_applySem a b rest d.End d.ReplEnd h2]
    rw [g7]
    rw [show b.drop d.ReplEnd = extractN b d.ReplEnd b.length from (extractN_full b d.ReplEnd).symm]
    rw [show b.drop lb = extractN b lb b.length from (extractN_full b lb).symm]
    rw [List.append_assoc, extractN_append_part b d.ReplStart d.ReplEnd b.length g5 g6,
      extractN_append_part b lb d.ReplStart b.length g4 (by omega)]

theorem patches_Apply (a b : List Nat) (ds : List Diff)
    (h : patchesW a b 0 0 a.length b.length ds) :
    Apply a (ds.map (toEdit b)) = ApplyResult.ok b := by
  have hsort : isSorted (ds.map (toEdit b)) = true :=
    patches_isSorted a b ds 0 0 a.length b.length h
  obtain ⟨size, hv⟩ := patches_validateSize a b ds 0 0 a.length b.length
    (a.length : Int) h le_rfl
  have hVal : Validate a.length (ds.map (toEdit b)) = .ok (ds.map (toEdit b), size) := by
    simp only [Validate]
    rw [if_pos hsort]
    rw [show ((0 : Nat) : Int) = (0 : Int) from rfl] at hv
    rw [hv]
  obtain ⟨happ, -⟩ := Validate_ok_Apply a (ds.map (toEdit b)) (ds.map (toEdit b)) size hVal
  rw [happ]
  have := patches_applySem a b ds 0 0 h
  rw [show ((0 : Nat) : Int) = (0 : Int) from rfl] at this
  rw [this, List.drop_zero]

/-- C1: round trip of the binary diff: for every pair of byte strings,
applying the edit script produced by `Binary` back to the first string
succeeds (no error, no panic) and returns exactly the second string. -/
theorem C1_binary_round_trip (a b : List Nat) : Apply a (Binary a b) = ApplyResult.ok b := by
  unfold Binary
  by_cases hab : a = b
  · rw [if_pos hab]
    subst hab
    have hVal : Validate a.length ([] : List Edit) = .ok ([], (a.length : Int)) := rfl
    obtain ⟨happ, -⟩ := Validate_ok_Apply a [] [] (a.length : Int) hVal
    rw [happ]
    simp [applySem]
  · rw [if_neg hab]
    exact patches_Apply a b (DiffText a b) (DiffText_patchesW a b)

/-! ## Line expansion -/

theorem getD_drop (l : List Nat) (m n : Nat) : (l.drop m).getD n 0 = l.getD (m + n) 0 := by
  simp [List.getD_eq_getElem?_getD, List.getElem?_drop]

theorem getD_take (l : List Nat) (m n : Nat) (h : n < m) :
    (l.take m).getD n 0 = l.getD n 0 := by
  simp [List.getD_eq_getElem?_getD, List.getElem?_take, h]

theorem getD_extractN (l : List Nat) (u v i : Nat) (h : i < v - u) :
    (extractN l u v).getD i 0 = l.getD (u + i) 0 := by
  rw [extractN, getD_take _ _ _ h, getD_drop]

theorem mem_getD (l : List Nat) (c : Nat) (h : c ∈ l) :
    ∃ i, i < l.length ∧ l.getD i 0 = c := by
  obtain ⟨i, hi, he⟩ := List.mem_iff_getElem.mp h
  exact ⟨i, hi, by simp [List.getD_eq_getElem?_getD, List.getElem?_eq_getElem hi, he]⟩

theorem indexByte_neg_one (l : List Nat) (c : Nat) :
    indexByte l c = -1 ∨ 0 ≤ indexByte l c := by
  induction l with
  | nil => simp [indexByte]
  | cons x xs ih =>
    simp only [indexByte]
    split
    · right; omega
    · split
      · left; rfl
      · right; omega

theorem indexByte_spec (l : List Nat) (c : Nat) :
    0 ≤ indexByte l c →
    (indexByte l c).toNat < l.length ∧ l.getD (indexByte l c).toNat 0 = c := by
  induction l with
  | nil => simp [indexByte]
  | cons x xs ih =>
    simp only [indexByte]
    split
    · rename_i hx
      intro _
      simpa using hx
    · split
      · omega
      · rename_i hx hr
        intro _
        push_neg at hr
        obtain ⟨h1, h2⟩ := ih hr
        have ht : (indexByte xs c + 1).toNat = (indexByte xs c).toNat + 1 := by omega
        rw [ht]
        simp only [List.length_cons, List.getD_cons_succ]
        exact ⟨by omega, h2⟩

theorem indexByte_le (l : List Nat) (c : Nat) :
    ∀ i, i < l.length → l.getD i 0 = c → 0 ≤ indexByte l c ∧ indexByte l c ≤ (i : Int) := by
  induction l with
  | nil => simp
  | cons x xs ih =>
    intro i hi hc
    simp only [indexByte]
    split
    · omega
    · rename_i hx
      cases i with
      | zero => simp only [List.getD_cons_zero] at hc; exact absurd hc hx
      | succ j =>
        simp only [List.getD_cons_succ] at hc
        simp only [List.length_cons] at hi
        obtain ⟨h1, h2⟩ := ih j (by omega) hc
        split
        · omega
        · constructor <;> omega

theorem lastIndexByte_lt (l : List Nat) (c : Nat) :
    -1 ≤ lastIndexByte l c ∧ lastIndexByte l c < (l.length : Int) := by
  induction l with
  | nil => simp [lastIndexByte]
  | cons x xs ih =>
    simp only [lastIndexByte, List.length_cons]
    split
    · omega
    · split
      · omega
      · omega

theorem lastIndexByte_getD (l : List Nat) (c : Nat) :
    0 ≤ lastIndexByte l c → l.getD (lastIndexByte l c).toNat 0 = c := by
  induction l with
  | nil => simp [lastIndexByte]
  | cons x xs ih =>
    simp only [lastIndexByte]
    split
    · rename_i hr
      intro _
      have := ih hr
      have ht : (lastIndexByte xs c + 1).toNat = (lastIndexByte xs c).toNat + 1 := by omega
      rw [ht]
      simpa using this
    · split
      · rename_i hx
        intro _
        simpa using hx
      · intro h
        omega

theorem lastIndexByte_ge (l : List Nat) (c : Nat) :
    ∀ i, i < l.length → l.getD i 0 = c → (i : Int) ≤ lastIndexByte l c := by
  induction l with
  | nil => simp
  | cons x xs ih =>
    intro i hi hc
    simp only [lastIndexByte]
    split
    · rename_i hr
      cases i with
      | zero => omega
      | succ j =>
        simp only [List.getD_cons_succ] at hc
        simp only [List.length_cons] at hi
        have := ih j (by omega) hc
        omega
    · rename_i hr
      push_neg at hr
      cases i with
      | zero =>
        simp only [List.getD_cons_zero] at hc
        rw [if_pos hc]
        omega
      | succ j =>
        simp only [List.getD_cons_succ] at hc
        simp only [List.length_cons] at hi
        exact absurd (ih j (by omega) hc) (by omega)

theorem extractI_append_part (l : List Nat) (i j k : Int) (h0 : 0 ≤ i) (hij : i ≤ j)
    (hjk : j ≤ k) : extractI l i j ++ extractI l j k = extractI l i k := by
  unfold extractI
  exact extractN_append_part l i.toNat j.toNat k.toNat (by omega) (by omega)

theorem extractI_drop (l : List Nat) (i j : Int) (h0 : 0 ≤ i) (hij : i ≤ j)
    (hj : j ≤ (l.length : Int)) :
    extractI l i j ++ l.drop j.toNat = l.drop i.toNat := by
  unfold extractI
  rw [show l.drop j.toNat = extractN l j.toNat l.length from (extractN_full l j.toNat).symm,
    show l.drop i.toNat = extractN l i.toNat l.length from (extractN_full l i.toNat).symm]
  exact extractN_append_part l i.toNat j.toNat l.length (by omega) (by omega)

theorem expandEdit_End_eq (e : Edit) (src : List Nat) :
    (expandEdit e src).End =
      if indexByte (src.drop e.End.toNat) 10 < 0 then (src.length : Int)
      else e.End + indexByte (src.drop e.End.toNat) 10 + 1 := rfl

theorem expandEdit_Start_eq (e : Edit) (src : List Nat) (h0 : 0 ≤ e.Start)
    (hl : e.Start ≤ (src.length : Int)) :
    (expandEdit e src).Start = lastIndexByte (src.take e.Start.toNat) 10 + 1 := by
  have hli := lastIndexByte_lt (src.take e.Start.toNat) 10
  have hlt : (src.take e.Start.toNat).length = e.Start.toNat := by
    rw [List.length_take]
    omega
  rw [hlt] at hli
  simp only [expandEdit]
  split
  · rename_i hd
    show e.Start - (e.Start - 1 - lastIndexByte (src.take e.Start.toNat) 10) =
      lastIndexByte (src.take e.Start.toNat) 10 + 1
    omega
  · rename_i hd
    show e.Start = lastIndexByte (src.take e.Start.toNat) 10 + 1
    omega

theorem expandEdit_New_eq (e : Edit) (src : List Nat) (h0 : 0 ≤ e.Start)
    (hl : e.Start ≤ (src.length : Int)) :
    (expandEdit e src).New =
      extractI src (expandEdit e src).Start e.Start ++ e.New ++
        extractI src e.End (expandEdit e src).End := by
  have hli := lastIndexByte_lt (src.take e.Start.toNat) 10
  have hlt : (src.take e.Start.toNat).length = e.Start.toNat := by
    rw [List.length_take]
    omega
  rw [hlt] at hli
  rw [expandEdit_Start_eq e src h0 hl, expandEdit_End_eq e src]
  simp only [expandEdit]
  split
  · rename_i hd
    simp only [List.append_assoc]
    rw [show e.Start - (e.Start - 1 - lastIndexByte (src.take e.Start.toNat) 10) =
      lastIndexByte (src.take e.Start.toNat) 10 + 1 by omega]
  · rename_i hd
    have hse : lastIndexByte (src.take e.Start.toNat) 10 + 1 = e.Start := by omega
    rw [hse]
    rw [show extractI src e.Start e.Start = [] from extractN_self src e.Start.toNat]
    simp

theorem expandEdit_spec (e : Edit) (src : List Nat) (h0 : 0 ≤ e.Start) (hse : e.Start ≤ e.End)
    (hel : e.End ≤ (src.length : Int)) :
    0 ≤ (expandEdit e src).Start ∧ (expandEdit e src).Start ≤ e.Start ∧
    e.End ≤ (expandEdit e src).End ∧ (expandEdit e src).End ≤ (src.length : Int) ∧
    ((expandEdit e src).Start = 0 ∨
      (0 < (expandEdit e src).Start ∧ src.getD ((expandEdit e src).Start - 1).toNat 0 = 10)) ∧
    ((expandEdit e src).End = (src.length : Int) ∨
      (1 ≤ (expandEdit e src).End ∧ src.getD ((expandEdit e src).End - 1).toNat 0 = 10)) := by
  have hl : e.Start ≤ (src.length : Int) := le_trans hse hel
  have hli := lastIndexByte_lt (src.take e.Start.toNat) 10
  have hlt : (src.take e.Start.toNat).length = e.Start.toNat := by
    rw [List.length_take]
    omega
  rw [hlt] at hli
  have hS := expandEdit_Start_eq e src h0 hl
  have hE := expandEdit_End_eq e src
  refine ⟨by omega, by omega, ?_, ?_, ?_, ?_⟩
  · rw [hE]
    split
    · omega
    · rename_i hnl
      omega
  · rw [hE]
    split
    · omega
    · rename_i hnl
      push_neg at hnl
      obtain ⟨hlt2, -⟩ := indexByte_spec (src.drop e.End.toNat) 10 hnl
      rw [List.length_drop] at hlt2
      omega
  · by_cases hneg : lastIndexByte (src.take e.Start.toNat) 10 < 0
    · left
      omega
    · push_neg at hneg
      right
      refine ⟨by omega, ?_⟩
      have hg := lastIndexByte_getD (src.take e.Start.toNat) 10 hneg
      rw [getD_take _ _ _ (by omega)] at hg
      rw [hS]
      rw [show (lastIndexByte (src.take e.Start.toNat) 10 + 1 - 1).toNat =
        (lastIndexByte (src.take e.Start.toNat) 10).toNat by omega]
      exact hg
  · rw [hE]
    split
    · left
      rfl
    · rename_i hnl
      push_neg at hnl
      right
      obtain ⟨hlt2, hg⟩ := indexByte_spec (src.drop e.End.toNat) 10 hnl
      rw [getD_drop] at hg
      refine ⟨by omega, ?_⟩
      rw [show (e.End + indexByte (src.drop e.End.toNat) 10 + 1 - 1).toNat =
        e.End.toNat + (indexByte (src.drop e.End.toNat) 10).toNat by omega]
      exact hg

theorem expandEdit_End_le (prev e : Edit) (src : List Nat)
    (h0 : 0 ≤ prev.End) (hee : prev.End ≤ e.Start) (hes : e.Start ≤ (src.length : Int))
    (hcont : (extractI src prev.End e.Start).contains 10 = true) :
    (expandEdit prev src).End ≤ e.Start ∧
    (expandEdit prev src).End ≤ lastIndexByte (src.take e.Start.toNat) 10 + 1 := by
  have hmem : (10 : Nat) ∈ extractI src prev.End e.Start := List.elem_iff.mp hcont
  obtain ⟨i, hi, hgi⟩ := mem_getD _ 10 hmem
  unfold extractI at hi hgi
  have hblen : (extractN src prev.End.toNat e.Start.toNat).length ≤
      e.Start.toNat - prev.End.toNat := by
    simp only [extractN, List.length_take, List.length_drop]
    omega
  have hi2 : i < e.Start.toNat - prev.End.toNat := by omega
  rw [getD_extractN src prev.End.toNat e.Start.toNat i hi2] at hgi
  have hgd : (src.drop prev.End.toNat).getD i 0 = 10 := by
    rw [getD_drop]
    exact hgi
  have hidx := indexByte_le (src.drop prev.End.toNat) 10 i
    (by rw [List.length_drop]; omega) hgd
  have hE := expandEdit_End_eq prev src
  rw [if_neg (by omega)] at hE
  set nl := indexByte (src.drop prev.End.toNat) 10 with hnl
  obtain ⟨hlt2, hg2⟩ := indexByte_spec (src.drop prev.End.toNat) 10 (by omega)
  rw [getD_drop] at hg2
  have hE1 : (expandEdit prev src).End ≤ e.Start := by omega
  refine ⟨hE1, ?_⟩
  have hge := lastIndexByte_ge (src.take e.Start.toNat) 10 (prev.End.toNat + nl.toNat)
    (by rw [List.length_take]; omega)
    (by rw [getD_take _ _ _ (by omega)]; exact hg2)
  omega

theorem editsValid_of_validateSize (L : Nat) :
    ∀ (l : List Edit) (size0 le size : Int),
    validateSize L l size0 le = .ok size → editsValid L le l
  | [], _, _, _, _ => trivial
  | e :: rest, size0, le, size, h => by
    simp only [validateSize] at h
    split at h
    · exact absurd h (by simp)
    · split at h
      · exact absurd h (by simp)
      · rename_i hb hov
        push_neg at hb
        push_neg at hov
        exact ⟨hov, hb.2.1, hb.2.2, editsValid_of_validateSize L rest _ e.End size h⟩

theorem editsValid_validateSize (L : Nat) :
    ∀ (l : List Edit) (le size0 : Int), editsValid L le l → 0 ≤ le →
    ∃ size, validateSize L l size0 le = .ok size
  | [], le, size0, _, _ => ⟨size0, rfl⟩
  | e :: rest, le, size0, h, h0 => by
    obtain ⟨h1, h2, h3, h4⟩ := h
    simp only [validateSize]
    rw [if_neg (by push_neg; omega)]
    rw [if_neg (by omega)]
    exact editsValid_validateSize L rest e.End _ h4 (by omega)

theorem editsValid_isSorted (L : Nat) :
    ∀ (l : List Edit) (le : Int), editsValid L le l → isSorted l = true
  | [], _, _ => rfl
  | [e], _, _ => rfl
  | e1 :: e2 :: rest, le, h => by
    obtain ⟨h1, h2, h3, h4⟩ := h
    obtain ⟨k1, k2, k3, k4⟩ := h4
    simp only [isSorted, Bool.and_eq_true]
    refine ⟨?_, editsValid_isSorted L (e2 :: rest) e1.End ⟨k1, k2, k3, k4⟩⟩
    simp only [editLE, Bool.or_eq_true, Bool.and_eq_true, decide_eq_true_eq]
    omega

theorem lineEditsLoop_spec (src : List Nat) :
    ∀ (rest : List Edit) (prev : Edit) (la : Int),
    editsValid src.length prev.End rest →
    0 ≤ prev.Start → prev.Start ≤ prev.End → prev.End ≤ (src.length : Int) →
    0 ≤ la → la ≤ (expandEdit prev src).Start →
    (applySem src (lineEditsLoop src prev rest) la = applySem src (prev :: rest) la) ∧
    editsValid src.length la (lineEditsLoop src prev rest) ∧
    ∀ e ∈ lineEditsLoop src prev rest,
      (e.Start = 0 ∨ (0 < e.Start ∧ src.getD (e.Start - 1).toNat 0 = 10)) ∧
      (e.End = (src.length : Int) ∨ (1 ≤ e.End ∧ src.getD (e.End - 1).toNat 0 = 10))
  | [], prev, la, hv, hp0, hpse, hpe, hla0, hlaS => by
    obtain ⟨hS0, hSle, hEge, hEle, hAstart, hAend⟩ := expandEdit_spec prev src hp0 hpse hpe
    have hNew := expandEdit_New_eq prev src hp0 (le_trans hpse hpe)
    refine ⟨?_, ⟨hlaS, by omega, hEle, trivial⟩, ?_⟩
    · simp only [lineEditsLoop, applySem]
      rw [hNew]
      simp only [List.append_assoc]
      rw [extractI_drop src prev.End (expandEdit prev src).End (by omega) hEge hEle]
      rw [← List.append_assoc (extractI src la (expandEdit prev src).Start)
        (extractI src (expandEdit prev src).Start prev.Start)]
      rw [extractI_append_part src la (expandEdit prev src).Start prev.Start hla0 hlaS hSle]
    · intro e he
      simp only [lineEditsLoop, List.mem_singleton] at he
      subst he
      exact ⟨hAstart, hAend⟩
  | e :: rest, prev, la, hv, hp0, hpse, hpe, hla0, hlaS => by
    obtain ⟨hv1, hv2, hv3, hv4⟩ := hv
    simp only [lineEditsLoop]
    split
    · rename_i hcont
      have hEle2 := expandEdit_End_le prev e src (by omega) hv1 (by omega) hcont
      obtain ⟨hS0, hSle, hEge, hEle, hAstart, hAend⟩ := expandEdit_spec prev src hp0 hpse hpe
      have hNew := expandEdit_New_eq prev src hp0 (le_trans hpse hpe)
      have hSe := expandEdit_Start_eq e src (by omega) (by omega)
      obtain ⟨ih1, ih2, ih3⟩ := lineEditsLoop_spec src rest e ((expandEdit prev src).End) hv4
        (by omega) hv2 hv3 (by omega) (by rw [hSe]; exact hEle2.2)
      refine ⟨?_, ⟨hlaS, by omega, hEle, ih2⟩, ?_⟩
      · simp only [applySem]
        rw [ih1]
        rw [hNew]
        simp only [applySem, List.append_assoc]
        rw [← List.append_assoc (extractI src prev.End (expandEdit prev src).End)
          (extractI src (expandEdit prev src).End e.Start)]
        rw [extractI_append_part src prev.End (expandEdit prev src).End e.Start (by omega)
          hEge hEle2.1]
        rw [← List.append_assoc (extractI src la (expandEdit prev src).Start)
          (extractI src (expandEdit prev src).Start prev.Start)]
        rw [extractI_append_part src la (expandEdit prev src).Start prev.Start hla0 hlaS hSle]
      · intro x hx
        rcases List.mem_cons.mp hx with rfl | hx'
        · exact ⟨hAstart, hAend⟩
        · exact ih3 x hx'
    · rename_i hcont
      have hmS : (expandEdit (⟨prev.Start, e.End,
          prev.New ++ extractI src prev.End e.Start ++ e.New⟩ : Edit) src).Start =
          (expandEdit prev src).Start := by
        rw [expandEdit_Start_eq _ src (by exact hp0) (by dsimp only; omega),
          expandEdit_Start_eq prev src hp0 (by omega)]
      obtain ⟨ih1, ih2, ih3⟩ := lineEditsLoop_spec src rest
        (⟨prev.Start, e.End,
          prev.New ++ extractI src prev.End e.Start ++ e.New⟩ : Edit) la hv4
        (by dsimp only; omega) (by dsimp only; omega) (by dsimp only; omega) hla0
        (by rw [hmS]; exact hlaS)
      refine ⟨?_, ih2, ih3⟩
      rw [ih1]
      simp only [applySem, List.append_assoc]

theorem Validate_ok_parts (L : Nat) (E E' : List Edit) (size : Int)
    (h : Validate L E = .ok (E', size)) :
    E' = SortEdits E ∧ validateSize L E' (L : Int) 0 = .ok size := by
  rw [Validate_eq_sorted] at h
  cases hv : validateSize L (SortEdits E) (L : Int) 0 with
  | error m => rw [hv] at h; exact absurd h (by simp)
  | ok sz =>
    rw [hv] at h
    simp only [Except.ok.injEq, Prod.mk.injEq] at h
    obtain ⟨he, hs⟩ := h
    subst hs
    exact ⟨he.symm, by rw [← he]; exact hv⟩

theorem Validate_ok_self (L : Nat) (E E' : List Edit) (size : Int)
    (h : Validate L E = .ok (E', size)) : Validate L E' = .ok (E', size) := by
  obtain ⟨he, hv⟩ := Validate_ok_parts L E E' size h
  unfold Validate
  rw [if_pos (by rw [he]; exact sortEdits_sorted E)]
  dsimp only
  rw [hv]

theorem editsValid_mem (L : Nat) :
    ∀ (l : List Edit) (le : Int), editsValid L le l →
    ∀ e ∈ l, le ≤ e.Start ∧ e.Start ≤ e.End ∧ e.End ≤ (L : Int)
  | [], _, _, e, he => absurd he (List.not_mem_nil e)
  | a :: rest, le, h, e, he => by
    obtain ⟨h1, h2, h3, h4⟩ := h
    rcases List.mem_cons.mp he with rfl | he'
    · exact ⟨h1, h2, h3⟩
    · have ih := editsValid_mem L rest a.End h4 e he'
      exact ⟨by omega, ih.2.1, ih.2.2⟩

/-- C4 (corrected): the claim's alignment clause is too strong. For the
validated edit list `[{Start 0, End 0, New "x"}]` against `src = "abc"`,
`lineEdits` returns the list unchanged on its fast path, and the
resulting edit's end offset `0` is neither `len(src)` nor positioned
immediately after a newline of `src`. -/
theorem C4_counterexample :
    Validate (List.length [97, 98, 99]) [⟨0, 0, [120]⟩] = .ok ([⟨0, 0, [120]⟩], 4) ∧
    lineEdits [97, 98, 99] [⟨0, 0, [120]⟩] = .ok [⟨0, 0, [120]⟩] ∧
    ∃ e ∈ [(⟨0, 0, [120]⟩ : Edit)],
      ¬(e.End = (List.length [97, 98, 99] : Int) ∨
        (0 < e.End ∧ [97, 98, 99].getD (e.End - 1).toNat 0 = 10)) := by
  decide

/-- C4 (amended): for every source text and every edit list passing
validation, `lineEdits` succeeds, applying its output equals applying
the original edits, and every output edit starts at offset 0 or
immediately after a newline, and ends at offset 0, at `len(src)`, or
immediately after a newline (end offset 0 is the extra case the original
claim missed, reachable on the fast path). -/
theorem C4_line_edits_meaning_and_alignment (src : List Nat) (E E' : List Edit) (size : Int)
    (h : Validate src.length E = .ok (E', size)) :
    ∃ L, lineEdits src E = .ok L ∧
      Apply src L = Apply src E ∧
      ∀ e ∈ L,
        (e.Start = 0 ∨ (0 < e.Start ∧ src.getD (e.Start - 1).toNat 0 = 10)) ∧
        (e.End = 0 ∨ e.End = (src.length : Int) ∨
          (0 < e.End ∧ src.getD (e.End - 1).toNat 0 = 10)) := by
  obtain ⟨hE', hvs⟩ := Validate_ok_parts src.length E E' size h
  have hAE : Apply src E = .ok (applySem src E' 0) := (Validate_ok_Apply src E E' size h).1
  have hVself : Validate src.length E' = .ok (E', size) := Validate_ok_self src.length E E' size h
  have hvalid : editsValid src.length 0 E' :=
    editsValid_of_validateSize src.length E' (src.length : Int) 0 size hvs
  by_cases hfast : (E'.all fun e => !notLineAligned src e) = true
  · have hLE : lineEdits src E = .ok E' := by
      unfold lineEdits
      simp only [h]
      rw [if_pos hfast]
    refine ⟨E', hLE, ?_, ?_⟩
    · rw [hAE, (Validate_ok_Apply src E' E' size hVself).1]
    · intro e he
      have hmem := editsValid_mem src.length E' 0 hvalid e he
      have hb : notLineAligned src e = false := by
        simpa using List.all_eq_true.mp hfast e he
      simp only [notLineAligned, Bool.or_eq_false_iff, Bool.and_eq_false_iff,
        decide_eq_false_iff_not, not_le, not_lt, not_not] at hb
      obtain ⟨⟨hb1, hb2⟩, hb3⟩ := hb
      constructor
      · rcases hb2 with h2 | h2
        · exact Or.inl (by omega)
        · by_cases h0 : 0 < e.Start
          · exact Or.inr ⟨h0, h2⟩
          · exact Or.inl (by omega)
      · rcases hb3 with h3 | h3
        · exact Or.inl (by omega)
        · by_cases h0 : 0 < e.End
          · exact Or.inr (Or.inr ⟨h0, h3⟩)
          · exact Or.inl (by omega)
  · match E', h, hvs, hAE, hVself, hvalid, hfast with
    | [], h, hvs, hAE, hVself, hvalid, hfast => exact absurd rfl hfast
    | e :: rest, h, hvs, hAE, hVself, hvalid, hfast =>
      have hLE : lineEdits src E = .ok (lineEditsLoop src e rest) := by
        unfold lineEdits
        simp only [h]
        rw [if_neg hfast]
      obtain ⟨h1, h2, h3, h4⟩ := hvalid
      obtain ⟨hS0, hSle, hEge, hEle, hAstart, hAend⟩ := expandEdit_spec e src h1 h2 h3
      obtain ⟨ha1, ha2, ha3⟩ := lineEditsLoop_spec src rest e 0 h4 h1 h2 h3 le_rfl hS0
      obtain ⟨size', hvs'⟩ :=
        editsValid_validateSize src.length (lineEditsLoop src e rest) 0 (src.length : Int)
          ha2 le_rfl
      have hsorted : isSorted (lineEditsLoop src e rest) = true :=
        editsValid_isSorted src.length (lineEditsLoop src e rest) 0 ha2
      have hVL : Validate src.length (lineEditsLoop src e rest) =
          .ok (lineEditsLoop src e rest, size') := by
        unfold Validate
        rw [if_pos hsorted]
        dsimp only
        rw [hvs']
      refine ⟨lineEditsLoop src e rest, hLE, ?_, ?_⟩
      · rw [hAE, (Validate_ok_Apply src (lineEditsLoop src e rest)
          (lineEditsLoop src e rest) size' hVL).1, ha1]
      · intro x hx
        obtain ⟨hxs, hxe⟩ := ha3 x hx
        refine ⟨hxs, ?_⟩
        rcases hxe with hxe | hxe
        · exact Or.inr (Or.inl hxe)
        · exact Or.inr (Or.inr ⟨by omega, hxe.2⟩)

theorem C4_line_edits_meaning_and_alignment_witness :
    Validate (List.length [97, 10]) [⟨0, 1, [120]⟩] = .ok ([⟨0, 1, [120]⟩], 2) ∧
    ∃ L, lineEdits [97, 10] [⟨0, 1, [120]⟩] = .ok L ∧
      Apply [97, 10] L = Apply [97, 10] [⟨0, 1, [120]⟩] ∧
      ∀ e ∈ L,
        (e.Start = 0 ∨ (0 < e.Start ∧ [97, 10].getD (e.Start - 1).toNat 0 = 10)) ∧
        (e.End = 0 ∨ e.End = (List.length [97, 10] : Int) ∨
          (0 < e.End ∧ [97, 10].getD (e.End - 1).toNat 0 = 10)) :=
  ⟨by decide,
    C4_line_edits_meaning_and_alignment [97, 10] [⟨0, 1, [120]⟩] [⟨0, 1, [120]⟩] 2 (by decide)⟩

/-- C5 (corrected): the claim wrongly includes end-of-file insertions in
the fast path. For `src = "a"` and the validated edit list
`[{Start 1, End 1, New "x"}]` — a pure insertion at `start = end =
len(src)` — the source's fast-path test treats `start >= len(src)` as
NOT line-aligned, so `lineEdits` takes the expansion path and returns
`[{Start 0, End 1, New "ax"}]`, not the list unchanged. -/
theorem C5_counterexample :
    Validate (List.length [97]) [⟨1, 1, [120]⟩] = .ok ([⟨1, 1, [120]⟩], 2) ∧
    (∀ e ∈ [(⟨1, 1, [120]⟩ : Edit)], (List.length [97] : Int) ≤ e.Start ∧ e.Start = e.End) ∧
    lineEdits [97] [⟨1, 1, [120]⟩] = .ok [⟨0, 1, [97, 120]⟩] ∧
    [(⟨0, 1, [97, 120]⟩ : Edit)] ≠ [⟨1, 1, [120]⟩] := by
  decide

/-- C5 (amended): for every source text and validated edit list, if
every edit of the validated list starts strictly before `len(src)` and
has both its start and its end at offset 0 or immediately after a
newline of `src`, then `lineEdits` returns the validated list as-is
(the fast path; end-of-file insertions are excluded, as the source
sends any edit with `start >= len(src)` to the expansion path). -/
theorem C5_fast_path_on_aligned (src : List Nat) (E E' : List Edit) (size : Int)
    (h : Validate src.length E = .ok (E', size))
    (ha : ∀ e ∈ E', e.Start < (src.length : Int) ∧
      (e.Start = 0 ∨ src.getD (e.Start - 1).toNat 0 = 10) ∧
      (e.End = 0 ∨ src.getD (e.End - 1).toNat 0 = 10)) :
    lineEdits src E = .ok E' := by
  have hall : (E'.all fun e => !notLineAligned src e) = true := by
    rw [List.all_eq_true]
    intro e he
    obtain ⟨h1, h2, h3⟩ := ha e he
    simp only [Bool.not_eq_true', notLineAligned, Bool.or_eq_false_iff]
    refine ⟨⟨decide_eq_false (not_le.mpr h1), ?_⟩, ?_⟩
    · rcases h2 with h2 | h2
      · exact Bool.and_eq_false_iff.mpr (Or.inl (decide_eq_false (by omega)))
      · exact Bool.and_eq_false_iff.mpr (Or.inr (decide_eq_false (not_not_intro h2)))
    · rcases h3 with h3 | h3
      · exact Bool.and_eq_false_iff.mpr (Or.inl (decide_eq_false (by omega)))
      · exact Bool.and_eq_false_iff.mpr (Or.inr (decide_eq_false (not_not_intro h3)))
  unfold lineEdits
  simp only [h]
  rw [if_pos hall]

theorem C5_fast_path_on_aligned_witness :
    Validate (List.length [97, 10, 98]) [⟨2, 2, [120]⟩] = .ok ([⟨2, 2, [120]⟩], 4) ∧
    (∀ e ∈ [(⟨2, 2, [120]⟩ : Edit)], e.Start < (List.length [97, 10, 98] : Int) ∧
      (e.Start = 0 ∨ [97, 10, 98].getD (e.Start - 1).toNat 0 = 10) ∧
      (e.End = 0 ∨ [97, 10, 98].getD (e.End - 1).toNat 0 = 10)) ∧
    lineEdits [97, 10, 98] [⟨2, 2, [120]⟩] = .ok [⟨2, 2, [120]⟩] :=
  ⟨by decide, by decide,
    C5_fast_path_on_aligned [97, 10, 98] [⟨2, 2, [120]⟩] [⟨2, 2, [120]⟩] 4
      (by decide) (by decide)⟩


/-! ## Myers diff search: correctness -/

theorem sesReach_nonneg {a b : List (List Nat)} {d : Nat} {x y : Int}
    (h : sesReach a b d x y) : 0 ≤ x ∧ 0 ≤ y := by
  induction h with
  | base => omega
  | diag h hx hy he ih => omega
  | step_r h ih => omega
  | step_d h ih => omega

theorem sesReach_diag_bound {a b : List (List Nat)} {d : Nat} {x y : Int}
    (h : sesReach a b d x y) : x - y ≤ (d : Int) ∧ y - x ≤ (d : Int) := by
  induction h with
  | base => omega
  | diag h hx hy he ih => omega
  | step_r h ih => push_cast; push_cast at ih; omega
  | step_d h ih => push_cast; push_cast at ih; omega

theorem sesReach_parity {a b : List (List Nat)} {d : Nat} {x y : Int}
    (h : sesReach a b d x y) : ∃ s : Nat, x + y = (d : Int) + 2 * s := by
  induction h with
  | base => exact ⟨0, by omega⟩
  | diag h hx hy he ih =>
    obtain ⟨s, hs⟩ := ih
    exact ⟨s + 1, by push_cast; push_cast at hs; omega⟩
  | step_r h ih =>
    obtain ⟨s, hs⟩ := ih
    exact ⟨s, by push_cast; push_cast at hs; omega⟩
  | step_d h ih =>
    obtain ⟨s, hs⟩ := ih
    exact ⟨s, by push_cast; push_cast at hs; omega⟩

theorem sesReach_x_axis (a b : List (List Nat)) : ∀ m : Nat, sesReach a b m (m : Int) 0
  | 0 => .base
  | m + 1 => by
    have h1 := sesReach.step_r (sesReach_x_axis a b m)
    have h2 : ((m + 1 : Nat) : Int) = (m : Int) + 1 := by push_cast; ring
    rw [h2]
    exact h1

theorem sesReach_extend_d {a b : List (List Nat)} {d : Nat} {x y : Int}
    (h : sesReach a b d x y) : ∀ n : Nat, sesReach a b (d + n) x (y + n)
  | 0 => by simpa using h
  | n + 1 => by
    have h1 := sesReach.step_d (sesReach_extend_d h n)
    have h2 : y + ((n + 1 : Nat) : Int) = y + (n : Int) + 1 := by push_cast; ring
    rw [h2]
    exact h1

theorem sesReach_extend_r {a b : List (List Nat)} {d : Nat} {x y : Int}
    (h : sesReach a b d x y) : ∀ n : Nat, sesReach a b (d + n) (x + n) y
  | 0 => by simpa using h
  | n + 1 => by
    have h1 := sesReach.step_r (sesReach_extend_r h n)
    have h2 : x + ((n + 1 : Nat) : Int) = x + (n : Int) + 1 := by push_cast; ring
    rw [h2]
    exact h1

theorem sesReach_corner (a b : List (List Nat)) :
    sesReach a b (a.length + b.length) (a.length : Int) (b.length : Int) := by
  have := sesReach_extend_d (sesReach_x_axis a b a.length) b.length
  simpa using this

/-- Any reachable point past the bottom edge of the grid (`y > N`) but
not past the right edge is at least as expensive as reaching the corner
after accounting for the overshoot. -/
theorem sesReach_min_over_y {a b : List (List Nat)} {dm : Nat}
    (hmin : ∀ d : Nat, sesReach a b d (a.length : Int) (b.length : Int) → dm ≤ d)
    {d : Nat} {x y : Int} (h : sesReach a b d x y) :
    x ≤ (a.length : Int) → (b.length : Int) < y →
    (dm : Int) ≤ (d : Int) + ((a.length : Int) - x) - (y - (b.length : Int)) := by
  induction h with
  | base => intro hx hy; omega
  | diag h hx hy he ih => intro hx2 hy2; omega
  | step_r h ih =>
    intro hx2 hy2
    have h3 := ih (by omega) hy2
    push_cast
    push_cast at h3
    omega
  | step_d h ih =>
    rename_i d' x' y'
    intro hx2 hy2
    by_cases hcase : (b.length : Int) < y'
    · have h3 := ih hx2 hcase
      push_cast
      push_cast at h3
      omega
    · have hyN : y' = (b.length : Int) := by omega
      have hx0 : 0 ≤ x' := (sesReach_nonneg h).1
      have hext := sesReach_extend_r h (((a.length : Int) - x').toNat)
      rw [hyN] at hext
      have hxe : x' + ((((a.length : Int)) - x').toNat : Int) = (a.length : Int) := by omega
      rw [hxe] at hext
      have h4 := hmin _ hext
      push_cast
      omega

/-- Symmetric form: past the right edge (`x > M`) but not past the
bottom edge. -/
theorem sesReach_min_over_x {a b : List (List Nat)} {dm : Nat}
    (hmin : ∀ d : Nat, sesReach a b d (a.length : Int) (b.length : Int) → dm ≤ d)
    {d : Nat} {x y : Int} (h : sesReach a b d x y) :
    y ≤ (b.length : Int) → (a.length : Int) < x →
    (dm : Int) ≤ (d : Int) + ((b.length : Int) - y) - (x - (a.length : Int)) := by
  induction h with
  | base => intro hy hx; omega
  | diag h hx hy he ih => intro hy2 hx2; omega
  | step_d h ih =>
    intro hy2 hx2
    have h3 := ih (by omega) hx2
    push_cast
    push_cast at h3
    omega
  | step_r h ih =>
    rename_i d' x' y'
    intro hy2 hx2
    by_cases hcase : (a.length : Int) < x'
    · have h3 := ih hy2 hcase
      push_cast
      push_cast at h3
      omega
    · have hxM : x' = (a.length : Int) := by omega
      have hy0 : 0 ≤ y' := (sesReach_nonneg h).2
      have hext := sesReach_extend_d h ((((b.length : Int)) - y').toNat)
      rw [hxM] at hext
      have hye : y' + ((((b.length : Int)) - y').toNat : Int) = (b.length : Int) := by omega
      rw [hye] at hext
      have h4 := hmin _ hext
      push_cast
      omega

/-- No point strictly past the corner in both coordinates is reachable
in fewer moves than the corner plus its overshoot. -/
theorem sesReach_min_corner {a b : List (List Nat)} {dm : Nat}
    (hmin : ∀ d : Nat, sesReach a b d (a.length : Int) (b.length : Int) → dm ≤ d)
    {d : Nat} {x y : Int} (h : sesReach a b d x y) :
    (a.length : Int) < x → (b.length : Int) < y →
    (dm : Int) + (x - (a.length : Int)) + (y - (b.length : Int)) ≤ (d : Int) := by
  induction h with
  | base => intro hx hy; omega
  | diag h hx hy he ih => intro hx2 hy2; omega
  | step_r h ih =>
    rename_i d' x' y'
    intro hx2 hy2
    by_cases hcase : (a.length : Int) < x'
    · have h3 := ih hcase hy2
      push_cast
      push_cast at h3
      omega
    · have h3 := sesReach_min_over_y hmin h (by omega) hy2
      push_cast
      push_cast at h3
      omega
  | step_d h ih =>
    rename_i d' x' y'
    intro hx2 hy2
    by_cases hcase : (b.length : Int) < y'
    · have h3 := ih hx2 hcase
      push_cast
      push_cast at h3
      omega
    · have h3 := sesReach_min_over_x hmin h (by omega) hx2
      push_cast
      push_cast at h3
      omega

/-- Full specification of the diagonal slide: the endpoint dominates the
start, stays on the diagonal, slides only across equal in-range line
pairs, and stops only at the grid edge or at a mismatch. -/
theorem sesSlide_spec (a b : List (List Nat)) (M N : Nat) : ∀ (n : Nat) (x y : Int),
    ((M : Int) - x).toNat = n →
    x ≤ (sesSlide a b M N x y).1 ∧
    (sesSlide a b M N x y).2 = y + ((sesSlide a b M N x y).1 - x) ∧
    (∀ i : Int, x ≤ i → i < (sesSlide a b M N x y).1 →
      i < (M : Int) ∧ y + (i - x) < (N : Int) ∧
        a.getD i.toNat [] = b.getD (y + (i - x)).toNat []) ∧
    ¬((sesSlide a b M N x y).1 < (M : Int) ∧ (sesSlide a b M N x y).2 < (N : Int) ∧
      a.getD (sesSlide a b M N x y).1.toNat [] =
        b.getD (sesSlide a b M N x y).2.toNat []) := by
  intro n
  induction n using Nat.strong_induction_on with
  | _ n IH =>
    intro x y hn
    rw [sesSlide]
    split
    · rename_i hcond
      obtain ⟨hxM, hyN, heq⟩ := hcond
      have hlt : (((M : Int) - (x + 1)).toNat) < n := by omega
      obtain ⟨h1, h2, h3, h4⟩ := IH _ hlt (x + 1) (y + 1) rfl
      refine ⟨by omega, by omega, ?_, h4⟩
      intro i hi1 hi2
      rcases eq_or_lt_of_le hi1 with hix | hix
      · refine ⟨by omega, by omega, ?_⟩
        have hyy : y + (i - x) = y := by omega
        rw [hyy]
        have hxx : i = x := by omega
        rw [hxx]
        exact heq
      · obtain ⟨g1, g2, g3⟩ := h3 i (by omega) hi2
        refine ⟨g1, by omega, ?_⟩
        have hyy : y + 1 + (i - (x + 1)) = y + (i - x) := by ring
        rw [hyy] at g3
        exact g3
    · rename_i hcond
      refine ⟨le_refl x, by omega, ?_, hcond⟩
      intro i hi1 hi2
      omega

theorem sesSlide_fst_le (a b : List (List Nat)) (M N : Nat) (x y : Int) :
    x ≤ (sesSlide a b M N x y).1 :=
  (sesSlide_spec a b M N _ x y rfl).1

theorem sesSlide_snd (a b : List (List Nat)) (M N : Nat) (x y : Int) :
    (sesSlide a b M N x y).2 = y + ((sesSlide a b M N x y).1 - x) :=
  (sesSlide_spec a b M N _ x y rfl).2.1

/-- The slide of the search preserves reachability when run on the true
grid dimensions. -/
theorem sesSlide_reach (a b : List (List Nat)) (d : Nat) : ∀ (n : Nat) (x y : Int),
    ((a.length : Int) - x).toNat = n → sesReach a b d x y →
    sesReach a b d (sesSlide a b a.length b.length x y).1
      (sesSlide a b a.length b.length x y).2 := by
  intro n
  induction n using Nat.strong_induction_on with
  | _ n IH =>
    intro x y hn hr
    rw [sesSlide]
    split
    · rename_i hcond
      obtain ⟨hxM, hyN, heq⟩ := hcond
      have hlt : (((a.length : Int) - (x + 1)).toNat) < n := by omega
      exact IH _ hlt (x + 1) (y + 1) rfl (.diag hr hxM hyN heq)
    · exact hr

theorem myersF_eq (a b : List (List Nat)) : ∀ (d : Nat) (k : Int),
    myersF a b d k =
      (sesSlide a b a.length b.length (myersX0 a b d k) (myersX0 a b d k - k)).1
  | 0, k => by
    have h0 : myersX0 a b 0 k = 0 := rfl
    rw [h0]
    rfl
  | d + 1, k => rfl

/-- The invariant of the recurrence on the ranges the search reads: the
step value is a grid point on diagonal `k`, the stored value is
reachable in `d` unit moves, and the step value dominates both
candidate predecessors that exist. -/
theorem myersF_main (a b : List (List Nat)) : ∀ (d : Nat) (k : Int),
    -(d : Int) ≤ k → k ≤ (d : Int) → (k + d) % 2 = 0 →
    (0 ≤ myersX0 a b d k ∧ 0 ≤ myersX0 a b d k - k) ∧
    sesReach a b d (myersF a b d k) (myersF a b d k - k) ∧
    (-(d : Int) < k → myersF a b (d - 1) (k - 1) + 1 ≤ myersX0 a b d k) ∧
    (k < (d : Int) → myersF a b (d - 1) (k + 1) ≤ myersX0 a b d k) := by
  intro d
  induction d with
  | zero =>
    intro k h1 h2 h3
    have hk : k = 0 := by omega
    subst hk
    have h0 : myersX0 a b 0 0 = 0 := rfl
    refine ⟨by rw [h0]; omega, ?_, by intro hc; omega, by intro hc; omega⟩
    rw [myersF_eq, h0]
    have hr := sesSlide_reach a b 0 _ 0 (0 - 0) rfl (by rw [show (0 : Int) - 0 = 0 by ring]; exact .base)
    have hs := sesSlide_snd a b a.length b.length 0 (0 - 0)
    rw [hs] at hr
    have he : 0 - 0 + ((sesSlide a b a.length b.length 0 (0 - 0)).1 - 0) =
        (sesSlide a b a.length b.length 0 (0 - 0)).1 - 0 := by ring
    rw [he] at hr
    exact hr
  | succ d ih =>
    intro k h1 h2 h3
    have hfval : ∀ j : Int, -(d : Int) ≤ j → j ≤ (d : Int) →
        (if j < -(d : Int) ∨ (d : Int) < j then 0 else myersF a b d j) = myersF a b d j := by
      intro j hj1 hj2
      rw [if_neg (by omega)]
    have hx0eq : myersX0 a b (d + 1) k =
        (if k = -((d : Int) + 1) ∨ (k ≠ (d : Int) + 1 ∧
            (if k - 1 < -(d : Int) ∨ (d : Int) < k - 1 then 0 else myersF a b d (k - 1)) <
            (if k + 1 < -(d : Int) ∨ (d : Int) < k + 1 then 0 else myersF a b d (k + 1)))
          then (if k + 1 < -(d : Int) ∨ (d : Int) < k + 1 then 0 else myersF a b d (k + 1))
          else (if k - 1 < -(d : Int) ∨ (d : Int) < k - 1 then 0 else myersF a b d (k - 1)) + 1) := by
      simp only [myersX0]
    have hreach : sesReach a b (d + 1) (myersX0 a b (d + 1) k) (myersX0 a b (d + 1) k - k) →
        sesReach a b (d + 1) (myersF a b (d + 1) k) (myersF a b (d + 1) k - k) := by
      intro hr
      rw [myersF_eq]
      have hre := sesSlide_reach a b (d + 1) _ (myersX0 a b (d + 1) k)
        (myersX0 a b (d + 1) k - k) rfl hr
      have hs := sesSlide_snd a b a.length b.length (myersX0 a b (d + 1) k)
        (myersX0 a b (d + 1) k - k)
      rw [hs] at hre
      have he : myersX0 a b (d + 1) k - k +
          ((sesSlide a b a.length b.length (myersX0 a b (d + 1) k)
            (myersX0 a b (d + 1) k - k)).1 - myersX0 a b (d + 1) k) =
          (sesSlide a b a.length b.length (myersX0 a b (d + 1) k)
            (myersX0 a b (d + 1) k - k)).1 - k := by ring
      rw [he] at hre
      exact hre
    by_cases hkl : k = -((d : Int) + 1)
    · -- forced down step from the diagonal above
      have hkd : k + 1 = -(d : Int) := by omega
      obtain ⟨⟨hb1, hb2⟩, hrp, hm1, hm2⟩ := ih (k + 1) (by omega) (by omega) (by omega)
      have hx0 : myersX0 a b (d + 1) k = myersF a b d (k + 1) := by
        rw [hx0eq, if_pos (Or.inl hkl), hfval (k + 1) (by omega) (by omega)]
      have hnn := sesReach_nonneg hrp
      refine ⟨⟨by omega, by omega⟩, ?_, ?_, ?_⟩
      · apply hreach
        rw [hx0]
        have hstep := sesReach.step_d hrp
        have he : myersF a b d (k + 1) - (k + 1) + 1 = myersF a b d (k + 1) - k := by ring
        rw [he] at hstep
        exact hstep
      · intro hc; omega
      · intro hc
        rw [hx0]
        simp only [Nat.add_sub_cancel]
        exact le_refl _
    · by_cases hkr : k = (d : Int) + 1
      · -- forced right step from the diagonal below
        obtain ⟨⟨hb1, hb2⟩, hrp, hm1, hm2⟩ := ih (k - 1) (by omega) (by omega) (by omega)
        have hx0 : myersX0 a b (d + 1) k = myersF a b d (k - 1) + 1 := by
          rw [hx0eq, if_neg (by push_neg; exact ⟨hkl, fun hc => absurd hkr hc⟩),
            hfval (k - 1) (by omega) (by omega)]
        have hnn := sesReach_nonneg hrp
        have hd2 := sesReach_diag_bound hrp
        refine ⟨⟨by omega, by omega⟩, ?_, ?_, ?_⟩
        · apply hreach
          rw [hx0]
          have hstep := sesReach.step_r hrp
          have he : myersF a b d (k - 1) + 1 - k = myersF a b d (k - 1) - (k - 1) := by ring
          rw [he]
          exact hstep
        · intro hc
          rw [hx0]
          simp only [Nat.add_sub_cancel]
          exact le_refl _
        · intro hc; omega
      · -- interior diagonal: both predecessors exist
        have hint1 : -(d : Int) ≤ k - 1 := by omega
        have hint2 : k + 1 ≤ (d : Int) := by omega
        obtain ⟨⟨hbl1, hbl2⟩, hrl, hml1, hml2⟩ := ih (k - 1) (by omega) (by omega) (by omega)
        obtain ⟨⟨hbr1, hbr2⟩, hrr, hmr1, hmr2⟩ := ih (k + 1) (by omega) (by omega) (by omega)
        have hnl := sesReach_nonneg hrl
        have hnr := sesReach_nonneg hrr
        by_cases hcmp : myersF a b d (k - 1) < myersF a b d (k + 1)
        · have hx0 : myersX0 a b (d + 1) k = myersF a b d (k + 1) := by
            rw [hx0eq, if_pos (Or.inr ⟨fun hc => absurd hc hkr,
              by rw [hfval (k - 1) (by omega) (by omega), hfval (k + 1) (by omega) (by omega)]
                 exact hcmp⟩),
              hfval (k + 1) (by omega) (by omega)]
          refine ⟨⟨by omega, by omega⟩, ?_, ?_, ?_⟩
          · apply hreach
            rw [hx0]
            have hstep := sesReach.step_d hrr
            have he : myersF a b d (k + 1) - (k + 1) + 1 = myersF a b d (k + 1) - k := by ring
            rw [he] at hstep
            exact hstep
          · intro hc
            rw [hx0]
            simp only [Nat.add_sub_cancel]
            omega
          · intro hc
            rw [hx0]
            simp only [Nat.add_sub_cancel]
            exact le_refl _
        · have hx0 : myersX0 a b (d + 1) k = myersF a b d (k - 1) + 1 := by
            rw [hx0eq, if_neg ?hc, hfval (k - 1) (by omega) (by omega)]
            case hc =>
              push_neg
              refine ⟨hkl, fun hne => ?_⟩
              rw [hfval (k - 1) (by omega) (by omega), hfval (k + 1) (by omega) (by omega)]
              exact not_lt.mp hcmp
          refine ⟨⟨by omega, by omega⟩, ?_, ?_, ?_⟩
          · apply hreach
            rw [hx0]
            have hstep := sesReach.step_r hrl
            have he : myersF a b d (k - 1) + 1 - k = myersF a b d (k - 1) - (k - 1) := by ring
            rw [he]
            exact hstep
          · intro hc
            rw [hx0]
            simp only [Nat.add_sub_cancel]
            exact le_refl _
          · intro hc
            rw [hx0]
            simp only [Nat.add_sub_cancel]
            omega

/-- A stored value is slide-stopped: no further diagonal move is
available at the point it denotes. -/
theorem myersF_closure (a b : List (List Nat)) (d : Nat) (k : Int) :
    ¬(myersF a b d k < (a.length : Int) ∧ myersF a b d k - k < (b.length : Int) ∧
      a.getD (myersF a b d k).toNat [] = b.getD (myersF a b d k - k).toNat []) := by
  intro hcon
  have h4 := (sesSlide_spec a b a.length b.length _ (myersX0 a b d k)
    (myersX0 a b d k - k) rfl).2.2.2
  have hs := sesSlide_snd a b a.length b.length (myersX0 a b d k) (myersX0 a b d k - k)
  have h1 : (sesSlide a b a.length b.length (myersX0 a b d k) (myersX0 a b d k - k)).1 =
      myersF a b d k := (myersF_eq a b d k).symm
  have h2 : (sesSlide a b a.length b.length (myersX0 a b d k) (myersX0 a b d k - k)).2 =
      myersF a b d k - k := by rw [hs, h1]; ring
  rw [h1, h2] at h4
  exact h4 hcon

/-- Maximality: the recurrence value on a diagonal dominates every point
reachable with the same number of unit moves. -/
theorem myersF_max {a b : List (List Nat)} : ∀ {d : Nat} {x y : Int},
    sesReach a b d x y → x ≤ myersF a b d (x - y) := by
  intro d x y h
  induction h with
  | base =>
    have hz : (0 : Int) - 0 = 0 := by ring
    rw [hz]
    obtain ⟨-, hr, -, -⟩ := myersF_main a b 0 0 (by omega) (by omega) (by omega)
    exact (sesReach_nonneg hr).1
  | diag hsub hx hy he ih =>
    rename_i d' x' y'
    have hidx : (x' + 1) - (y' + 1) = x' - y' := by ring
    rw [hidx]
    rcases lt_or_eq_of_le ih with hlt | heq
    · omega
    · exfalso
      apply myersF_closure a b d' (x' - y')
      rw [← heq]
      have hyy : x' - (x' - y') = y' := by ring
      rw [hyy]
      exact ⟨hx, hy, he⟩
  | step_r hsub ih =>
    rename_i d' x' y'
    have hdb := sesReach_diag_bound hsub
    obtain ⟨s, hs⟩ := sesReach_parity hsub
    obtain ⟨-, -, hm1, -⟩ := myersF_main a b (d' + 1) (x' + 1 - y')
      (by push_cast; omega) (by push_cast; omega) (by push_cast; omega)
    simp only [Nat.add_sub_cancel] at hm1
    have hstep := hm1 (by push_cast; omega)
    have hfle := sesSlide_fst_le a b a.length b.length (myersX0 a b (d' + 1) (x' + 1 - y'))
      (myersX0 a b (d' + 1) (x' + 1 - y') - (x' + 1 - y'))
    rw [← myersF_eq] at hfle
    have hidx : x' + 1 - y' - 1 = x' - y' := by ring
    rw [hidx] at hstep
    omega
  | step_d hsub ih =>
    rename_i d' x' y'
    have hdb := sesReach_diag_bound hsub
    obtain ⟨s, hs⟩ := sesReach_parity hsub
    obtain ⟨-, -, -, hm2⟩ := myersF_main a b (d' + 1) (x' - (y' + 1))
      (by push_cast; omega) (by push_cast; omega) (by push_cast; omega)
    simp only [Nat.add_sub_cancel] at hm2
    have hstep := hm2 (by push_cast; omega)
    have hfle := sesSlide_fst_le a b a.length b.length (myersX0 a b (d' + 1) (x' - (y' + 1)))
      (myersX0 a b (d' + 1) (x' - (y' + 1)) - (x' - (y' + 1)))
    rw [← myersF_eq] at hfle
    have hidx : x' - (y' + 1) + 1 = x' - y' := by ring
    rw [hidx] at hstep
    omega

/-- At the first round whose move count admits a path to the corner, the
recurrence value on the corner diagonal is exactly `M`: the stored point
is exactly the corner `(M, N)`, neither short of it nor past it. -/
theorem myersF_success (a b : List (List Nat)) (dm : Nat)
    (hdm : sesReach a b dm (a.length : Int) (b.length : Int))
    (hmin : ∀ d : Nat, sesReach a b d (a.length : Int) (b.length : Int) → dm ≤ d) :
    myersF a b dm ((a.length : Int) - (b.length : Int)) = (a.length : Int) := by
  have hge := myersF_max hdm
  have hdb := sesReach_diag_bound hdm
  obtain ⟨s, hs⟩ := sesReach_parity hdm
  obtain ⟨-, hr, -, -⟩ := myersF_main a b dm ((a.length : Int) - (b.length : Int))
    (by omega) (by omega) (by omega)
  by_contra hne
  have hlt : (a.length : Int) < myersF a b dm ((a.length : Int) - (b.length : Int)) := by
    rcases lt_or_eq_of_le hge with h | h
    · exact h
    · exact absurd h.symm hne
  have hcor := sesReach_min_corner hmin hr hlt (by omega)
  omega

theorem sesKs_eq (d : Nat) :
    sesKs d = (List.range (d + 1)).map (fun i : Nat => -(d : Int) + 2 * (i : Int)) := by
  unfold sesKs
  simp only [bind_pure_comp, List.map_eq_map, List.map_map]
  rfl

theorem sesKs_length (d : Nat) : (sesKs d).length = d + 1 := by
  rw [sesKs_eq, List.length_map, List.length_range]

theorem sesKs_drop_cons (d i : Nat) (h : i ≤ d) :
    (sesKs d).drop i = (-(d : Int) + 2 * (i : Int)) :: (sesKs d).drop (i + 1) := by
  rw [List.drop_eq_getElem_cons (by rw [sesKs_length]; omega)]
  congr 1
  simp [sesKs_eq]

theorem sesKs_drop_end (d i : Nat) (h : d + 1 ≤ i) : (sesKs d).drop i = [] := by
  apply List.drop_eq_nil_of_le
  rw [sesKs_length]
  omega

theorem getD_set_self_int (l : List Int) (i : Nat) (x : Int) (h : i < l.length) :
    (l.set i x).getD i 0 = x := by
  simp [List.getD_eq_getElem?_getD, List.getElem?_set_self, h]

theorem getD_set_other_int (l : List Int) (i j : Nat) (x : Int) (h : i ≠ j) :
    (l.set i x).getD j 0 = l.getD j 0 := by
  simp [List.getD_eq_getElem?_getD, List.getElem?_set_ne h]

theorem getD_set_self_row (l : List (List Int)) (i : Nat) (x : List Int) (h : i < l.length) :
    (l.set i x).getD i [] = x := by
  simp [List.getD_eq_getElem?_getD, List.getElem?_set_self, h]

theorem getD_set_other_row (l : List (List Int)) (i j : Nat) (x : List Int) (h : i ≠ j) :
    (l.set i x).getD j [] = l.getD j [] := by
  simp [List.getD_eq_getElem?_getD, List.getElem?_set_ne h]

theorem getD_replicate_int (n i : Nat) : (List.replicate n (0 : Int)).getD i 0 = 0 := by
  rcases lt_or_le i n with h | h
  · simp [List.getD_eq_getElem?_getD, List.getElem?_replicate, h]
  · rw [List.getD_eq_default]
    rw [List.length_replicate]
    omega

theorem getD_replicate_row (n i : Nat) : (List.replicate n ([] : List Int)).getD i [] = [] := by
  rcases lt_or_le i n with h | h
  · simp [List.getD_eq_getElem?_getD, List.getElem?_replicate, h]
  · rw [List.getD_eq_default]
    rw [List.length_replicate]
    omega

theorem PartState_zero (a b : List (List Nat)) :
    PartState a b 0 0 (List.replicate (2 * (b.length + a.length) + 1) 0) := by
  refine ⟨List.length_replicate _ _, ?_⟩
  intro j hj1 hj2
  refine ⟨?_, ?_, ?_, ?_⟩
  · intro hcl; omega
  · intro hcl; exact getD_replicate_int _ _
  · intro hcl; omega
  · intro hcl; exact getD_replicate_int _ _

theorem PartState_of_ArrState (a b : List (List Nat)) (d : Nat) (V : List Int)
    (h : ArrState a b d V) : PartState a b (d + 1) 0 V := by
  obtain ⟨hlen, hval⟩ := h
  refine ⟨hlen, ?_⟩
  intro j hj1 hj2
  obtain ⟨h1, h2, h3, h4⟩ := hval j hj1 hj2
  push_cast
  push_cast at h1 h2 h3 h4
  refine ⟨?_, ?_, ?_, ?_⟩
  · intro hcl; omega
  · intro hcl
    by_cases hin : -(d : Int) + 1 ≤ j ∧ j ≤ (d : Int) - 1
    · exact absurd ⟨by omega, by omega⟩ hcl.2
    · exact h4 ⟨by omega, hin⟩
  · intro hcl
    have := h1 ⟨by omega, by omega, by omega⟩
    rw [this]
  · intro hcl
    exact h2 ⟨by omega, by omega⟩

theorem ArrState_of_PartState (a b : List (List Nat)) (d : Nat) (V : List Int)
    (h : PartState a b d (d + 1) V) : ArrState a b d V := by
  obtain ⟨hlen, hval⟩ := h
  refine ⟨hlen, ?_⟩
  intro j hj1 hj2
  obtain ⟨h1, h2, h3, h4⟩ := hval j hj1 hj2
  refine ⟨?_, h2, h3, h4⟩
  intro hcl
  exact h1 ⟨hcl.1, hcl.2.1, by push_cast; omega, hcl.2.2⟩

/-- During round `d`, a slot of the previous round's parity reads as the
clamped previous-round value: the untouched zeros outside `[-(d-1), d-1]`
play the role of the recurrence's clamp. -/
theorem read_prev (a b : List (List Nat)) (d i : Nat) (V : List Int)
    (hV : PartState a b d i V) (hd : d ≤ b.length + a.length)
    (j : Int) (hpar : (j + (d : Int)) % 2 = 1)
    (hjl : -((b.length + a.length : Nat) : Int) ≤ j) :
    V.getD (j + ((b.length + a.length : Nat) : Int)).toNat 0 =
      (if j < -(d : Int) + 1 ∨ (d : Int) - 1 < j then 0 else myersF a b (d - 1) j) := by
  obtain ⟨hlen, hval⟩ := hV
  by_cases hjh : j ≤ ((b.length + a.length : Nat) : Int)
  · obtain ⟨h1, h2, h3, h4⟩ := hval j hjl hjh
    by_cases hin : -(d : Int) + 1 ≤ j ∧ j ≤ (d : Int) - 1
    · rw [if_neg (by omega)]
      exact h3 ⟨by omega, hin.1, hin.2⟩
    · rw [if_pos (by omega)]
      exact h4 ⟨by omega, hin⟩
  · rw [if_pos (by omega)]
    apply List.getD_eq_default
    rw [hlen]
    omega

/-- The step value the inner loop computes from the live array equals
the recurrence's step value `myersX0`. -/
theorem code_x0_eq (a b : List (List Nat)) (d i : Nat) (V : List Int)
    (hV : PartState a b d i V) (hd : d ≤ b.length + a.length)
    (k : Int) (hk : k = -(d : Int) + 2 * (i : Int)) (hi : i ≤ d) :
    (if k = -(d : Int) ∨ (k ≠ (d : Int) ∧
        V.getD (k - 1 + ((b.length + a.length : Nat) : Int)).toNat 0 <
          V.getD (k + 1 + ((b.length + a.length : Nat) : Int)).toNat 0)
      then V.getD (k + 1 + ((b.length + a.length : Nat) : Int)).toNat 0
      else V.getD (k - 1 + ((b.length + a.length : Nat) : Int)).toNat 0 + 1) =
    myersX0 a b d k := by
  cases d with
  | zero =>
    have hk0 : k = 0 := by omega
    rw [if_pos (Or.inl (by omega))]
    have hr := read_prev a b 0 i V hV hd (k + 1) (by omega) (by omega)
    rw [hr, if_pos (by omega)]
    rfl
  | succ d' =>
    by_cases hkneg : k = -((d' : Nat) + 1 : Nat)
    · -- leftmost diagonal: forced down step in both formulations
      have hrd := read_prev a b (d' + 1) i V hV hd (k + 1) (by omega) (by omega)
      rw [if_neg (by omega)] at hrd
      simp only [Nat.add_sub_cancel] at hrd
      rw [if_pos (Or.inl (by push_cast; omega))]
      rw [hrd]
      simp only [myersX0]
      rw [if_pos (Or.inl (by push_cast; omega))]
      rw [if_neg (by omega)]
    · by_cases hkpos : k = ((d' : Nat) + 1 : Nat)
      · -- rightmost diagonal: forced right step in both formulations
        have hrd := read_prev a b (d' + 1) i V hV hd (k - 1) (by omega) (by omega)
        rw [if_neg (by omega)] at hrd
        simp only [Nat.add_sub_cancel] at hrd
        rw [if_neg (by push_neg; exact ⟨by omega, fun hb => absurd (by omega) hb⟩)]
        rw [hrd]
        simp only [myersX0]
        rw [if_neg (by push_neg; exact ⟨by omega, fun hb => absurd (by omega) hb⟩)]
        rw [if_neg (by omega)]
      · -- interior diagonal: both neighbours are previous-round values
        have hrange : -(d' : Int) + 1 ≤ k ∧ k ≤ (d' : Int) - 1 := by omega
        have hrd1 := read_prev a b (d' + 1) i V hV hd (k - 1) (by omega) (by omega)
        rw [if_neg (by omega)] at hrd1
        simp only [Nat.add_sub_cancel] at hrd1
        have hrd2 := read_prev a b (d' + 1) i V hV hd (k + 1) (by omega) (by omega)
        rw [if_neg (by omega)] at hrd2
        simp only [Nat.add_sub_cancel] at hrd2
        simp only [myersX0]
        rw [show (if k - 1 < -(d' : Int) ∨ (d' : Int) < k - 1 then 0 else myersF a b d' (k - 1)) =
          myersF a b d' (k - 1) from if_neg (by omega)]
        rw [show (if k + 1 < -(d' : Int) ∨ (d' : Int) < k + 1 then 0 else myersF a b d' (k + 1)) =
          myersF a b d' (k + 1) from if_neg (by omega)]
        rw [hrd1, hrd2]
        by_cases hcmp : myersF a b d' (k - 1) < myersF a b d' (k + 1)
        · rw [if_pos (Or.inr ⟨by push_cast; omega, hcmp⟩),
            if_pos (Or.inr ⟨by omega, hcmp⟩)]
        · rw [if_neg ?hc1, if_neg ?hc2]
          case hc1 =>
            push_neg
            exact ⟨by push_cast; omega, fun hb => not_lt.mp hcmp⟩
          case hc2 =>
            push_neg
            exact ⟨by omega, fun hb => not_lt.mp hcmp⟩

/-- Writing the round value of the current diagonal advances the
partial-round state by one diagonal. -/
theorem PartState_step (a b : List (List Nat)) (d i : Nat) (V : List Int)
    (hV : PartState a b d i V) (hi : i ≤ d) (hd : d ≤ b.length + a.length) :
    PartState a b d (i + 1)
      (V.set ((-(d : Int) + 2 * (i : Int)) + ((b.length + a.length : Nat) : Int)).toNat
        (myersF a b d (-(d : Int) + 2 * (i : Int)))) := by
  obtain ⟨hlen, hval⟩ := hV
  refine ⟨by rw [List.length_set]; exact hlen, ?_⟩
  intro j hj1 hj2
  obtain ⟨h1, h2, h3, h4⟩ := hval j hj1 hj2
  by_cases hjk : j = -(d : Int) + 2 * (i : Int)
  · have hidx : vIdx (b.length + a.length) j =
        ((-(d : Int) + 2 * (i : Int)) + ((b.length + a.length : Nat) : Int)).toNat := by
      rw [hjk]; rfl
    have hset : (V.set ((-(d : Int) + 2 * (i : Int)) +
          ((b.length + a.length : Nat) : Int)).toNat
          (myersF a b d (-(d : Int) + 2 * (i : Int)))).getD
          (vIdx (b.length + a.length) j) 0 = myersF a b d (-(d : Int) + 2 * (i : Int)) := by
      rw [hidx]
      apply getD_set_self_int
      rw [hlen]
      omega
    refine ⟨?_, ?_, ?_, ?_⟩
    · intro hcl
      rw [hset, hjk]
    · intro hcl
      exact absurd ⟨by omega, by omega⟩ hcl.2
    · intro hcl
      exact absurd hcl.1 (by omega)
    · intro hcl
      exact absurd hcl.1 (by omega)
  · have hother : (V.set ((-(d : Int) + 2 * (i : Int)) +
          ((b.length + a.length : Nat) : Int)).toNat
          (myersF a b d (-(d : Int) + 2 * (i : Int)))).getD
          (vIdx (b.length + a.length) j) 0 = V.getD (vIdx (b.length + a.length) j) 0 := by
      apply getD_set_other_int
      have hji : vIdx (b.length + a.length) j = (j + ((b.length + a.length : Nat) : Int)).toNat :=
        rfl
      rw [hji]
      omega
    rw [hother]
    refine ⟨?_, h2, h3, h4⟩
    intro hcl
    apply h1
    refine ⟨hcl.1, hcl.2.1, ?_, hcl.2.2.2⟩
    omega

/-- One full round of the inner loop, starting after `i` diagonals: it
either fires the corner check, leaving a final row that backtracking can
read and witnessing that the corner is reachable in `d` unit moves, or
completes the round and certifies that no diagonal of the round hit the
corner exactly. -/
theorem sesInner_round (a b : List (List Nat)) (d : Nat) (hd : d ≤ b.length + a.length) :
    ∀ (n i : Nat) (V : List Int), d + 1 - i = n → i ≤ d + 1 → PartState a b d i V →
    ((sesInner a b a.length b.length (b.length + a.length) d ((sesKs d).drop i) V).2 = true →
      FinalRow a b d
        (sesInner a b a.length b.length (b.length + a.length) d ((sesKs d).drop i) V).1 ∧
      sesReach a b d (a.length : Int) (b.length : Int)) ∧
    ((sesInner a b a.length b.length (b.length + a.length) d ((sesKs d).drop i) V).2 = false →
      ArrState a b d
        (sesInner a b a.length b.length (b.length + a.length) d ((sesKs d).drop i) V).1 ∧
      ∀ kk : Int, -(d : Int) + 2 * (i : Int) ≤ kk → kk ≤ (d : Int) → (kk + (d : Int)) % 2 = 0 →
        ¬(myersF a b d kk = (a.length : Int) ∧ myersF a b d kk - kk = (b.length : Int))) := by
  intro n
  induction n using Nat.strong_induction_on with
  | _ n IH =>
    intro i V hn hi hV
    by_cases hiend : i = d + 1
    · subst hiend
      rw [sesKs_drop_end d (d + 1) le_rfl]
      simp only [sesInner]
      constructor
      · intro hc
        exact absurd hc (by simp)
      · intro _
        refine ⟨ArrState_of_PartState a b d V hV, ?_⟩
        intro kk hk1 hk2 hk3
        push_cast at hk1
        omega
    · have hilt : i ≤ d := by omega
      rw [sesKs_drop_cons d i hilt]
      set k : Int := -(d : Int) + 2 * (i : Int) with hkdef
      have hkpar : (k + (d : Int)) % 2 = 0 := by omega
      have hx0 := code_x0_eq a b d i V hV hd k hkdef hilt
      set v : Int := myersF a b d k with hvdef
      have hsl1 : (sesSlide a b a.length b.length (myersX0 a b d k)
          (myersX0 a b d k - k)).1 = v := (myersF_eq a b d k).symm
      have hsl2 : (sesSlide a b a.length b.length (myersX0 a b d k)
          (myersX0 a b d k - k)).2 = v - k := by
        rw [sesSlide_snd, hsl1]
        ring
      have hstep : sesInner a b a.length b.length (b.length + a.length) d
          (k :: (sesKs d).drop (i + 1)) V =
          (if v = (a.length : Int) ∧ v - k = (b.length : Int)
            then (V.set (k + ((b.length + a.length : Nat) : Int)).toNat v, true)
            else sesInner a b a.length b.length (b.length + a.length) d ((sesKs d).drop (i + 1))
              (V.set (k + ((b.length + a.length : Nat) : Int)).toNat v)) := by
        simp only [sesInner]
        rw [hx0, hsl1, hsl2]
      rw [hstep]
      have hV' : PartState a b d (i + 1)
          (V.set (k + ((b.length + a.length : Nat) : Int)).toNat v) :=
        PartState_step a b d i V ⟨hV.1, hV.2⟩ hilt hd
      by_cases hfire : v = (a.length : Int) ∧ v - k = (b.length : Int)
      · rw [if_pos hfire]
        obtain ⟨hfv, hfvk⟩ := hfire
        constructor
        · intro _
          constructor
          · have hkstar : k = (a.length : Int) - (b.length : Int) := by omega
            obtain ⟨hlen', hval'⟩ := hV'
            refine ⟨hlen', ?_, ?_⟩
            · have hidx : vIdx (b.length + a.length)
                  ((a.length : Int) - (b.length : Int)) =
                  (k + ((b.length + a.length : Nat) : Int)).toNat := by
                rw [← hkstar]; rfl
              rw [hidx, ← hkstar]
              apply getD_set_self_int
              rw [hV.1]
              omega
            · intro j hj1 hj2
              exact ⟨(hval' j hj1 hj2).2.2.1, (hval' j hj1 hj2).2.2.2⟩
          · obtain ⟨-, hr, -, -⟩ := myersF_main a b d k (by omega) (by omega) (by omega)
            rw [← hvdef] at hr
            rw [hfvk, hfv] at hr
            exact hr
        · intro hc
          exact absurd hc (by simp)
      · rw [if_neg hfire]
        have hlt : d + 1 - (i + 1) < n := by omega
        obtain ⟨IH1, IH2⟩ := IH _ hlt (i + 1) _ rfl (by omega) hV'
        refine ⟨IH1, ?_⟩
        intro hfalse
        obtain ⟨hArr, hnf⟩ := IH2 hfalse
        refine ⟨hArr, ?_⟩
        intro kk hk1 hk2 hk3
        by_cases hkk : -(d : Int) + 2 * ((i + 1 : Nat) : Int) ≤ kk
        · exact hnf kk hkk hk2 hk3
        · have hkeq : kk = k := by push_cast at hkk; omega
          rw [hkeq]
          intro hcon
          apply hfire
          rw [hvdef]
          exact hcon

theorem sesOuter_success (a b : List (List Nat)) (dm : Nat)
    (hdm : sesReach a b dm (a.length : Int) (b.length : Int))
    (hmin : ∀ d' : Nat, sesReach a b d' (a.length : Int) (b.length : Int) → dm ≤ d')
    (hdmle : dm ≤ b.length + a.length) :
    ∀ (n d : Nat) (V : List Int) (T : List (List Int)), dm + 1 - d = n → d ≤ dm →
    PartState a b d 0 V → TraceState a b d T →
    ∃ TF, sesOuter a b a.length b.length (b.length + a.length) d V T = some TF ∧
      FinalTrace a b dm TF := by
  intro n
  induction n using Nat.strong_induction_on with
  | _ n IH =>
    intro d V T hn hdle hV hT
    obtain ⟨hTlen, hTup, hTdown⟩ := hT
    rw [sesOuter]
    rw [if_pos (by omega : d ≤ b.length + a.length)]
    have hdrop : (sesKs d).drop 0 = sesKs d := List.drop_zero _
    obtain ⟨hIT, hIF⟩ := sesInner_round a b d (by omega) (d + 1) 0 V rfl (by omega) hV
    rw [hdrop] at hIT hIF
    cases hres : sesInner a b a.length b.length (b.length + a.length) d (sesKs d) V with
    | mk V' fl =>
      rw [hres] at hIT hIF
      cases fl with
      | true =>
        obtain ⟨hfrow, hreach⟩ := hIT rfl
        have hddm : d = dm := le_antisymm hdle (hmin d hreach)
        subst hddm
        refine ⟨T.set d V', rfl, ?_⟩
        refine ⟨by rw [List.length_set]; exact hTlen, by rw [List.length_set, hTlen]; omega, ?_, ?_, ?_⟩
        · intro r hr
          rw [getD_set_other_row T d r V' (by omega)]
          exact hTup r (by omega)
        · intro r hr
          rw [getD_set_other_row T d r V' (by omega)]
          exact hTdown r hr
        · rw [getD_set_self_row T d V' (by omega)]
          exact hfrow
      | false =>
        obtain ⟨hArr, hnf⟩ := hIF rfl
        by_cases hddm : d = dm
        · exfalso
          subst hddm
          have hsucc := myersF_success a b d hdm hmin
          have hdb := sesReach_diag_bound hdm
          obtain ⟨s, hs⟩ := sesReach_parity hdm
          apply hnf ((a.length : Int) - (b.length : Int)) (by omega) (by omega) (by omega)
          exact ⟨hsucc, by omega⟩
        · have hdlt : d < dm := by omega
          have hV2 : PartState a b (d + 1) 0 V' := PartState_of_ArrState a b d V' hArr
          have hT2 : TraceState a b (d + 1) (T.set d V') := by
            refine ⟨by rw [List.length_set]; exact hTlen, ?_, ?_⟩
            · intro r hr
              rw [getD_set_other_row T d r V' (by omega)]
              exact hTup r (by omega)
            · intro r hr
              by_cases hrd : r = d
              · subst hrd
                rw [getD_set_self_row T r V' (by omega)]
                exact hArr
              · rw [getD_set_other_row T d r V' (by omega)]
                exact hTdown r (by omega)
          obtain ⟨TF, hTF, hfin⟩ := IH (dm + 1 - (d + 1)) (by omega) (d + 1) V' (T.set d V')
            rfl (by omega) hV2 hT2
          exact ⟨TF, hTF, hfin⟩

/-- The search always succeeds: for the minimal corner round `dm`, it
returns a trace with the final-trace shape at `dm` and the standard
offset. -/
theorem shortestEditSequence_success (a b : List (List Nat)) (dm : Nat)
    (hdm : sesReach a b dm (a.length : Int) (b.length : Int))
    (hmin : ∀ d' : Nat, sesReach a b d' (a.length : Int) (b.length : Int) → dm ≤ d')
    (hdmle : dm ≤ b.length + a.length) :
    ∃ TF, shortestEditSequence a b = (some TF, b.length + a.length) ∧
      FinalTrace a b dm TF := by
  have hT0 : TraceState a b 0 (List.replicate (b.length + a.length + 1) []) := by
    refine ⟨List.length_replicate _ _, ?_, ?_⟩
    · intro r hr
      exact getD_replicate_row _ _
    · intro r hr
      omega
  obtain ⟨TF, hTF, hfin⟩ := sesOuter_success a b dm hdm hmin hdmle (dm + 1) 0
    (List.replicate (2 * (b.length + a.length) + 1) 0)
    (List.replicate (b.length + a.length + 1) []) rfl (by omega)
    (PartState_zero a b) hT0
  refine ⟨TF, ?_, hfin⟩
  simp only [shortestEditSequence]
  rw [hTF]

theorem RowReads_of_ArrState (a b : List (List Nat)) (d : Nat) (V : List Int)
    (h : ArrState a b d V) : RowReads a b d V := by
  obtain ⟨hlen, hval⟩ := h
  exact ⟨hlen, fun j hj1 hj2 => ⟨(hval j hj1 hj2).2.2.1, (hval j hj1 hj2).2.2.2⟩⟩

theorem RowReads_of_FinalRow (a b : List (List Nat)) (d : Nat) (V : List Int)
    (h : FinalRow a b d V) : RowReads a b d V :=
  ⟨h.1, h.2.2⟩

/-- Like `read_prev`, for backtracking: a previous-parity slot reads as
the clamped previous-round value. -/
theorem row_read (a b : List (List Nat)) (d : Nat) (V : List Int)
    (hV : RowReads a b d V) (hd : d ≤ b.length + a.length)
    (j : Int) (hpar : (j + (d : Int)) % 2 = 1)
    (hjl : -((b.length + a.length : Nat) : Int) ≤ j) :
    V.getD (j + ((b.length + a.length : Nat) : Int)).toNat 0 =
      (if j < -(d : Int) + 1 ∨ (d : Int) - 1 < j then 0 else myersF a b (d - 1) j) := by
  obtain ⟨hlen, hval⟩ := hV
  by_cases hjh : j ≤ ((b.length + a.length : Nat) : Int)
  · obtain ⟨h3, h4⟩ := hval j hjl hjh
    by_cases hin : -(d : Int) + 1 ≤ j ∧ j ≤ (d : Int) - 1
    · rw [if_neg (by omega)]
      exact h3 ⟨by omega, hin.1, hin.2⟩
    · rw [if_pos (by omega)]
      exact h4 ⟨by omega, hin⟩
  · rw [if_pos (by omega)]
    apply List.getD_eq_default
    rw [hlen]
    omega

/-- The backtracking step rule is the forward step rule run in reverse:
the predecessor value it reads is a previous-round value, and the
forward step value of the current diagonal is exactly that predecessor
(down move) or that predecessor plus one (right move). -/
theorem bt_x0 (a b : List (List Nat)) (d : Nat) (V : List Int)
    (hV : RowReads a b d V) (hd : d ≤ b.length + a.length) (hd1 : 1 ≤ d)
    (k : Int) (hk1 : -(d : Int) ≤ k) (hk2 : k ≤ (d : Int)) (hkpar : (k + (d : Int)) % 2 = 0) :
    ((k = -(d : Int) ∨ (k ≠ (d : Int) ∧
        V.getD (k - 1 + ((b.length + a.length : Nat) : Int)).toNat 0 <
          V.getD (k + 1 + ((b.length + a.length : Nat) : Int)).toNat 0)) ∧
      V.getD (k + 1 + ((b.length + a.length : Nat) : Int)).toNat 0 = myersF a b (d - 1) (k + 1) ∧
      myersX0 a b d k = myersF a b (d - 1) (k + 1) ∧
      -((d : Int) - 1) ≤ k + 1 ∧ k + 1 ≤ (d : Int) - 1) ∨
    (¬(k = -(d : Int) ∨ (k ≠ (d : Int) ∧
        V.getD (k - 1 + ((b.length + a.length : Nat) : Int)).toNat 0 <
          V.getD (k + 1 + ((b.length + a.length : Nat) : Int)).toNat 0)) ∧
      V.getD (k - 1 + ((b.length + a.length : Nat) : Int)).toNat 0 = myersF a b (d - 1) (k - 1) ∧
      myersX0 a b d k = myersF a b (d - 1) (k - 1) + 1 ∧
      -((d : Int) - 1) ≤ k - 1 ∧ k - 1 ≤ (d : Int) - 1) := by
  cases d with
  | zero => omega
  | succ d' =>
    by_cases hkneg : k = -((d' : Nat) + 1 : Nat)
    · left
      have hrd := row_read a b (d' + 1) V hV hd (k + 1) (by omega) (by omega)
      rw [if_neg (by omega)] at hrd
      refine ⟨Or.inl (by push_cast; omega), hrd, ?_, by push_cast; omega, by push_cast; omega⟩
      simp only [myersX0]
      rw [if_pos (Or.inl (by push_cast; omega))]
      rw [if_neg (by omega)]
      simp only [Nat.add_sub_cancel]
    · by_cases hkpos : k = ((d' : Nat) + 1 : Nat)
      · right
        have hrd := row_read a b (d' + 1) V hV hd (k - 1) (by omega) (by omega)
        rw [if_neg (by omega)] at hrd
        refine ⟨by push_neg; exact ⟨by push_cast; omega, fun hb => absurd (by push_cast; omega) hb⟩,
          hrd, ?_, by push_cast; omega, by push_cast; omega⟩
        simp only [myersX0]
        rw [if_neg (by push_neg; exact ⟨by omega, fun hb => absurd (by omega) hb⟩)]
        rw [if_neg (by omega)]
        simp only [Nat.add_sub_cancel]
      · have hrd1 := row_read a b (d' + 1) V hV hd (k - 1) (by omega) (by omega)
        rw [if_neg (by omega)] at hrd1
        have hrd2 := row_read a b (d' + 1) V hV hd (k + 1) (by omega) (by omega)
        rw [if_neg (by omega)] at hrd2
        simp only [Nat.add_sub_cancel] at hrd1 hrd2
        by_cases hcmp : myersF a b d' (k - 1) < myersF a b d' (k + 1)
        · left
          refine ⟨Or.inr ⟨by push_cast; omega, by rw [hrd1, hrd2]; exact hcmp⟩,
            by rw [hrd2]; simp only [Nat.add_sub_cancel],
            ?_, by push_cast; omega, by push_cast; omega⟩
          simp only [myersX0]
          rw [if_pos (Or.inr ⟨by omega, by rw [if_neg (by omega), if_neg (by omega)]; exact hcmp⟩)]
          rw [if_neg (by omega)]
          simp only [Nat.add_sub_cancel]
        · right
          refine ⟨?_, by rw [hrd1]; simp only [Nat.add_sub_cancel],
            ?_, by push_cast; omega, by push_cast; omega⟩
          · push_neg
            refine ⟨by push_cast; omega, fun hb => ?_⟩
            rw [hrd1, hrd2]
            exact not_lt.mp hcmp
          · simp only [myersX0]
            rw [if_neg ?hcx]
            case hcx =>
              push_neg
              refine ⟨by omega, fun hb => ?_⟩
              rw [if_neg (by omega), if_neg (by omega)]
              exact not_lt.mp hcmp
            rw [if_neg (by omega)]
            simp only [Nat.add_sub_cancel]

theorem drop_set_row (l : List (List Int)) (n : Nat) (v : List Int) (h : n < l.length) :
    (l.set n v).drop n = v :: l.drop (n + 1) := by
  rw [List.drop_eq_getElem_cons (by rw [List.length_set]; exact h)]
  congr 1
  · rw [List.getElem_set_self]
  · rw [List.drop_set_of_lt _ _ (by omega)]

/-- A blank prefix is skipped by the snakes-list reader. -/
theorem SnakeSpec_blank_prefix (a b : List (List Nat)) :
    ∀ (m : Nat) (R : List (List Int)) (x y : Int), m ≤ R.length →
    (∀ idx : Nat, idx < m → R.getD idx [] = []) →
    SnakeSpec a b x y (R.drop m) → SnakeSpec a b x y R
  | 0, R, x, y, hm, hblank, h => by simpa using h
  | m + 1, R, x, y, hm, hblank, h => by
    cases R with
    | nil => simp at hm
    | cons r R' =>
      have hr : r = [] := by
        have := hblank 0 (by omega)
        simpa using this
      subst hr
      apply SnakeSpec.skip
      apply SnakeSpec_blank_prefix a b m R' x y (by simpa using hm)
      · intro idx hidx
        have := hblank (idx + 1) (by omega)
        simpa using this
      · simpa using h

theorem int_toNat_cast (n : Nat) : ((n : Int)).toNat = n := rfl

/-- A backtracked snake is a valid segment: the one-step-then-slide
decomposition of a stored value yields the segment property. -/
theorem SEG_slide (a b : List (List Nat)) (n : Nat) (k x y x' y' : Int)
    (hx : x = myersF a b n k) (hy : y = x - k)
    (h0x : 0 ≤ x') (h0y : 0 ≤ y')
    (hxle : x' ≤ x) (hyle : y' ≤ y)
    (hxM : x ≤ (a.length : Int)) (hyN : y ≤ (b.length : Int))
    (hcov : myersX0 a b n k ≤ x' ∨ myersX0 a b n k ≤ k + y') :
    SEG a b x' y' x y := by
  refine ⟨hxle, hyle, h0x, h0y, hxM, hyN, ?_⟩
  intro i hi1 hi2 hi3
  have hkxy : x - y = k := by omega
  rw [hkxy] at hi2
  have hslide := (sesSlide_spec a b a.length b.length _ (myersX0 a b n k)
    (myersX0 a b n k - k) rfl).2.2.1
  rw [← myersF_eq] at hslide
  have hx0i : myersX0 a b n k ≤ i := by omega
  obtain ⟨-, -, heq⟩ := hslide i hx0i (by omega)
  have harg : myersX0 a b n k - k + (i - myersX0 a b n k) = i - k := by ring
  rw [harg] at heq
  rw [hkxy]
  exact heq

theorem SEG_empty_x (a b : List (List Nat)) (y : Int) (h0 : 0 ≤ y)
    (hN : y ≤ (b.length : Int)) : SEG a b 0 0 0 y := by
  refine ⟨le_refl 0, h0, le_refl 0, le_refl 0, by positivity, hN, ?_⟩
  intro i hi1 hi2 hi3
  omega

theorem SEG_empty_y (a b : List (List Nat)) (x : Int) (h0 : 0 ≤ x)
    (hM : x ≤ (a.length : Int)) : SEG a b 0 0 x 0 := by
  refine ⟨h0, le_refl 0, le_refl 0, le_refl 0, hM, by positivity, ?_⟩
  intro i hi1 hi2 hi3
  omega

/-- The backtracking loop, run on a successful final trace from a chain
point of round `dI`, produces a snakes list the operation builder reads
as a valid chain from the origin. -/
theorem backtrackGo_spec (a b : List (List Nat)) (dm : Nat) (TF : List (List Int))
    (hTF : FinalTrace a b dm TF) (hdmle : dm ≤ b.length + a.length) :
    ∀ (n : Nat) (dI x y : Int) (snakes : List (List Int)),
    dI = (n : Int) → n ≤ dm →
    x = myersF a b n (x - y) →
    -(n : Int) ≤ x - y → x - y ≤ (n : Int) → ((x - y) + (n : Int)) % 2 = 0 →
    0 ≤ x → 0 ≤ y → x ≤ (a.length : Int) → y ≤ (b.length : Int) →
    snakes.length = b.length + a.length + 1 →
    (∀ idx : Nat, idx ≤ n → snakes.getD idx [] = []) →
    ((x = (a.length : Int) ∧ y = (b.length : Int)) ∨ SnakeSpec a b x y (snakes.drop (n + 1))) →
    SnakeSpec a b 0 0 (backtrackGo TF (b.length + a.length) dI x y snakes) := by
  intro n
  induction n using Nat.strong_induction_on with
  | _ n IH =>
    intro dI x y snakes hdI hnle hx hk1 hk2 hkpar h0x h0y hxM hyN hslen hblank hcont
    subst hdI
    obtain ⟨hTlen, hdmlt, hTup, hTdown, hTrow⟩ := hTF
    have hnlt : n < snakes.length := by omega
    rw [backtrackGo]
    by_cases hmain : 0 < x ∧ 0 < y ∧ 0 < ((n : Nat) : Int)
    · rw [if_pos hmain]
      have hn1 : 1 ≤ n := by omega
      have hRR : RowReads a b n (TF.getD ((n : Int)).toNat []) := by
        rw [int_toNat_cast]
        rcases lt_or_eq_of_le hnle with hlt | heq
        · exact RowReads_of_ArrState a b n _ (hTdown n hlt)
        · subst heq
          exact RowReads_of_FinalRow a b n _ hTrow
      rw [if_neg (by rw [hRR.1]; omega)]
      dsimp only
      obtain hbt := bt_x0 a b n (TF.getD ((n : Int)).toNat []) hRR (by omega) hn1
        (x - y) hk1 hk2 hkpar
      have hx0le : myersX0 a b n (x - y) ≤ x := by
        conv_rhs => rw [hx, myersF_eq]
        exact sesSlide_fst_le a b a.length b.length _ _
      rcases hbt with ⟨hB, hread, hx0, hr1, hr2⟩ | ⟨hB, hread, hx0, hr1, hr2⟩
      · -- down step: predecessor on the diagonal above
        rw [if_pos hB, hread]
        obtain ⟨-, hrp, -, -⟩ := myersF_main a b (n - 1) (x - y + 1)
          (by omega) (by omega) (by omega)
        have hnn := sesReach_nonneg hrp
        have hseg : SEG a b (myersF a b (n - 1) (x - y + 1))
            (myersF a b (n - 1) (x - y + 1) - (x - y + 1)) x y := by
          apply SEG_slide a b n (x - y) x y _ _ hx (by omega) (by omega) (by omega)
            (by omega) (by omega) hxM hyN
          left
          omega
        apply IH (n - 1) (by omega) ((n : Int) - 1) _ _ _ (by push_cast; omega) (by omega)
          (by rw [show myersF a b (n - 1) (x - y + 1) -
            (myersF a b (n - 1) (x - y + 1) - (x - y + 1)) = x - y + 1 from by ring])
          (by push_cast; omega) (by push_cast; omega) (by push_cast; omega)
          (by omega) (by omega) (by omega) (by omega)
          (by rw [List.length_set]; exact hslen)
        · intro idx hidx
          rw [int_toNat_cast]
          rw [getD_set_other_row snakes n idx [x, y] (by omega)]
          exact hblank idx (by omega)
        · right
          rw [int_toNat_cast]
          rw [show n - 1 + 1 = n from by omega]
          rw [drop_set_row snakes n [x, y] hnlt]
          by_cases hcor : x = (a.length : Int) ∧ y = (b.length : Int)
          · rw [hcor.1, hcor.2]
            exact SnakeSpec.corner (by rw [← hcor.1, ← hcor.2]; exact hseg)
          · rcases hcont with hcor2 | hsnake
            · exact absurd hcor2 hcor
            · exact SnakeSpec.seg hseg (fun hc => hcor ⟨by omega, by omega⟩) hsnake
      · -- right step: predecessor on the diagonal below
        rw [if_neg hB, hread]
        obtain ⟨-, hrp, -, -⟩ := myersF_main a b (n - 1) (x - y - 1)
          (by omega) (by omega) (by omega)
        have hnn := sesReach_nonneg hrp
        have hseg : SEG a b (myersF a b (n - 1) (x - y - 1))
            (myersF a b (n - 1) (x - y - 1) - (x - y - 1)) x y := by
          apply SEG_slide a b n (x - y) x y _ _ hx (by omega) (by omega) (by omega)
            (by omega) (by omega) hxM hyN
          right
          omega
        apply IH (n - 1) (by omega) ((n : Int) - 1) _ _ _ (by push_cast; omega) (by omega)
          (by rw [show myersF a b (n - 1) (x - y - 1) -
            (myersF a b (n - 1) (x - y - 1) - (x - y - 1)) = x - y - 1 from by ring])
          (by push_cast; omega) (by push_cast; omega) (by push_cast; omega)
          (by omega) (by omega) (by omega) (by omega)
          (by rw [List.length_set]; exact hslen)
        · intro idx hidx
          rw [int_toNat_cast]
          rw [getD_set_other_row snakes n idx [x, y] (by omega)]
          exact hblank idx (by omega)
        · right
          rw [int_toNat_cast]
          rw [show n - 1 + 1 = n from by omega]
          rw [drop_set_row snakes n [x, y] hnlt]
          by_cases hcor : x = (a.length : Int) ∧ y = (b.length : Int)
          · rw [hcor.1, hcor.2]
            exact SnakeSpec.corner (by rw [← hcor.1, ← hcor.2]; exact hseg)
          · rcases hcont with hcor2 | hsnake
            · exact absurd hcor2 hcor
            · exact SnakeSpec.seg hseg (fun hc => hcor ⟨by omega, by omega⟩) hsnake
    · -- terminal: write the current point and stop
      rw [if_neg hmain]
      rw [if_neg (by omega : ¬(x < 0 ∨ y < 0))]
      have hseg0 : SEG a b 0 0 x y := by
        by_cases hx0 : x = 0
        · subst hx0
          have hy0 : y = 0 ∨ 0 < y := by omega
          exact SEG_empty_x a b y h0y hyN
        · by_cases hy0 : y = 0
          · subst hy0
            exact SEG_empty_y a b x h0x hxM
          · -- both positive, so the round is 0 and the point is the origin slide
            have hn0 : n = 0 := by omega
            subst hn0
            have hxy : x = y := by omega
            apply SEG_slide a b 0 (x - y) x y 0 0 hx (by omega) (by omega) (by omega)
              (by omega) (by omega) hxM hyN
            left
            have hX : myersX0 a b 0 (x - y) = 0 := rfl
            rw [hX]
      apply SnakeSpec_blank_prefix a b n (snakes.set ((n : Int)).toNat [x, y]) 0 0
        (by rw [List.length_set]; omega)
      · intro idx hidx
        rw [int_toNat_cast]
        rw [getD_set_other_row snakes n idx [x, y] (by omega)]
        exact hblank idx (by omega)
      · rw [int_toNat_cast]
        rw [drop_set_row snakes n [x, y] hnlt]
        by_cases hcor : x = (a.length : Int) ∧ y = (b.length : Int)
        · rw [hcor.1, hcor.2]
          exact SnakeSpec.corner (by rw [← hcor.1, ← hcor.2]; exact hseg0)
        · rcases hcont with hcor2 | hsnake
          · exact absurd hcor2 hcor
          · exact SnakeSpec.seg hseg0 (fun hc => hcor ⟨by omega, by omega⟩) hsnake

/-- Above the firing round the trace rows are empty and backtracking
just skips them. -/
theorem backtrackGo_skip (a b : List (List Nat)) (dm : Nat) (TF : List (List Int))
    (hTF : FinalTrace a b dm TF) (S : List (List Int))
    (hM : 0 < (a.length : Int)) (hN : 0 < (b.length : Int)) :
    ∀ (m : Nat) (dI : Int), dI = (m : Int) → dm ≤ m →
    backtrackGo TF (b.length + a.length) dI (a.length : Int) (b.length : Int) S =
      backtrackGo TF (b.length + a.length) ((dm : Nat) : Int) (a.length : Int)
        (b.length : Int) S := by
  intro m
  induction m with
  | zero =>
    intro dI hdI hle
    have : dm = 0 := by omega
    subst this
    rw [hdI]
  | succ m ih =>
    intro dI hdI hle
    by_cases hend : dm = m + 1
    · rw [hdI, hend]
    · have hlt : dm ≤ m := by omega
      rw [backtrackGo]
      rw [if_pos ⟨hM, hN, by omega⟩]
      have hrow : TF.getD dI.toNat [] = [] := by
        apply hTF.2.2.1
        omega
      rw [hrow]
      dsimp only
      simp only [List.length_nil]
      rw [if_pos trivial]
      have hstep : dI - 1 = (m : Int) := by omega
      rw [hstep]
      exact ih (m : Int) rfl hlt

/-- The snakes list produced by backtracking a successful trace is a
valid chain from the origin. -/
theorem backtrack_spec (a b : List (List Nat)) (dm : Nat) (TF : List (List Int))
    (hTF : FinalTrace a b dm TF) (hdmle : dm ≤ b.length + a.length)
    (hdm : sesReach a b dm (a.length : Int) (b.length : Int))
    (hcorner : myersF a b dm ((a.length : Int) - (b.length : Int)) = (a.length : Int)) :
    SnakeSpec a b 0 0
      (backtrack TF (a.length : Int) (b.length : Int) (b.length + a.length)) := by
  have hTlen : TF.length = b.length + a.length + 1 := hTF.1
  have hdb := sesReach_diag_bound hdm
  obtain ⟨s, hs⟩ := sesReach_parity hdm
  unfold backtrack
  rw [hTlen]
  have hreplen : (List.replicate (b.length + a.length + 1) ([] : List Int)).length =
      b.length + a.length + 1 := List.length_replicate _ _
  by_cases hMN : 0 < (a.length : Int) ∧ 0 < (b.length : Int)
  · have hd0 : ((b.length + a.length + 1 : Nat) : Int) - 1 = ((b.length + a.length : Nat) : Int) := by
      push_cast
      ring
    rw [hd0]
    rw [backtrackGo_skip a b dm TF hTF _ hMN.1 hMN.2 (b.length + a.length) _ rfl hdmle]
    apply backtrackGo_spec a b dm TF hTF hdmle dm ((dm : Nat) : Int) _ _ _ rfl le_rfl
      hcorner.symm (by omega) (by omega) (by omega) (by omega) (by omega)
      (by omega) (by omega) hreplen
    · intro idx hidx
      exact getD_replicate_row _ _
    · left
      exact ⟨rfl, rfl⟩
  · rw [backtrackGo]
    rw [if_neg (by push_neg; intro h1 h2; omega)]
    rw [if_neg (by omega : ¬((a.length : Int) < 0 ∨ (b.length : Int) < 0))]
    have hidx : (((b.length + a.length + 1 : Nat) : Int) - 1).toNat = b.length + a.length := by
      omega
    rw [hidx]
    apply SnakeSpec_blank_prefix a b (b.length + a.length) _ 0 0
      (by rw [List.length_set]; rw [hreplen]; omega)
    · intro idx hid
      rw [getD_set_other_row _ _ _ _ (by omega)]
      exact getD_replicate_row _ _
    · rw [drop_set_row _ _ _ (by rw [hreplen]; omega)]
      apply SnakeSpec.corner
      rcases (by omega : a.length = 0 ∨ b.length = 0) with hz | hz
      · have hza : (a.length : Int) = 0 := by omega
        rw [hza]
        exact SEG_empty_x a b _ (by positivity) le_rfl
      · have hzb : (b.length : Int) = 0 := by omega
        rw [hzb]
        exact SEG_empty_y a b _ (by positivity) le_rfl

theorem opsDeleteAdvance_eq (M kS y : Int) : ∀ (n : Nat) (x : Int),
    (kS - (x - y)).toNat = n → x ≤ kS + y → kS + y ≤ M →
    opsDeleteAdvance M kS y x = kS + y := by
  intro n
  induction n using Nat.strong_induction_on with
  | _ n IH =>
    intro x hn h1 h2
    rw [opsDeleteAdvance]
    by_cases hgt : kS > x - y
    · rw [if_pos hgt]
      by_cases hM : x + 1 = M
      · rw [if_pos hM]
        omega
      · rw [if_neg hM]
        exact IH ((kS - (x + 1 - y)).toNat) (by omega) (x + 1) rfl (by omega) h2
    · rw [if_neg hgt]
      omega

theorem opsInsertAdvance_eq (kS x : Int) : ∀ (n : Nat) (y : Int),
    (x - y - kS).toNat = n → y ≤ x - kS →
    opsInsertAdvance kS x y = x - kS := by
  intro n
  induction n using Nat.strong_induction_on with
  | _ n IH =>
    intro y hn h1
    rw [opsInsertAdvance]
    by_cases hlt : kS < x - y
    · rw [if_pos hlt]
      exact IH ((x - (y + 1) - kS).toNat) (by omega) (y + 1) rfl (by omega)
    · rw [if_neg hlt]
      omega

theorem opsEqualAdvance_eq (s0 : Int) : ∀ (n : Nat) (x : Int),
    (s0 - x).toNat = n → x ≤ s0 → opsEqualAdvance s0 x = s0 := by
  intro n
  induction n using Nat.strong_induction_on with
  | _ n IH =>
    intro x hn h1
    rw [opsEqualAdvance]
    by_cases hlt : x < s0
    · rw [if_pos hlt]
      exact IH ((s0 - (x + 1)).toNat) (by omega) (x + 1) rfl (by omega)
    · rw [if_neg hlt]
      omega

/-- Processing the snakes list turns a valid chain into a valid
operation list appended to the accumulator. -/
theorem opsLoop_spec (a b : List (List Nat)) :
    ∀ {x y : Int} {snakes : List (List Int)},
    SnakeSpec a b x y snakes → 0 ≤ x → 0 ≤ y →
    ∀ acc : List Operation,
    ∃ ops, opsLoop (a.length : Int) (b.length : Int) snakes x y acc = acc ++ ops ∧
      OpsChain a b x y ops := by
  intro x y snakes hsnake
  induction hsnake with
  | skip hsub ih =>
    intro h0x h0y acc
    obtain ⟨ops, heq, hchain⟩ := ih h0x h0y acc
    refine ⟨ops, ?_, hchain⟩
    rw [← heq]
    rw [opsLoop]
    rw [if_pos (by simp)]
  | @corner x y l hseg =>
    intro h0x h0y acc
    obtain ⟨hxle, hyle, -, -, hxM, hyN, hdiag⟩ := hseg
    rw [opsLoop]
    rw [if_neg (by simp)]
    dsimp only
    have hs0 : ([(a.length : Int), (b.length : Int)].getD 0 0) = (a.length : Int) := rfl
    have hs1 : ([(a.length : Int), (b.length : Int)].getD 1 0) = (b.length : Int) := rfl
    rw [hs0, hs1]
    set kS : Int := (a.length : Int) - (b.length : Int) with hkS
    by_cases hdel : kS > x - y
    · rw [if_pos hdel]
      dsimp only
      rw [opsDeleteAdvance_eq (a.length : Int) kS y _ x rfl (by omega) (by omega)]
      rw [if_neg (by omega : ¬kS < kS + y - y)]
      dsimp only
      rw [opsEqualAdvance_eq (a.length : Int) _ (kS + y) rfl (by omega)]
      rw [if_pos ⟨le_refl _, by omega⟩]
      refine ⟨[⟨.Delete, x, kS + y, y, 0⟩], by simp, ?_⟩
      apply OpsChain.del h0x h0y (by omega) (by omega)
      by_cases hg : kS + y < (a.length : Int)
      · apply OpsChain.gap ((a.length : Int) - (kS + y)) (by omega) (by omega) h0y
          (by omega) (by omega)
        · intro i hi1 hi2
          have := hdiag (kS + y + i) (by omega) (by omega) (by omega)
          rw [show kS + y + i - ((a.length : Int) - (b.length : Int)) = y + i from by omega] at this
          exact this
        · apply OpsChain.done (by omega) (by omega) (by omega) (by omega)
          rw [show (kS + y + ((a.length : Int) - (kS + y))).toNat = a.length from by omega]
          rw [show (y + ((a.length : Int) - (kS + y))).toNat = b.length from by omega]
          rw [List.drop_length, List.drop_length]
      · apply OpsChain.done (by omega) (by omega) (by omega) (by omega)
        rw [show (kS + y).toNat = a.length from by omega]
        rw [show y.toNat = b.length from by omega]
        rw [List.drop_length, List.drop_length]
    · rw [if_neg hdel]
      dsimp only
      by_cases hins : kS < x - y
      · rw [if_pos hins]
        dsimp only
        rw [opsInsertAdvance_eq kS x _ y rfl (by omega)]
        rw [opsEqualAdvance_eq (a.length : Int) _ x rfl (by omega)]
        rw [if_pos ⟨le_refl _, by omega⟩]
        refine ⟨[⟨.Insert, x, x, y, x - kS⟩], by simp, ?_⟩
        apply OpsChain.ins h0x h0y (by omega) (by omega) (by omega)
        by_cases hg : x < (a.length : Int)
        · apply OpsChain.gap ((a.length : Int) - x) (by omega) (by omega) (by omega)
            (by omega) (by omega)
          · intro i hi1 hi2
            have := hdiag (x + i) (by omega) (by omega) (by omega)
            rw [show x + i - ((a.length : Int) - (b.length : Int)) = x - kS + i from by omega]
              at this
            exact this
          · apply OpsChain.done (by omega) (by omega) (by omega) (by omega)
            rw [show (x + ((a.length : Int) - x)).toNat = a.length from by omega]
            rw [show (x - kS + ((a.length : Int) - x)).toNat = b.length from by omega]
            rw [List.drop_length, List.drop_length]
        · apply OpsChain.done (by omega) (by omega) (by omega) (by omega)
          rw [show x.toNat = a.length from by omega]
          rw [show (x - kS).toNat = b.length from by omega]
          rw [List.drop_length, List.drop_length]
      · rw [if_neg hins]
        dsimp only
        rw [opsEqualAdvance_eq (a.length : Int) _ x rfl (by omega)]
        rw [if_pos ⟨le_refl _, by omega⟩]
        refine ⟨[], by simp, ?_⟩
        by_cases hg : x < (a.length : Int)
        · apply OpsChain.gap ((a.length : Int) - x) (by omega) h0x h0y (by omega) (by omega)
          · intro i hi1 hi2
            have := hdiag (x + i) (by omega) (by omega) (by omega)
            rw [show x + i - ((a.length : Int) - (b.length : Int)) = y + i from by omega] at this
            exact this
          · apply OpsChain.done (by omega) (by omega) (by omega) (by omega)
            rw [show (x + ((a.length : Int) - x)).toNat = a.length from by omega]
            rw [show (y + ((a.length : Int) - x)).toNat = b.length from by omega]
            rw [List.drop_length, List.drop_length]
        · apply OpsChain.done h0x h0y (by omega) (by omega)
          rw [show x.toNat = a.length from by omega]
          rw [show y.toNat = b.length from by omega]
          rw [List.drop_length, List.drop_length]
  | @seg x y x2 y2 l hseg hnb hsub ih =>
    intro h0x h0y acc
    obtain ⟨hxle, hyle, -, -, hxM, hyN, hdiag⟩ := hseg
    rw [opsLoop]
    rw [if_neg (by simp)]
    dsimp only
    have hs0 : ([x2, y2].getD 0 0) = x2 := rfl
    have hs1 : ([x2, y2].getD 1 0) = y2 := rfl
    rw [hs0, hs1]
    set kS : Int := x2 - y2 with hkS
    by_cases hdel : kS > x - y
    · rw [if_pos hdel]
      dsimp only
      rw [opsDeleteAdvance_eq (a.length : Int) kS y _ x rfl (by omega) (by omega)]
      rw [if_neg (by omega : ¬kS < kS + y - y)]
      dsimp only
      rw [opsEqualAdvance_eq x2 _ (kS + y) rfl (by omega)]
      rw [show y + (x2 - (kS + y)) = y2 from by omega]
      rw [if_neg hnb]
      obtain ⟨ops, heq, hchain⟩ := ih (by omega) (by omega)
        (acc ++ [⟨.Delete, x, kS + y, y, 0⟩] ++ [])
      refine ⟨⟨.Delete, x, kS + y, y, 0⟩ :: ops, by rw [heq]; simp, ?_⟩
      apply OpsChain.del h0x h0y (by omega) (by omega)
      by_cases hg : kS + y < x2
      · apply OpsChain.gap (x2 - (kS + y)) (by omega) (by omega) h0y (by omega) (by omega)
        · intro i hi1 hi2
          have := hdiag (kS + y + i) (by omega) (by omega) (by omega)
          rw [show kS + y + i - (x2 - y2) = y + i from by omega] at this
          exact this
        · rw [show kS + y + (x2 - (kS + y)) = x2 from by omega]
          rw [show y + (x2 - (kS + y)) = y2 from by omega]
          exact hchain
      · rw [show x2 = kS + y from by omega] at hchain
        rw [show y2 = y from by omega] at hchain
        exact hchain
    · rw [if_neg hdel]
      dsimp only
      by_cases hins : kS < x - y
      · rw [if_pos hins]
        dsimp only
        rw [opsInsertAdvance_eq kS x _ y rfl (by omega)]
        rw [opsEqualAdvance_eq x2 _ x rfl (by omega)]
        rw [show x - kS + (x2 - x) = y2 from by omega]
        rw [if_neg hnb]
        obtain ⟨ops, heq, hchain⟩ := ih (by omega) (by omega)
          (acc ++ [] ++ [⟨.Insert, x, x, y, x - kS⟩])
        refine ⟨⟨.Insert, x, x, y, x - kS⟩ :: ops, by rw [heq]; simp, ?_⟩
        apply OpsChain.ins h0x h0y (by omega) (by omega) (by omega)
        by_cases hg : x < x2
        · apply OpsChain.gap (x2 - x) (by omega) h0x (by omega) (by omega) (by omega)
          · intro i hi1 hi2
            have := hdiag (x + i) (by omega) (by omega) (by omega)
            rw [show x + i - (x2 - y2) = x - kS + i from by omega] at this
            exact this
          · rw [show x + (x2 - x) = x2 from by omega]
            rw [show x - kS + (x2 - x) = y2 from by omega]
            exact hchain
        · rw [show x2 = x from by omega] at hchain
          rw [show y2 = x - kS from by omega] at hchain
          exact hchain
      · rw [if_neg hins]
        dsimp only
        rw [opsEqualAdvance_eq x2 _ x rfl (by omega)]
        rw [show y + (x2 - x) = y2 from by omega]
        rw [if_neg hnb]
        obtain ⟨ops, heq, hchain⟩ := ih (by omega) (by omega) (acc ++ [] ++ [])
        refine ⟨ops, by rw [heq]; simp, ?_⟩
        by_cases hg : x < x2
        · apply OpsChain.gap (x2 - x) (by omega) h0x h0y (by omega) (by omega)
          · intro i hi1 hi2
            have := hdiag (x + i) (by omega) (by omega) (by omega)
            rw [show x + i - (x2 - y2) = y + i from by omega] at this
            exact this
          · rw [show x + (x2 - x) = x2 from by omega]
            rw [show y + (x2 - x) = y2 from by omega]
            exact hchain
        · rw [show x2 = x from by omega] at hchain
          rw [show y2 = y from by omega] at hchain
          exact hchain

theorem lineOffsets_getD (aL : List (List Nat)) (i : Nat) (h : i ≤ aL.length) :
    (lineOffsets aL).getD i 0 = lineTot aL i := by
  rw [lineOffsets, List.getD_eq_getElem?_getD, List.getElem?_map,
    List.getElem?_range (by omega : i < aL.length + 1)]
  rfl

theorem lineTot_add (aL : List (List Nat)) (i n : Nat) :
    lineTot aL (i + n) = lineTot aL i + (((aL.drop i).take n).map List.length).sum := by
  rw [lineTot, lineTot, List.take_add, List.map_append, List.sum_append]

theorem lineTot_mono (aL : List (List Nat)) {i j : Nat} (h : i ≤ j) :
    lineTot aL i ≤ lineTot aL j := by
  have := lineTot_add aL i (j - i)
  rw [show i + (j - i) = j from by omega] at this
  omega

theorem lineTot_length (aL : List (List Nat)) :
    lineTot aL aL.length = (joinLines aL).length := by
  rw [lineTot, List.take_length, joinLines, List.length_flatten]

theorem joinLines_drop (aL : List (List Nat)) (i : Nat) :
    (joinLines aL).drop (lineTot aL i) = joinLines (aL.drop i) := by
  have h1 : joinLines aL = joinLines (aL.take i) ++ joinLines (aL.drop i) := by
    rw [joinLines, joinLines, joinLines, ← List.flatten_append, List.take_append_drop]
  have h2 : lineTot aL i = (joinLines (aL.take i)).length := by
    rw [joinLines, List.length_flatten, lineTot]
  rw [h1, h2, List.drop_left]

theorem joinLines_extract (aL : List (List Nat)) (i j : Nat) (hij : i ≤ j) :
    extractN (joinLines aL) (lineTot aL i) (lineTot aL j) =
      joinLines ((aL.drop i).take (j - i)) := by
  rw [extractN, joinLines_drop]
  have h3 : lineTot aL j - lineTot aL i = (((aL.drop i).take (j - i)).map List.length).sum := by
    have := lineTot_add aL i (j - i)
    rw [show i + (j - i) = j from by omega] at this
    omega
  have h4 : (((aL.drop i).take (j - i)).map List.length).sum =
      (joinLines ((aL.drop i).take (j - i))).length := by
    rw [joinLines, List.length_flatten]
  have h5 : joinLines (aL.drop i) =
      joinLines ((aL.drop i).take (j - i)) ++ joinLines ((aL.drop i).drop (j - i)) := by
    rw [joinLines, joinLines, joinLines, ← List.flatten_append, List.take_append_drop]
  rw [h3, h4, h5, List.take_left]

theorem joinLines_slice_ne (bL : List (List Nat)) (hbne : ∀ l ∈ bL, l ≠ [])
    (y f : Nat) (hyf : y < f) (hfN : f ≤ bL.length) :
    joinLines ((bL.take f).drop y) ≠ [] := by
  rw [List.drop_take]
  have hy : y < bL.length := by omega
  rw [List.drop_eq_getElem_cons hy]
  rw [show f - y = (f - y - 1) + 1 from by omega]
  rw [List.take_succ_cons]
  rw [joinLines, List.flatten_cons]
  intro hc
  rw [List.append_eq_nil] at hc
  exact hbne _ (List.getElem_mem hy) hc.1

theorem splitAfterNl_ne_nil : ∀ t : List Nat, splitAfterNl t ≠ []
  | [] => by simp [splitAfterNl]
  | c :: rest => by
    simp only [splitAfterNl]
    by_cases hc : c = 10
    · rw [if_pos hc]
      simp
    · rw [if_neg hc]
      cases h : splitAfterNl rest with
      | nil => simp
      | cons l ls => simp

theorem splitAfterNl_dropLast_ne : ∀ t : List Nat, ∀ l ∈ (splitAfterNl t).dropLast, l ≠ []
  | [] => by simp [splitAfterNl]
  | c :: rest => by
    simp only [splitAfterNl]
    by_cases hc : c = 10
    · rw [if_pos hc]
      rw [List.dropLast_cons_of_ne_nil (splitAfterNl_ne_nil rest)]
      intro l hl
      rcases List.mem_cons.mp hl with h | h
      · subst h
        simp
      · exact splitAfterNl_dropLast_ne rest l h
    · rw [if_neg hc]
      cases h : splitAfterNl rest with
      | nil => exact absurd h (splitAfterNl_ne_nil rest)
      | cons l0 ls =>
        cases ls with
        | nil => simp
        | cons l1 ls2 =>
          rw [List.dropLast_cons_of_ne_nil (by simp)]
          intro l hl
          rcases List.mem_cons.mp hl with h2 | h2
          · subst h2
            simp
          · have hmem := splitAfterNl_dropLast_ne rest l
            rw [h] at hmem
            rw [List.dropLast_cons_of_ne_nil (by simp)] at hmem
            exact hmem (List.mem_cons_of_mem _ h2)

theorem splitAfterNl_flatten : ∀ t : List Nat, (splitAfterNl t).flatten = t
  | [] => by simp [splitAfterNl]
  | c :: rest => by
    simp only [splitAfterNl]
    by_cases hc : c = 10
    · rw [if_pos hc]
      rw [List.flatten_cons, splitAfterNl_flatten rest]
      simp
    · rw [if_neg hc]
      cases h : splitAfterNl rest with
      | nil => exact absurd h (splitAfterNl_ne_nil rest)
      | cons l ls =>
        have hr := splitAfterNl_flatten rest
        rw [h, List.flatten_cons] at hr
        rw [List.flatten_cons, List.cons_append, hr]

theorem splitLines_ne_nil (t : List Nat) : ∀ l ∈ splitLines t, l ≠ [] := by
  intro l hl
  rw [splitLines] at hl
  by_cases hc : ((splitAfterNl t).getLast?.getD [0]).length = 0
  · rw [if_pos hc] at hl
    exact splitAfterNl_dropLast_ne t l hl
  · rw [if_neg hc] at hl
    have hne := splitAfterNl_ne_nil t
    have hsplit := List.dropLast_append_getLast hne
    rw [← hsplit] at hl
    rcases List.mem_append.mp hl with h | h
    · exact splitAfterNl_dropLast_ne t l h
    · have hleq : l = (splitAfterNl t).getLast hne := by simpa using h
      subst hleq
      intro hnil
      apply hc
      rw [List.getLast?_eq_getLast _ hne, Option.getD_some, hnil]
      rfl

theorem joinLines_splitLines (t : List Nat) : joinLines (splitLines t) = t := by
  rw [splitLines]
  by_cases hc : ((splitAfterNl t).getLast?.getD [0]).length = 0
  · rw [if_pos hc]
    have hne := splitAfterNl_ne_nil t
    have hlast : (splitAfterNl t).getLast hne = [] := by
      rw [List.getLast?_eq_getLast _ hne, Option.getD_some] at hc
      exact List.length_eq_zero.mp hc
    conv_rhs => rw [← splitAfterNl_flatten t]
    conv_rhs => rw [← List.dropLast_append_getLast hne]
    rw [joinLines, List.flatten_append, hlast]
    simp
  · rw [if_neg hc]
    rw [joinLines]
    exact splitAfterNl_flatten t

theorem lines_slice_eq (aL bL : List (List Nat)) :
    ∀ (g x y : Nat), x + g ≤ aL.length → y + g ≤ bL.length →
    (∀ i : Nat, i < g → aL.getD (x + i) [] = bL.getD (y + i) []) →
    (aL.drop x).take g = (bL.drop y).take g
  | 0, x, y, _, _, _ => by simp
  | g + 1, x, y, hxg, hyg, hdiag => by
    have hx : x < aL.length := by omega
    have hy : y < bL.length := by omega
    rw [List.drop_eq_getElem_cons hx, List.drop_eq_getElem_cons hy,
      List.take_succ_cons, List.take_succ_cons]
    congr 1
    · have h0 := hdiag 0 (by omega)
      rw [List.getD_eq_getElem aL [] (by omega : x + 0 < aL.length),
        List.getD_eq_getElem bL [] (by omega : y + 0 < bL.length)] at h0
      exact h0
    · exact lines_slice_eq aL bL g (x + 1) (y + 1) (by omega) (by omega) (fun i hi => by
        have := hdiag (i + 1) (by omega)
        rw [show x + (i + 1) = x + 1 + i from by omega,
          show y + (i + 1) = y + 1 + i from by omega] at this
        exact this)

theorem ComputeEdits_opEdits (before after : List Nat) :
    ComputeEdits before after =
      match Operations (splitLines before) (splitLines after) with
      | none => none
      | some ops => some (opEdits (splitLines before) (splitLines after) ops) := rfl

/-- Replaying the edits produced from a valid operation chain rebuilds
the target text, and those edits are in-bounds, ordered and
non-overlapping. -/
theorem OpsChain_edits (aL bL : List (List Nat)) (hbne : ∀ l ∈ bL, l ≠ []) :
    ∀ {x y : Int} {ops : List Operation}, OpsChain aL bL x y ops →
    ∀ le : Int, 0 ≤ le → le ≤ (lineTot aL x.toNat : Int) →
    applySem (joinLines aL) (opEdits aL bL ops) le =
      extractI (joinLines aL) le (lineTot aL x.toNat : Int) ++ joinLines (bL.drop y.toNat) ∧
    editsValid (joinLines aL).length le (opEdits aL bL ops) := by
  intro x y ops h
  induction h with
  | done h0x h0y hxM hyN hdrop =>
    rename_i x y
    intro le h0le hle
    have hb : (lineTot aL x.toNat : Int) ≤ ((joinLines aL).length : Int) := by
      have := lineTot_mono aL (show x.toNat ≤ aL.length from by omega)
      rw [lineTot_length] at this
      exact_mod_cast this
    refine ⟨?_, trivial⟩
    have hE : opEdits aL bL [] = [] := rfl
    rw [hE, applySem]
    have h1 : joinLines (bL.drop y.toNat) = joinLines (aL.drop x.toNat) := by rw [hdrop]
    rw [h1, ← joinLines_drop aL x.toNat]
    rw [show lineTot aL x.toNat = ((lineTot aL x.toNat : Int)).toNat from rfl]
    exact (extractI_drop _ _ _ h0le hle hb).symm
  | del h0x h0y hxe heM hrest ih =>
    rename_i x y e rest
    intro le h0le hle
    have hxN : x.toNat ≤ aL.length := by omega
    have heN : e.toNat ≤ aL.length := by omega
    have htm := lineTot_mono aL (show x.toNat ≤ e.toNat from by omega)
    have htM := lineTot_mono aL heN
    rw [lineTot_length] at htM
    have hE : opEdits aL bL ((⟨.Delete, x, e, y, 0⟩ : Operation) :: rest) =
        (⟨((lineOffsets aL).getD x.toNat 0 : Int), ((lineOffsets aL).getD e.toNat 0 : Int),
          []⟩ : Edit) :: opEdits aL bL rest := by
      simp only [opEdits, List.flatMap_cons]
      rfl
    rw [hE]
    rw [lineOffsets_getD aL x.toNat hxN, lineOffsets_getD aL e.toNat heN]
    obtain ⟨ihA, ihV⟩ := ih (lineTot aL e.toNat : Int) (by positivity) le_rfl
    constructor
    · rw [applySem]
      dsimp only
      rw [ihA]
      have hz : extractI (joinLines aL) (lineTot aL e.toNat : Int)
          (lineTot aL e.toNat : Int) = [] := extractN_self _ _
      rw [hz]
      simp only [List.append_nil, List.nil_append]
    · have htm2 : ((lineTot aL x.toNat : Nat) : Int) ≤ ((lineTot aL e.toNat : Nat) : Int) := by
        exact_mod_cast htm
      have htM2 : ((lineTot aL e.toNat : Nat) : Int) ≤ (((joinLines aL).length : Nat) : Int) := by
        exact_mod_cast htM
      exact ⟨hle, htm2, htM2, ihV⟩
  | ins h0x h0y hyf hfN hxM hrest ih =>
    rename_i x y f rest
    intro le h0le hle
    have hxN : x.toNat ≤ aL.length := by omega
    have hE : opEdits aL bL ((⟨.Insert, x, x, y, f⟩ : Operation) :: rest) =
        (⟨((lineOffsets aL).getD x.toNat 0 : Int), ((lineOffsets aL).getD x.toNat 0 : Int),
          joinLines ((bL.take f.toNat).drop y.toNat)⟩ : Edit) :: opEdits aL bL rest := by
      simp only [opEdits, List.flatMap_cons]
      rw [if_pos ?hcnz]
      case hcnz =>
        intro hcz
        exact joinLines_slice_ne bL hbne y.toNat f.toNat (by omega) (by omega)
          (List.length_eq_zero.mp hcz)
      rfl
    rw [hE]
    rw [lineOffsets_getD aL x.toNat hxN]
    have hslice : joinLines ((bL.take f.toNat).drop y.toNat) ++ joinLines (bL.drop f.toNat) =
        joinLines (bL.drop y.toNat) := by
      rw [List.drop_take]
      rw [joinLines, joinLines, joinLines, ← List.flatten_append]
      congr 1
      rw [show bL.drop f.toNat = (bL.drop y.toNat).drop (f.toNat - y.toNat) from by
        rw [List.drop_drop]
        congr 1
        omega]
      exact List.take_append_drop _ _
    obtain ⟨ihA, ihV⟩ := ih (lineTot aL x.toNat : Int) (by positivity) le_rfl
    constructor
    · rw [applySem]
      dsimp only
      rw [ihA]
      have hz : extractI (joinLines aL) (lineTot aL x.toNat : Int)
          (lineTot aL x.toNat : Int) = [] := extractN_self _ _
      rw [hz, List.nil_append, List.append_assoc]
      rw [hslice]
    · have hxM2 : ((lineTot aL x.toNat : Nat) : Int) ≤ (((joinLines aL).length : Nat) : Int) := by
        have := lineTot_mono aL hxN
        rw [lineTot_length] at this
        exact_mod_cast this
      exact ⟨hle, le_refl _, hxM2, ihV⟩
  | gap g hg h0x h0y hxg hyg hdiag hrest ih =>
    rename_i x y rest
    intro le h0le hle
    have hgN : (x + g).toNat = x.toNat + g.toNat := by omega
    have hmono : lineTot aL x.toNat ≤ lineTot aL (x.toNat + g.toNat) :=
      lineTot_mono aL (by omega)
    obtain ⟨ihA, ihV⟩ := ih le h0le (by
      rw [hgN]
      exact le_trans hle (by exact_mod_cast hmono))
    rw [hgN] at ihA
    refine ⟨?_, ihV⟩
    rw [ihA]
    have hsplit1 : extractI (joinLines aL) le (lineTot aL (x.toNat + g.toNat) : Int) =
        extractI (joinLines aL) le (lineTot aL x.toNat : Int) ++
        extractI (joinLines aL) (lineTot aL x.toNat : Int)
          (lineTot aL (x.toNat + g.toNat) : Int) :=
      (extractI_append_part _ _ _ _ h0le hle (by exact_mod_cast hmono)).symm
    rw [hsplit1, List.append_assoc]
    congr 1
    have hex : extractI (joinLines aL) (lineTot aL x.toNat : Int)
        (lineTot aL (x.toNat + g.toNat) : Int) =
        joinLines ((aL.drop x.toNat).take g.toNat) := by
      rw [extractI]
      rw [show ((lineTot aL x.toNat : Int)).toNat = lineTot aL x.toNat from rfl,
        show ((lineTot aL (x.toNat + g.toNat) : Int)).toNat =
          lineTot aL (x.toNat + g.toNat) from rfl]
      have hje := joinLines_extract aL x.toNat (x.toNat + g.toNat) (by omega)
      rw [show x.toNat + g.toNat - x.toNat = g.toNat from by omega] at hje
      exact hje
    rw [hex]
    rw [lines_slice_eq aL bL g.toNat x.toNat y.toNat (by omega) (by omega) (fun i hi => by
      have := hdiag (i : Int) (by positivity) (by omega)
      rw [show (x + (i : Int)).toNat = x.toNat + i from by omega,
        show (y + (i : Int)).toNat = y.toNat + i from by omega] at this
      exact this)]
    rw [show (y + g).toNat = y.toNat + g.toNat from by omega]
    rw [joinLines, joinLines, joinLines, ← List.flatten_append]
    congr 1
    rw [show bL.drop (y.toNat + g.toNat) = (bL.drop y.toNat).drop g.toNat from by
      rw [List.drop_drop]]
    exact List.take_append_drop _ _

theorem Operations_spec (aL bL : List (List Nat)) :
    ∃ ops, Operations aL bL = some ops ∧ OpsChain aL bL 0 0 ops := by
  by_cases hz : aL.length = 0 ∧ bL.length = 0
  · refine ⟨[], by rw [Operations, if_pos hz], ?_⟩
    apply OpsChain.done le_rfl le_rfl (by positivity) (by positivity)
    rw [List.length_eq_zero.mp hz.1, List.length_eq_zero.mp hz.2]
  · classical
    have hex : ∃ d : Nat, sesReach aL bL d (aL.length : Int) (bL.length : Int) :=
      ⟨aL.length + bL.length, sesReach_corner aL bL⟩
    have hdm : sesReach aL bL (Nat.find hex) (aL.length : Int) (bL.length : Int) :=
      Nat.find_spec hex
    have hmin : ∀ d', sesReach aL bL d' (aL.length : Int) (bL.length : Int) →
        Nat.find hex ≤ d' := fun d' h' => Nat.find_min' hex h'
    have hdmle : Nat.find hex ≤ bL.length + aL.length := by
      have := hmin _ (sesReach_corner aL bL)
      omega
    obtain ⟨TF, hses, hTF⟩ := shortestEditSequence_success aL bL (Nat.find hex) hdm hmin hdmle
    have hcorner := myersF_success aL bL (Nat.find hex) hdm hmin
    have hsnake := backtrack_spec aL bL (Nat.find hex) TF hTF hdmle hdm hcorner
    obtain ⟨ops, hloop, hchain⟩ := opsLoop_spec aL bL hsnake le_rfl le_rfl []
    refine ⟨ops, ?_, hchain⟩
    rw [Operations, if_neg hz, hses]
    dsimp only
    rw [hloop, List.nil_append]

/-- C7: the Myers `ComputeEdits` always succeeds, its edit list passes
validation against the length of `before` (in-bounds, sorted,
non-overlapping, so `Validate` returns it unchanged), and applying it to
`before` reproduces `after`. -/
theorem C7_myers_round_trip (before after : List Nat) :
    ∃ (E : List Edit) (size : Int), ComputeEdits before after = some E ∧
      Validate before.length E = Except.ok (E, size) ∧
      Apply before E = ApplyResult.ok after := by
  obtain ⟨ops, hops, hchain⟩ := Operations_spec (splitLines before) (splitLines after)
  have hjb : joinLines (splitLines before) = before := joinLines_splitLines before
  have hja : joinLines (splitLines after) = after := joinLines_splitLines after
  have hbne : ∀ l ∈ splitLines after, l ≠ [] := splitLines_ne_nil after
  have hCE : ComputeEdits before after =
      some (opEdits (splitLines before) (splitLines after) ops) := by
    rw [ComputeEdits_opEdits, hops]
  obtain ⟨hA, hV⟩ := OpsChain_edits (splitLines before) (splitLines after) hbne hchain
    0 le_rfl (by positivity)
  rw [hjb] at hA hV
  rw [show ((0 : Int)).toNat = 0 from rfl, show lineTot (splitLines before) 0 = 0 from rfl,
    show (((0 : Nat) : Int)) = (0 : Int) from rfl,
    show extractI before 0 0 = [] from extractN_self _ _, List.nil_append,
    List.drop_zero, hja] at hA
  have hsorted : isSorted (opEdits (splitLines before) (splitLines after) ops) = true :=
    editsValid_isSorted before.length _ 0 hV
  obtain ⟨size, hvs⟩ := editsValid_validateSize before.length
    (opEdits (splitLines before) (splitLines after) ops) 0 (before.length : Int) hV le_rfl
  have hval : Validate before.length (opEdits (splitLines before) (splitLines after) ops) =
      Except.ok (opEdits (splitLines before) (splitLines after) ops, size) := by
    unfold Validate
    rw [if_pos hsorted]
    dsimp only
    rw [hvs]
  refine ⟨opEdits (splitLines before) (splitLines after) ops, size, hCE, hval, ?_⟩
  obtain ⟨happ, -⟩ := Validate_ok_Apply before _ _ size hval
  rw [happ, hA]

end GoDiff
